import Mathlib

/-!
TaskScheduler: a verification development for `TTask.h`.

A shallow embedding of the task scheduler of `src/TTask.h` and theorems about it.

* Handles (`TaskID`) wrap a `size_t`; the sentinel is `static_cast<size_t>(-1)`.
* `Any` is the type-erased container: `content` is either null or a holder of one
  value together with its dynamic type.
* The types that tasks compute with are given by a universe `Ty` of type names and
  an interpretation `den : Ty → Type`; two distinct names are two distinct C++ types.
* `TTaskScheduler` holds `tasks_`, `results_` and `dependencies_`, and one ghost
  field, `invoked`, that records every call of a task's callable.
* C++ exceptions are results (`Res.throw`) that carry the scheduler state at the
  point of the throw, since the caller may catch them and go on using the scheduler.
* The recursion of `getResult`, `executeTask` and `execute` is not bounded in the
  source (a cyclic reference recurses forever), so the embedding takes a fuel
  argument; `Res.timeout` means that the fuel ran out.
-/

namespace TaskScheduler

/-! ## Handles -/

/-- The constant `INVALID_TASK_ID = static_cast<size_t>(-1)`, that is `2^64 - 1`. -/
def INVALID_TASK_ID : Nat := 18446744073709551615

/-- Class `TaskID`: a wrapper of one `size_t`. -/
structure TaskID where
  id_ : Nat
deriving DecidableEq, Repr

/-- The default constructor `TaskID()`. -/
def TaskID.invalid : TaskID := ⟨INVALID_TASK_ID⟩

/-- Method `TaskID::isValid`. -/
def TaskID.isValid (t : TaskID) : Bool := t.id_ != INVALID_TASK_ID

/-! ## Exceptions -/

/-- The exceptions that the code throws. -/
inductive Exc where
  | invalid_argument
  | out_of_range
  | bad_cast
deriving DecidableEq, Repr

/-! ## The container `Any` -/

/-- Class `Any`: `content` is null (`none`) or points to a `Holder<T>` with the held
value; the dynamic type of the holder is the first component. -/
structure Any {Ty : Type} (den : Ty → Type) where
  content : Option (Sigma den)

/-- The default constructor `Any()`. -/
def Any.empty {Ty : Type} {den : Ty → Type} : Any den := ⟨none⟩

/-- The converting constructor `Any(const T& value)`. -/
def Any.of {Ty : Type} {den : Ty → Type} (T : Ty) (v : den T) : Any den := ⟨some ⟨T, v⟩⟩

/-- The copy constructor and copy assignment of `Any`: `content->clone()` when the
source holds something, null otherwise. -/
def Any.copy {Ty : Type} {den : Ty → Type} (other : Any den) : Any den :=
  match other.content with
  | some ⟨T, v⟩ => ⟨some ⟨T, v⟩⟩
  | none => ⟨none⟩

/-- What a call of `any_cast<T>` does. -/
inductive Cast (α : Type) where
  /-- The reference `holder->held` is returned. -/
  | held (v : α)
  /-- The statement `throw std::bad_cast()`. -/
  | bad_cast
  /-- The statement `assert(content)` fails. -/
  | assertion_failed

/-- Method `Any::any_cast<T>`: the assertion on `content`, then the `dynamic_cast`
to `Holder<T>`, which succeeds exactly when the holder was made for `T`. -/
def Any.any_cast {Ty : Type} [DecidableEq Ty] {den : Ty → Type} (a : Any den) (T : Ty) :
    Cast (den T) :=
  match a.content with
  | none => .assertion_failed
  | some ⟨T', v⟩ => if h : T' = T then .held (h ▸ v) else .bad_cast

/-- The copy assignment `Any::operator=` of `other` to `self`: the old content is deleted
and replaced by a clone of the content of `other`; an assignment to itself changes
nothing. The result is the new value of `self`. -/
def Any.assign {Ty : Type} {den : Ty → Type} (_self other : Any den) : Any den :=
  other.copy

/-- Method `Any::any_cast<T>` in a build with `NDEBUG`, where `assert(content)` is
compiled out: the `dynamic_cast` of a null pointer gives a null pointer, so the empty
`Any` reaches `throw std::bad_cast()`. -/
def Any.any_cast_ndebug {Ty : Type} [DecidableEq Ty] {den : Ty → Type} (a : Any den)
    (T : Ty) : Cast (den T) :=
  match a.content with
  | none => .bad_cast
  | some ⟨T', v⟩ => if h : T' = T then .held (h ▸ v) else .bad_cast

/-- The exception that a call of `any_cast<T>` raises to its caller, if it raises one;
a failed assertion ends the program and raises nothing. -/
def Cast.thrown? {α : Type} (c : Cast α) : Option Exc :=
  match c with
  | .held _ => none
  | .bad_cast => some .bad_cast
  | .assertion_failed => none

/-! ## Tasks -/

/-- A bound argument of a task, seen from the call `func_(arg1_, ...)` where it is
converted to a value of type `T`: either a value that is already there (this covers a
`TaskID` bound as first argument, which converts to its index), or a
`FutureResult<T>` bound to the handle `id_`, whose `operator T` calls
`getResult<T>(id_)`. -/
inductive Arg {Ty : Type} (den : Ty → Type) (T : Ty) where
  | value (v : den T)
  | future (id_ : TaskID)

/-- The implementations of `ITask`. The callable `func_` is a pure function; it is
taken together with the implicit conversions of its actual arguments. Its result type
`R` is a type of the universe `Ty`, which `execute` wraps with `Any(const T&)`.

* `task1`: `Task1<Func, Arg1>`.
* `task2`: `Task2<Func, Arg1, Arg2>` with `Arg2` not `TaskID`. C++ does not fix the
  order in which the two arguments of `func_(arg1_, arg2_)` are converted;
  `rightFirst` says that `arg2_` is converted first.
* `task2dep`: `Task2<Func, Arg1, TaskID>`. `R` is
  `std::invoke_result<Func, Arg1, size_t>::type`, the type at which `execute` asks for
  the result of `arg2_`, and `conv` is the conversion of that value to the second
  parameter of the callable. -/
inductive ITask {Ty : Type} (den : Ty → Type) where
  | task1 (A R : Ty) (func_ : den A → den R) (arg1_ : Arg den A)
  | task2 (A B R : Ty) (func_ : den A → den B → den R) (arg1_ : Arg den A)
      (arg2_ : Arg den B) (rightFirst : Bool)
  | task2dep (A B R : Ty) (func_ : den A → den B → den R) (conv : den R → den B)
      (arg1_ : Arg den A) (arg2_ : TaskID)

/-! ## The scheduler state -/

/-- Class `TTaskScheduler`. The map `results_` is a partial function. In the map
`dependencies_` an absent key and a key bound to the empty vector are identified
(`operator[]` creates the latter in `executeTask`, and nothing tells them apart).
The ghost field `invoked` lists, in order, the handles whose callable was called. -/
structure TTaskScheduler {Ty : Type} (den : Ty → Type) where
  tasks_ : List (ITask den)
  results_ : TaskID → Option (Any den)
  dependencies_ : TaskID → List TaskID
  invoked : List TaskID

/-- A freshly constructed scheduler. -/
def TTaskScheduler.new {Ty : Type} {den : Ty → Type} : TTaskScheduler den :=
  { tasks_ := [], results_ := fun _ => none, dependencies_ := fun _ => [], invoked := [] }

/-- The result of running an operation. `ok` and `throw` carry the scheduler state in
which the operation returned or threw. `abort` is a failed `assert`, `undefined` is
an index into `tasks_` that is out of bounds, and `timeout` is the end of the fuel. -/
inductive Res {Ty : Type} (den : Ty → Type) (α : Type) where
  | ok (v : α) (s : TTaskScheduler den)
  | throw (e : Exc) (s : TTaskScheduler den)
  | abort
  | undefined
  | timeout

/-- Sequencing of two steps: the second runs only when the first returned. -/
def Res.bind {Ty : Type} {den : Ty → Type} {α β : Type} (r : Res den α)
    (f : α → TTaskScheduler den → Res den β) : Res den β :=
  match r with
  | .ok v s => f v s
  | .throw e s => .throw e s
  | .abort => .abort
  | .undefined => .undefined
  | .timeout => .timeout

/-- The value an operation returned, if it returned. -/
def Res.value? {Ty : Type} {den : Ty → Type} {α : Type} (r : Res den α) : Option α :=
  match r with
  | .ok v _ => some v
  | _ => none

/-- The exception an operation threw, if it threw. -/
def Res.exc? {Ty : Type} {den : Ty → Type} {α : Type} (r : Res den α) : Option Exc :=
  match r with
  | .throw e _ => some e
  | _ => none

/-- The scheduler state an operation left behind, when it returned or threw. -/
def Res.state? {Ty : Type} {den : Ty → Type} {α : Type} (r : Res den α) :
    Option (TTaskScheduler den) :=
  match r with
  | .ok _ s => some s
  | .throw _ s => some s
  | _ => none

section Operations

variable {Ty : Type} [DecidableEq Ty] {den : Ty → Type}

/-- Ghost step: the callable of task `id` is called. -/
def TTaskScheduler.logCall (s : TTaskScheduler den) (id : TaskID) : TTaskScheduler den :=
  { s with invoked := s.invoked ++ [id] }

/-- The assignment `results_[id] = v`. -/
def TTaskScheduler.store (s : TTaskScheduler den) (id : TaskID) (v : Any den) :
    TTaskScheduler den :=
  { s with results_ := Function.update s.results_ id (some v) }

/-- The expression `results_[id].any_cast<T>()` at the end of `getResult`; when the
key is absent `operator[]` first inserts an empty `Any`. -/
def castResult (T : Ty) (id : TaskID) (s : TTaskScheduler den) : Res den (den T) :=
  match s.results_ id with
  | some a =>
    match a.any_cast T with
    | .held v => .ok v s
    | .bad_cast => .throw .bad_cast s
    | .assertion_failed => .abort
  | none =>
    match (Any.empty : Any den).any_cast T with
    | .held v => .ok v (s.store id Any.empty)
    | .bad_cast => .throw .bad_cast (s.store id Any.empty)
    | .assertion_failed => .abort

mutual

/-- Method `TTaskScheduler::getResult<T>`. Its call `executeTask(id)` is the overload
with one argument, which calls `executeTask(id, visited)` with a fresh map `visited`. -/
def getResult (fuel : Nat) (T : Ty) (id : TaskID) (s : TTaskScheduler den) :
    Res den (den T) :=
  match fuel with
  | 0 => .timeout
  | fuel + 1 =>
    if !id.isValid then .throw .invalid_argument s
    else if (s.results_ id).isNone then
      if id.id_ ≥ s.tasks_.length then .throw .out_of_range s
      else (executeTask fuel id [] s).bind fun _ s1 => castResult T id s1
    else castResult T id s

/-- Method `TTaskScheduler::executeTask(TaskID, visited)`. The map `visited` is the
list of the handles whose flag is set; the list after the call is returned. -/
def executeTask (fuel : Nat) (id : TaskID) (visited : List TaskID)
    (s : TTaskScheduler den) : Res den (List TaskID) :=
  match fuel with
  | 0 => .timeout
  | fuel + 1 =>
    if id ∈ visited then .ok visited s
    else
      (executeDeps fuel (s.dependencies_ id) (id :: visited) s).bind fun visited1 s1 =>
        if (s1.results_ id).isNone then
          match s1.tasks_[id.id_]? with
          | none => .undefined
          | some task => (execute fuel id task s1).bind fun v s2 => .ok visited1 (s2.store id v)
        else .ok visited1 s1

/-- The loop `for (TaskID dep : dependencies_[id])` of `executeTask`. -/
def executeDeps (fuel : Nat) (deps : List TaskID) (visited : List TaskID)
    (s : TTaskScheduler den) : Res den (List TaskID) :=
  match fuel with
  | 0 => .timeout
  | fuel + 1 =>
    match deps with
    | [] => .ok visited s
    | dep :: rest =>
      if dep ∈ visited then executeDeps fuel rest visited s
      else (executeTask fuel dep visited s).bind fun visited1 s1 =>
        executeDeps fuel rest visited1 s1

/-- Methods `Task1::execute` and `Task2::execute` of the task stored under `self`. -/
def execute (fuel : Nat) (self : TaskID) (task : ITask den) (s : TTaskScheduler den) :
    Res den (Any den) :=
  match fuel with
  | 0 => .timeout
  | fuel + 1 =>
    match task with
    | .task1 _ R func_ arg1_ =>
      (convert fuel arg1_ s).bind fun x s1 => .ok (Any.of R (func_ x)) (s1.logCall self)
    | .task2 _ _ R func_ arg1_ arg2_ rightFirst =>
      if rightFirst then
        (convert fuel arg2_ s).bind fun y s1 =>
          (convert fuel arg1_ s1).bind fun x s2 =>
            .ok (Any.of R (func_ x y)) (s2.logCall self)
      else
        (convert fuel arg1_ s).bind fun x s1 =>
          (convert fuel arg2_ s1).bind fun y s2 =>
            .ok (Any.of R (func_ x y)) (s2.logCall self)
    | .task2dep _ _ R func_ conv arg1_ arg2_ =>
      (getResult fuel R arg2_ s).bind fun resolvedArg2 s1 =>
        (convert fuel arg1_ s1).bind fun x s2 =>
          .ok (Any.of R (func_ x (conv resolvedArg2))) (s2.logCall self)

/-- The conversion of a bound argument to the parameter type at the call of `func_`;
for a `FutureResult<T>` this is `FutureResult::operator T`. -/
def convert (fuel : Nat) {T : Ty} (a : Arg den T) (s : TTaskScheduler den) :
    Res den (den T) :=
  match fuel with
  | 0 => .timeout
  | fuel + 1 =>
    match a with
    | .value v => .ok v s
    | .future id_ => getResult fuel T id_ s

end

/-- The loop of `executeAll`, from index `i` on. -/
def executeAllFrom (fuel : Nat) (i : Nat) (visited : List TaskID) (s : TTaskScheduler den) :
    Res den Unit :=
  match fuel with
  | 0 => .timeout
  | fuel + 1 =>
    if i < s.tasks_.length then
      if (⟨i⟩ : TaskID) ∈ visited then executeAllFrom fuel (i + 1) visited s
      else (executeTask fuel ⟨i⟩ visited s).bind fun visited1 s1 =>
        executeAllFrom fuel (i + 1) visited1 s1
    else .ok () s

/-- Method `TTaskScheduler::executeAll`. -/
def executeAll (fuel : Nat) (s : TTaskScheduler den) : Res den Unit :=
  executeAllFrom fuel 0 [] s

/-- Method `TTaskScheduler::add(Func, Arg1)`: the new handle and the new state. -/
def add1 (A R : Ty) (func : den A → den R) (arg1 : Arg den A) (s : TTaskScheduler den) :
    TaskID × TTaskScheduler den :=
  (⟨s.tasks_.length⟩, { s with tasks_ := s.tasks_ ++ [.task1 A R func arg1] })

/-- Method `TTaskScheduler::add(Func, Arg1, Arg2)` when `Arg2` is not `TaskID`. -/
def add2 (A B R : Ty) (func : den A → den B → den R) (arg1 : Arg den A) (arg2 : Arg den B)
    (rightFirst : Bool) (s : TTaskScheduler den) : TaskID × TTaskScheduler den :=
  (⟨s.tasks_.length⟩, { s with tasks_ := s.tasks_ ++ [.task2 A B R func arg1 arg2 rightFirst] })

/-- Method `TTaskScheduler::addDependency`. -/
def addDependency (task dependency : TaskID) (s : TTaskScheduler den) : TTaskScheduler den :=
  { s with dependencies_ :=
      Function.update s.dependencies_ task (s.dependencies_ task ++ [dependency]) }

/-- Method `TTaskScheduler::add(Func, Arg1, Arg2)` when `Arg2` is `TaskID`: the task is
stored, then the handle is checked, then the edge is recorded. -/
def add2dep (A B R : Ty) (func : den A → den B → den R) (conv : den R → den B)
    (arg1 : Arg den A) (arg2 : TaskID) (s : TTaskScheduler den) : Res den TaskID :=
  let id : TaskID := ⟨s.tasks_.length⟩
  let s1 : TTaskScheduler den :=
    { s with tasks_ := s.tasks_ ++ [.task2dep A B R func conv arg1 arg2] }
  if !arg2.isValid then .throw .invalid_argument s1
  else .ok id (addDependency id arg2 s1)

/-- Method `TTaskScheduler::getFutureResult<T>` with the constructor of
`FutureResult<T>`: both check the handle and nothing else. -/
def getFutureResult (T : Ty) (id : TaskID) (s : TTaskScheduler den) : Res den (Arg den T) :=
  if !id.isValid then .throw .invalid_argument s
  else if !id.isValid then .throw .invalid_argument s
  else .ok (.future id) s

/-- The conversion `FutureResult<T>::operator T` of a future bound to `id`. -/
def materialize (fuel : Nat) (T : Ty) (id : TaskID) (s : TTaskScheduler den) :
    Res den (den T) :=
  getResult fuel T id s

end Operations


/-! ## Specification-level definitions -/

section Specification

variable {Ty : Type} [DecidableEq Ty] {den : Ty → Type}

/-- The handles an argument refers to. -/
def Arg.refs {T : Ty} (a : Arg den T) : List TaskID :=
  match a with
  | .value _ => []
  | .future id_ => [id_]

/-- The handles whose results a task asks for when it is executed. -/
def ITask.refs (task : ITask den) : List TaskID :=
  match task with
  | .task1 _ _ _ arg1_ => arg1_.refs
  | .task2 _ _ _ _ arg1_ arg2_ _ => arg1_.refs ++ arg2_.refs
  | .task2dep _ _ _ _ _ arg1_ arg2_ => arg2_ :: arg1_.refs

/-- The result type of the callable of a task. -/
def ITask.resultTy (task : ITask den) : Ty :=
  match task with
  | .task1 _ R _ _ => R
  | .task2 _ _ R _ _ _ _ => R
  | .task2dep _ _ R _ _ _ _ => R

/-- The handles of a task together with the type at which each result is requested. -/
def Arg.requests {T : Ty} (a : Arg den T) : List (TaskID × Ty) :=
  match a with
  | .value _ => []
  | .future id_ => [(id_, T)]

/-- The requests a task makes when it is executed. For a handle bound as second argument
the type is `R`, the type that `execute` passes to `getResult`. -/
def ITask.requests (task : ITask den) : List (TaskID × Ty) :=
  match task with
  | .task1 _ _ _ arg1_ => arg1_.requests
  | .task2 _ _ _ _ arg1_ arg2_ _ => arg1_.requests ++ arg2_.requests
  | .task2dep _ _ R _ _ arg1_ arg2_ => (arg2_, R) :: arg1_.requests

/-- The handles of a task together with the type of the parameter of the callable that
receives each result. For a handle bound as second argument that is `B`, the second
parameter type of `func_`. -/
def ITask.expects (task : ITask den) : List (TaskID × Ty) :=
  match task with
  | .task1 _ _ _ arg1_ => arg1_.requests
  | .task2 _ _ _ _ arg1_ arg2_ _ => arg1_.requests ++ arg2_.requests
  | .task2dep _ B _ _ _ arg1_ arg2_ => (arg2_, B) :: arg1_.requests

/-- The value of an argument, given the values `val` of the tasks. -/
def evalArg (val : TaskID → Option (Any den)) {T : Ty} (a : Arg den T) : Option (den T) :=
  match a with
  | .value v => some v
  | .future id_ =>
    match val id_ with
    | some r =>
      match r.any_cast T with
      | .held v => some v
      | _ => none
    | none => none

/-- The value of a stored task, given the values `val` of the tasks it refers to: the
callable applied to the values of its arguments. -/
def ITask.eval (val : TaskID → Option (Any den)) (task : ITask den) : Option (Any den) :=
  match task with
  | .task1 _ R func_ arg1_ =>
    match evalArg val arg1_ with
    | some x => some (Any.of R (func_ x))
    | none => none
  | .task2 _ _ R func_ arg1_ arg2_ _ =>
    match evalArg val arg1_, evalArg val arg2_ with
    | some x, some y => some (Any.of R (func_ x y))
    | _, _ => none
  | .task2dep _ _ R func_ conv arg1_ arg2_ =>
    match evalArg val (Arg.future arg2_ : Arg den R), evalArg val arg1_ with
    | some r, some x => some (Any.of R (func_ x (conv r)))
    | _, _ => none

/-- The value of the task under handle `id` as a function of the task table alone, by
direct application of the callables, looking at most `k` references deep. It ignores
the cache, the edges and the order of evaluation. -/
def denote (k : Nat) (tasks : List (ITask den)) (id : TaskID) : Option (Any den) :=
  match k with
  | 0 => none
  | k + 1 =>
    match tasks[id.id_]? with
    | none => none
    | some task => task.eval (fun d => denote k tasks d)

/-- A property of the state an operation leaves behind, whether it returned or threw. -/
def Res.All {α : Type} (r : Res den α) (P : TTaskScheduler den → Prop) : Prop :=
  match r with
  | .ok _ s => P s
  | .throw _ s => P s
  | _ => True

/-- A property `P` of the value and state when the operation returned, and `Q` of the
state when it threw. -/
def Res.Sat {α : Type} (r : Res den α) (P : α → TTaskScheduler den → Prop)
    (Q : TTaskScheduler den → Prop) : Prop :=
  match r with
  | .ok v s => P v s
  | .throw _ s => Q s
  | _ => True

/-- What a run of `getResult` or `executeAll` may change: nothing in `tasks_` and
`dependencies_`, no entry of `results_` that is there, and `invoked` only grows. -/
structure Extends (s s' : TTaskScheduler den) : Prop where
  tasks : s'.tasks_ = s.tasks_
  deps : s'.dependencies_ = s.dependencies_
  results : ∀ id a, s.results_ id = some a → s'.results_ id = some a
  invoked : s.invoked <+: s'.invoked

/-- The invariant of the scheduler states.
* `size`: the table is indexed by `size_t` and the sentinel is not an index.
* `cached`: a cached result was produced by a call of the callable and is the value of
  the task.
* `logged`: a callable that was called has its result in the cache.
* `edges`: a recorded edge leaves a stored task and leads to a handle the task asks for.
* `order`: when a callable is called, the recorded dependencies of its task were
  called before.
* `nodup`: no callable was called twice. -/
structure Inv (s : TTaskScheduler den) : Prop where
  size : s.tasks_.length ≤ INVALID_TASK_ID
  cached : ∀ id a, s.results_ id = some a →
    id ∈ s.invoked ∧ ∃ k, denote k s.tasks_ id = some a
  logged : ∀ id, id ∈ s.invoked → s.results_ id ≠ none
  edges : ∀ id d, d ∈ s.dependencies_ id →
    ∃ task, s.tasks_[id.id_]? = some task ∧ d ∈ task.refs
  order : ∀ p T q, s.invoked = p ++ T :: q → ∀ d ∈ s.dependencies_ T, d ∈ p
  nodup : s.invoked.Nodup

/-- The edges part of the invariant. -/
def Edges (s : TTaskScheduler den) : Prop :=
  ∀ id d, d ∈ s.dependencies_ id → ∃ task, s.tasks_[id.id_]? = some task ∧ d ∈ task.refs

/-- Every callable called between `s` and `s'` belongs to a task that has a value at
depth `k`. -/
def New (k : Nat) (s s' : TTaskScheduler den) : Prop :=
  ∀ y ∈ s'.invoked, y ∈ s.invoked ∨ (denote k s.tasks_ y).isSome

/-- What the resolution of the arguments of a task, from `s` to `s'`, guarantees. -/
structure ArgsDone (s : TTaskScheduler den) (rs : List TaskID) (s' : TTaskScheduler den) :
    Prop where
  inv : Inv s'
  ext : Extends s s'
  refs : ∀ d ∈ rs, s'.results_ d ≠ none
  quiet : ∀ k, (∀ d ∈ rs, (denote k s.tasks_ d).isSome) → New k s s'

/-- The postcondition of `execute`: the state before the ghost step came from resolving
the arguments, and the returned value is the value of the task. -/
def ExecPost (s : TTaskScheduler den) (self : TaskID) (task : ITask den) (v : Any den)
    (s2 : TTaskScheduler den) : Prop :=
  ∃ s2', s2 = s2'.logCall self ∧ ArgsDone s task.refs s2' ∧
    ∃ k, task.eval (fun d => denote k s.tasks_ d) = some v

/-- Completeness of `executeTask` at depth `k`: a task that has a value at depth `k` is
resolved by a run with enough fuel, whatever is marked as visited. -/
def CompleteT {Ty : Type} [DecidableEq Ty] (den : Ty → Type) (k : Nat) : Prop :=
  ∀ (id : TaskID) (a : Any den) (visited : List TaskID) (s : TTaskScheduler den), Inv s →
    denote k s.tasks_ id = some a →
    ∃ fuel visited' s', executeTask fuel id visited s = .ok visited' s' ∧
      (id ∈ visited ∨ s'.results_ id = some a)

/-- Completeness of `getResult` at depth `k`: with enough fuel it caches the value of
the task and ends with the cast of that value. -/
def CompleteG {Ty : Type} [DecidableEq Ty] (den : Ty → Type) (k : Nat) : Prop :=
  ∀ (T : Ty) (id : TaskID) (a : Any den) (s : TTaskScheduler den), Inv s →
    denote k s.tasks_ id = some a →
    ∃ fuel s', Inv s' ∧ Extends s s' ∧ s'.results_ id = some a ∧
      getResult fuel T id s = castResult T id s'

/-- An argument that the caller can build: a `FutureResult` is only made from a valid
handle (`getFutureResult` and the constructor throw otherwise). -/
def Arg.Made {T : Ty} (a : Arg den T) : Prop :=
  match a with
  | .value _ => True
  | .future id_ => id_.isValid = true

/-- One call of a public operation, from state `s` to state `s'`. A call that throws
leaves a state in which the caller can go on. A call of `add` needs room in the vector
`tasks_`, which holds fewer than `2^64 - 1` tasks. -/
inductive Step : TTaskScheduler den → TTaskScheduler den → Prop where
  | add1 {s : TTaskScheduler den} (A R : Ty) (func : den A → den R) (arg1 : Arg den A) :
      s.tasks_.length < INVALID_TASK_ID → arg1.Made →
      Step s (add1 A R func arg1 s).2
  | add2 {s : TTaskScheduler den} (A B R : Ty) (func : den A → den B → den R)
      (arg1 : Arg den A) (arg2 : Arg den B) (rightFirst : Bool) :
      s.tasks_.length < INVALID_TASK_ID → arg1.Made → arg2.Made →
      Step s (add2 A B R func arg1 arg2 rightFirst s).2
  | add2dep {s s' : TTaskScheduler den} (A B R : Ty) (func : den A → den B → den R)
      (conv : den R → den B) (arg1 : Arg den A) (arg2 : TaskID) :
      s.tasks_.length < INVALID_TASK_ID → arg1.Made →
      (add2dep A B R func conv arg1 arg2 s).state? = some s' → Step s s'
  | getFutureResult {s s' : TTaskScheduler den} (T : Ty) (id : TaskID) :
      (getFutureResult T id s).state? = some s' → Step s s'
  | getResult {s s' : TTaskScheduler den} (fuel : Nat) (T : Ty) (id : TaskID) :
      (getResult fuel T id s).state? = some s' → Step s s'
  | materialize {s s' : TTaskScheduler den} (fuel : Nat) (T : Ty) (id : TaskID) :
      (materialize fuel T id s).state? = some s' → Step s s'
  | executeAll {s s' : TTaskScheduler den} (fuel : Nat) :
      (executeAll fuel s).state? = some s' → Step s s'

/-- The states that a sequence of calls of the public operations leads to from `s`. -/
inductive Later (s : TTaskScheduler den) : TTaskScheduler den → Prop where
  | refl : Later s s
  | step {s' s'' : TTaskScheduler den} : Later s s' → Step s' s'' → Later s s''

/-- The scheduler states that calls of the public operations lead to, starting from a
fresh scheduler. -/
def Reachable (s : TTaskScheduler den) : Prop :=
  Later TTaskScheduler.new s

/-- A successful registration: a call of `add` in state `s` that returned the handle `h`
and left the state `s'`. -/
inductive Registers : TTaskScheduler den → TaskID → TTaskScheduler den → Prop where
  | add1 {s : TTaskScheduler den} (A R : Ty) (func : den A → den R) (arg1 : Arg den A) :
      Registers s (add1 A R func arg1 s).1 (add1 A R func arg1 s).2
  | add2 {s : TTaskScheduler den} (A B R : Ty) (func : den A → den B → den R)
      (arg1 : Arg den A) (arg2 : Arg den B) (rightFirst : Bool) :
      Registers s (add2 A B R func arg1 arg2 rightFirst s).1
        (add2 A B R func arg1 arg2 rightFirst s).2
  | add2dep {s s' : TTaskScheduler den} {h : TaskID} (A B R : Ty)
      (func : den A → den B → den R) (conv : den R → den B) (arg1 : Arg den A)
      (arg2 : TaskID) :
      add2dep A B R func conv arg1 arg2 s = .ok h s' → Registers s h s'

/-- Every recorded edge `(A, B)` is the one edge that `add` recorded for the stored task
`A`, whose second argument is the handle `B`, not the sentinel. -/
def EdgesRecorded (s : TTaskScheduler den) : Prop :=
  ∀ A B, B ∈ s.dependencies_ A →
    s.dependencies_ A = [B] ∧ B.isValid = true ∧ A.id_ < s.tasks_.length ∧
    ∃ (X Y Z : Ty) (g : den X → den Y → den Z) (conv : den Z → den Y) (a : Arg den X),
      s.tasks_[A.id_]? = some (.task2dep X Y Z g conv a B)

/-- An operation returned or threw an exception: it neither ran out of fuel, nor
failed an assertion, nor indexed `tasks_` out of bounds. -/
def Res.Done {α : Type} (r : Res den α) : Prop :=
  match r with
  | .ok _ _ => True
  | .throw _ _ => True
  | _ => False

/-- A run settles: from some amount of fuel on it returns or throws, and more fuel does
not change its result. -/
def Settles {α : Type} (r : Nat → Res den α) : Prop :=
  ∃ F, (r F).Done ∧ ∀ F', F ≤ F' → r F' = r F

/-- The state an operation left behind, or `s0` when it left none. -/
def Res.stateOr {α : Type} (r : Res den α) (s0 : TTaskScheduler den) : TTaskScheduler den :=
  match r with
  | .ok _ s => s
  | .throw _ s => s
  | _ => s0

/-- An argument resolves to `x` in state `s`: it is the value `x`, or it is a future
whose handle `getResult` resolves to `x`. -/
def Arg.Resolves {T : Ty} (a : Arg den T) (s : TTaskScheduler den) (x : den T) : Prop :=
  match a with
  | .value v => x = v
  | .future id_ => ∃ fuel s', getResult fuel T id_ s = .ok x s'

/-- Every reference of a stored task points to a task that was stored before it. -/
def Backward (s : TTaskScheduler den) : Prop :=
  ∀ (i : Nat) (task : ITask den), s.tasks_[i]? = some task → ∀ d ∈ task.refs, d.id_ < i

/-- Every reference of a stored task points to a task that was stored before it and
whose callable returns the type at which the result is requested. -/
def WellTyped (s : TTaskScheduler den) : Prop :=
  ∀ (i : Nat) (task : ITask den), s.tasks_[i]? = some task → ∀ p ∈ task.requests,
    p.1.id_ < i ∧ ∃ task', s.tasks_[p.1.id_]? = some task' ∧ task'.resultTy = p.2

/-- Every reference of a stored task points to a task that was stored before it and
whose callable returns the type of the parameter that receives the result: for a handle
bound as second argument, the second parameter type of the callable. -/
def ParamTyped (s : TTaskScheduler den) : Prop :=
  ∀ (i : Nat) (task : ITask den), s.tasks_[i]? = some task → ∀ p ∈ task.expects,
    p.1.id_ < i ∧ ∃ task', s.tasks_[p.1.id_]? = some task' ∧ task'.resultTy = p.2

/-- A sequence of calls `getResult<T>(id)`, one for each request of the list, by a
caller that catches the exceptions. -/
def resolveEach (fuel : Nat) (reqs : List (Ty × TaskID)) (s : TTaskScheduler den) :
    Option (TTaskScheduler den) :=
  match reqs with
  | [] => some s
  | (T, id) :: rest =>
    match getResult fuel T id s with
    | .ok _ s' => resolveEach fuel rest s'
    | .throw _ s' => resolveEach fuel rest s'
    | _ => none

end Specification

/-! ## The functions and types of `tests.cpp` -/

/-- The C++ types of the examples. -/
inductive CTy where
  | int
  | long
deriving DecidableEq, Repr

/-- The values of the types of the examples; the examples stay far from the bounds of
the machine integers. -/
abbrev cden : CTy → Type := fun _ => Int

/-- Function `simpleFunc` of `tests.cpp`. -/
def simpleFunc (x : Int) : Int := x + 1

/-- Function `addFunc` of `tests.cpp`. -/
def addFunc (x y : Int) : Int := x + y

/-- Function `multiplyFunc` of `tests.cpp`. -/
def multiplyFunc (x y : Int) : Int := x * y

/-- The scheduler of the test `GetResultForTaskWithMultipleDependencies` after its
first `add`. -/
def demo1 : TTaskScheduler cden :=
  (add1 CTy.int CTy.int simpleFunc (.value 5) TTaskScheduler.new).2

/-- The same scheduler after the second `add`. -/
def demo2 : TTaskScheduler cden :=
  (add1 CTy.int CTy.int simpleFunc (.value 10) demo1).2

/-- The same scheduler after `add(addFunc, 3, id2)`. -/
def demo3 : TTaskScheduler cden :=
  (add2dep CTy.int CTy.int CTy.int addFunc id (.value 3) ⟨1⟩ demo2).stateOr demo2

/-- The same scheduler after `add(addFunc, getFutureResult<int>(id1), id3)`. -/
def demo4 : TTaskScheduler cden :=
  (add2dep CTy.int CTy.int CTy.int addFunc id (.future ⟨0⟩) ⟨2⟩ demo3).stateOr demo3

/-- The same scheduler after `executeAll()`. -/
def demo5 : TTaskScheduler cden :=
  (executeAll 20 demo4).stateOr demo4

/-- A diamond: task 0, then task 1 that reaches task 0 through a raw handle and through
a future, then task 2 with futures of the tasks 0 and 1. -/
def diamond3 : TTaskScheduler cden :=
  (add2 CTy.int CTy.int CTy.int addFunc (.future ⟨0⟩) (.future ⟨1⟩) false
    ((add2dep CTy.int CTy.int CTy.int addFunc id (.future ⟨0⟩) ⟨0⟩ demo1).stateOr demo1)).2

/-- The diamond after `getResult<long>` on task 2, which throws `bad_cast`. -/
def diamond4 : TTaskScheduler cden :=
  (getResult 20 CTy.long ⟨2⟩ diamond3).stateOr diamond3

/-- The diamond after a run of `executeAll` that follows the failed call. -/
def diamond5 : TTaskScheduler cden :=
  (executeAll 20 diamond4).stateOr diamond4

/-- The scheduler of the test `AddTaskWithInvalidTaskID` after its call
`add(addFunc, 5, invalidID)`, which throws. -/
def failedAdd : TTaskScheduler cden :=
  (add2dep CTy.int CTy.int CTy.int addFunc id (.value 5) TaskID.invalid
    TTaskScheduler.new).stateOr TTaskScheduler.new

/-- A fresh scheduler after `add(addFunc, 1, TaskID(0))`: the task is its own
dependency. -/
def selfRef : TTaskScheduler cden :=
  (add2dep CTy.int CTy.int CTy.int addFunc id (.value 1) ⟨0⟩
    TTaskScheduler.new).stateOr TTaskScheduler.new

/-- A fresh scheduler after `add(addFunc, 1, TaskID(7))`: the dependency is a handle
that no task has. -/
def dangling : TTaskScheduler cden :=
  (add2dep CTy.int CTy.int CTy.int addFunc id (.value 1) ⟨7⟩
    TTaskScheduler.new).stateOr TTaskScheduler.new

/-- A callable `long widen(int x, int y)` that returns `x + y`. -/
def widenFunc (x y : Int) : Int := x + y

/-- A callable `long longFunc(int x)` that returns `x + 1`. -/
def longFunc (x : Int) : Int := x + 1

/-- Task 0 is `add(simpleFunc, 5)`, with an `int` result; task 1 is
`add(widenFunc, 1, TaskID(0))`, whose callable takes two `int` and returns `long`. -/
def widen1 : TTaskScheduler cden :=
  (add2dep CTy.int CTy.int CTy.long widenFunc id (.value 1) ⟨0⟩ demo1).stateOr demo1

/-- Task 0 is `add(longFunc, 5)`, with a `long` result; task 1 is
`add(widenFunc, 1, TaskID(0))` as in `widen1`. -/
def widen2 : TTaskScheduler cden :=
  (add2dep CTy.int CTy.int CTy.long widenFunc id (.value 1) ⟨0⟩
    (add1 CTy.int CTy.long longFunc (.value 5) TTaskScheduler.new).2).stateOr
    TTaskScheduler.new

/-- Task 0 is `add(simpleFunc, 5)`, with an `int` result; task 1 is
`add(simpleFunc, getFutureResult<long>(TaskID(0)))`, which asks for that result as
`long`; task 2 is `add(simpleFunc, 7)`. -/
def futureLong : TTaskScheduler cden :=
  (add1 CTy.int CTy.int simpleFunc (.value 7)
    (add1 CTy.long CTy.int simpleFunc (.future ⟨0⟩) demo1).2).2


/-! ## Theorems -/

set_option linter.unusedSectionVars false

section Basics

variable {Ty : Type} [DecidableEq Ty] {den : Ty → Type}

theorem any_cast_of (T : Ty) (v : den T) : (Any.of T v).any_cast T = .held v := by
  simp [Any.of, Any.any_cast]

theorem any_cast_held {a : Any den} {T : Ty} {v : den T} (h : a.any_cast T = .held v) :
    a = Any.of T v := by
  rcases a with ⟨_ | ⟨T', w⟩⟩
  · simp [Any.any_cast] at h
  · simp only [Any.any_cast] at h
    split at h
    · rename_i hT
      subst hT
      simp only [Cast.held.injEq] at h
      simp [Any.of, h]
    · simp at h

theorem any_cast_of_ne {T U : Ty} (v : den T) (h : T ≠ U) :
    (Any.of T v).any_cast U = .bad_cast := by
  simp [Any.of, Any.any_cast, h]

theorem isValid_of_lt {id : TaskID} (h : id.id_ < INVALID_TASK_ID) : id.isValid = true := by
  simp [TaskID.isValid]; omega

theorem Res.All.weaken {α : Type} {r : Res den α} {P Q : TTaskScheduler den → Prop}
    (h : r.All P) (hPQ : ∀ s, P s → Q s) : r.All Q := by
  cases r <;> simp_all [Res.All]

theorem Res.All.and {α : Type} {r : Res den α} {P Q : TTaskScheduler den → Prop}
    (h : r.All P) (h' : r.All Q) : r.All (fun s => P s ∧ Q s) := by
  cases r <;> simp_all [Res.All]

theorem Res.All.seq {α β : Type} {r : Res den α} {f : α → TTaskScheduler den → Res den β}
    {P Q : TTaskScheduler den → Prop} (h : r.All P) (hthrow : ∀ s, P s → Q s)
    (hf : ∀ v s, P s → (f v s).All Q) : (r.bind f).All Q := by
  cases r <;> simp_all [Res.All, Res.bind]

theorem Res.Sat.seqSat {α β : Type} {r : Res den α} {f : α → TTaskScheduler den → Res den β}
    {P : α → TTaskScheduler den → Prop} {Q Q' : TTaskScheduler den → Prop}
    {P' : β → TTaskScheduler den → Prop} (h : r.Sat P Q) (hthrow : ∀ s, Q s → Q' s)
    (hf : ∀ v s, P v s → (f v s).Sat P' Q') : (r.bind f).Sat P' Q' := by
  cases r <;> simp_all [Res.Sat, Res.bind]

theorem Res.Sat.weakenSat {α : Type} {r : Res den α} {P P' : α → TTaskScheduler den → Prop}
    {Q Q' : TTaskScheduler den → Prop} (h : r.Sat P Q) (hP : ∀ v s, P v s → P' v s)
    (hQ : ∀ s, Q s → Q' s) : r.Sat P' Q' := by
  cases r <;> simp_all [Res.Sat]

theorem Res.Sat.and_all {α : Type} {r : Res den α} {P : α → TTaskScheduler den → Prop}
    {Q R : TTaskScheduler den → Prop} (h : r.Sat P Q) (h' : r.All R) :
    r.Sat (fun v s => P v s ∧ R s) (fun s => Q s ∧ R s) := by
  cases r <;> simp_all [Res.Sat, Res.All]

theorem Extends.refl (s : TTaskScheduler den) : Extends s s :=
  ⟨rfl, rfl, fun _ _ h => h, List.prefix_refl _⟩

theorem Extends.trans {s1 s2 s3 : TTaskScheduler den} (h12 : Extends s1 s2)
    (h23 : Extends s2 s3) : Extends s1 s3 :=
  ⟨h23.tasks.trans h12.tasks, h23.deps.trans h12.deps,
   fun id a h => h23.results id a (h12.results id a h), h12.invoked.trans h23.invoked⟩

theorem Extends.logCall (s : TTaskScheduler den) (id : TaskID) : Extends s (s.logCall id) :=
  ⟨rfl, rfl, fun _ _ h => h, List.prefix_append _ _⟩

theorem Extends.store {s s2 : TTaskScheduler den} {id : TaskID} (v : Any den)
    (h2 : Extends s s2) (h : s.results_ id = none) : Extends s (s2.store id v) := by
  refine ⟨h2.tasks, h2.deps, fun id' a h' => ?_, h2.invoked⟩
  have : id' ≠ id := by rintro rfl; simp [h] at h'
  simp [TTaskScheduler.store, Function.update_noteq this, h2.results id' a h']

theorem Extends.uncachedBefore {s s' : TTaskScheduler den} (h : Extends s s') {id : TaskID}
    (hn : s'.results_ id = none) : s.results_ id = none := by
  cases hr : s.results_ id with
  | none => rfl
  | some a => simp [h.results id a hr] at hn

theorem getResult_succ (fuel : Nat) (T : Ty) (id : TaskID) (s : TTaskScheduler den) :
    getResult (fuel + 1) T id s =
      if !id.isValid then .throw .invalid_argument s
      else if (s.results_ id).isNone then
        if id.id_ ≥ s.tasks_.length then .throw .out_of_range s
        else (executeTask fuel id [] s).bind fun _ s1 => castResult T id s1
      else castResult T id s := rfl

theorem executeTask_succ (fuel : Nat) (id : TaskID) (visited : List TaskID)
    (s : TTaskScheduler den) :
    executeTask (fuel + 1) id visited s =
      if id ∈ visited then .ok visited s
      else
        (executeDeps fuel (s.dependencies_ id) (id :: visited) s).bind fun visited1 s1 =>
          if (s1.results_ id).isNone then
            match s1.tasks_[id.id_]? with
            | none => .undefined
            | some task =>
              (execute fuel id task s1).bind fun v s2 => .ok visited1 (s2.store id v)
          else .ok visited1 s1 := rfl

theorem executeDeps_nil (fuel : Nat) (visited : List TaskID) (s : TTaskScheduler den) :
    executeDeps (fuel + 1) [] visited s = .ok visited s := rfl

theorem executeDeps_cons (fuel : Nat) (dep : TaskID) (rest visited : List TaskID)
    (s : TTaskScheduler den) :
    executeDeps (fuel + 1) (dep :: rest) visited s =
      if dep ∈ visited then executeDeps fuel rest visited s
      else (executeTask fuel dep visited s).bind fun visited1 s1 =>
        executeDeps fuel rest visited1 s1 := rfl

theorem execute_task1 (fuel : Nat) (self : TaskID) (A R : Ty) (func_ : den A → den R)
    (arg1_ : Arg den A) (s : TTaskScheduler den) :
    execute (fuel + 1) self (.task1 A R func_ arg1_) s =
      (convert fuel arg1_ s).bind fun x s1 =>
        .ok (Any.of R (func_ x)) (s1.logCall self) := rfl

theorem execute_task2_right (fuel : Nat) (self : TaskID) (A B R : Ty)
    (func_ : den A → den B → den R) (arg1_ : Arg den A) (arg2_ : Arg den B)
    (s : TTaskScheduler den) :
    execute (fuel + 1) self (.task2 A B R func_ arg1_ arg2_ true) s =
      (convert fuel arg2_ s).bind fun y s1 =>
        (convert fuel arg1_ s1).bind fun x s2 =>
          .ok (Any.of R (func_ x y)) (s2.logCall self) := rfl

theorem execute_task2_left (fuel : Nat) (self : TaskID) (A B R : Ty)
    (func_ : den A → den B → den R) (arg1_ : Arg den A) (arg2_ : Arg den B)
    (s : TTaskScheduler den) :
    execute (fuel + 1) self (.task2 A B R func_ arg1_ arg2_ false) s =
      (convert fuel arg1_ s).bind fun x s1 =>
        (convert fuel arg2_ s1).bind fun y s2 =>
          .ok (Any.of R (func_ x y)) (s2.logCall self) := rfl

theorem execute_task2dep (fuel : Nat) (self : TaskID) (A B R : Ty)
    (func_ : den A → den B → den R) (conv : den R → den B) (arg1_ : Arg den A)
    (arg2_ : TaskID) (s : TTaskScheduler den) :
    execute (fuel + 1) self (.task2dep A B R func_ conv arg1_ arg2_) s =
      (getResult fuel R arg2_ s).bind fun resolvedArg2 s1 =>
        (convert fuel arg1_ s1).bind fun x s2 =>
          .ok (Any.of R (func_ x (conv resolvedArg2))) (s2.logCall self) := rfl

theorem convert_value (fuel : Nat) (T : Ty) (v : den T) (s : TTaskScheduler den) :
    convert (fuel + 1) (Arg.value v : Arg den T) s = .ok v s := rfl

theorem convert_future (fuel : Nat) (T : Ty) (id_ : TaskID) (s : TTaskScheduler den) :
    convert (fuel + 1) (Arg.future id_ : Arg den T) s = getResult fuel T id_ s := rfl

theorem executeAllFrom_succ (fuel : Nat) (i : Nat) (visited : List TaskID)
    (s : TTaskScheduler den) :
    executeAllFrom (fuel + 1) i visited s =
      if i < s.tasks_.length then
        if (⟨i⟩ : TaskID) ∈ visited then executeAllFrom fuel (i + 1) visited s
        else (executeTask fuel ⟨i⟩ visited s).bind fun visited1 s1 =>
          executeAllFrom fuel (i + 1) visited1 s1
      else .ok () s := rfl

theorem Extends.cached {s s' : TTaskScheduler den} (h : Extends s s') {id : TaskID}
    (hc : s.results_ id ≠ none) : s'.results_ id ≠ none := by
  cases hr : s.results_ id with
  | none => exact absurd hr hc
  | some a => simp [h.results id a hr]

theorem Extends.mem_invoked {s s' : TTaskScheduler den} (h : Extends s s') {id : TaskID}
    (hm : id ∈ s.invoked) : id ∈ s'.invoked :=
  h.invoked.subset hm

theorem Res.All.rebase {α : Type} {r : Res den α} {s s1 : TTaskScheduler den}
    (h : r.All (Extends s1)) (h1 : Extends s s1) : r.All (Extends s) :=
  h.weaken fun _ h2 => h1.trans h2

theorem castResult_same (T : Ty) (id : TaskID) (s : TTaskScheduler den) :
    (castResult T id s).All (fun s' => s' = s) := by
  unfold castResult
  split
  · split <;> simp [Res.All]
  · simp [Any.empty, Any.any_cast, Res.All]

theorem castResult_extends (T : Ty) (id : TaskID) (s : TTaskScheduler den) :
    (castResult T id s).All (Extends s) :=
  (castResult_same T id s).weaken fun _ h => h ▸ Extends.refl s

theorem castResult_some (T : Ty) {id : TaskID} {s : TTaskScheduler den} {a : Any den}
    (h : s.results_ id = some a) :
    castResult T id s =
      match a.any_cast T with
      | .held v => .ok v s
      | .bad_cast => .throw .bad_cast s
      | .assertion_failed => .abort := by
  simp [castResult, h]

theorem castResult_ok {T : Ty} {id : TaskID} {s s' : TTaskScheduler den} {x : den T}
    (h : castResult T id s = .ok x s') : s' = s ∧ s.results_ id = some (Any.of T x) := by
  unfold castResult at h
  split at h
  · rename_i a ha
    split at h
    · rename_i v hv
      simp only [Res.ok.injEq] at h
      obtain ⟨rfl, rfl⟩ := h
      exact ⟨rfl, by rw [ha, any_cast_held hv]⟩
    · simp at h
    · simp at h
  · simp [Any.empty, Any.any_cast] at h

/-- The frame of a run: `tasks_` and `dependencies_` stay, cached results stay, and
`invoked` grows at its end. -/
theorem frame (fuel : Nat) :
    (∀ (T : Ty) (id : TaskID) (s : TTaskScheduler den),
      (getResult fuel T id s).All (Extends s)) ∧
    (∀ (id : TaskID) (visited : List TaskID) (s : TTaskScheduler den),
      (executeTask fuel id visited s).All (Extends s)) ∧
    (∀ (deps visited : List TaskID) (s : TTaskScheduler den),
      (executeDeps fuel deps visited s).All (Extends s)) ∧
    (∀ (self : TaskID) (task : ITask den) (s : TTaskScheduler den),
      (execute fuel self task s).All (Extends s)) ∧
    (∀ (T : Ty) (a : Arg den T) (s : TTaskScheduler den),
      (convert fuel a s).All (Extends s)) := by
  induction fuel with
  | zero => simp [getResult, executeTask, executeDeps, execute, convert, Res.All]
  | succ fuel ih =>
    obtain ⟨ihG, ihT, ihD, ihE, ihC⟩ := ih
    refine ⟨?_, ?_, ?_, ?_, ?_⟩
    · intro T id s
      rw [getResult_succ]
      split
      · simp [Res.All, Extends.refl]
      · split
        · split
          · simp [Res.All, Extends.refl]
          · exact (ihT id [] s).seq (fun _ h => h)
              fun _ s1 h1 => (castResult_extends T id s1).rebase h1
        · exact castResult_extends T id s
    · intro id visited s
      rw [executeTask_succ]
      split
      · simp [Res.All, Extends.refl]
      · refine (ihD _ _ s).seq (fun _ h => h) fun visited1 s1 h1 => ?_
        split
        · rename_i hnone
          split
          · simp [Res.All]
          · refine ((ihE id _ s1).rebase h1).seq (fun _ h => h) fun v s2 h2 => ?_
            exact Extends.store v h2 (h1.uncachedBefore (by simpa using hnone))
        · simpa [Res.All] using h1
    · intro deps visited s
      cases deps with
      | nil => simp [executeDeps_nil, Res.All, Extends.refl]
      | cons dep rest =>
        rw [executeDeps_cons]
        split
        · exact ihD _ _ s
        · exact (ihT _ _ s).seq (fun _ h => h) fun v1 s1 h1 => (ihD _ _ s1).rebase h1
    · intro self task s
      have fin : ∀ (v : Any den) (s2 : TTaskScheduler den), Extends s s2 →
          (Res.ok v (s2.logCall self) : Res den (Any den)).All (Extends s) :=
        fun v s2 h => h.trans (Extends.logCall s2 self)
      cases task with
      | task1 A R func_ arg1_ =>
        rw [execute_task1]
        exact (ihC _ _ s).seq (fun _ h => h) fun x s1 h1 => fin _ s1 h1
      | task2 A B R func_ arg1_ arg2_ rightFirst =>
        cases rightFirst
        · rw [execute_task2_left]
          exact (ihC _ _ s).seq (fun _ h => h) fun y s1 h1 =>
            ((ihC _ _ s1).rebase h1).seq (fun _ h => h) fun x s2 h2 => fin _ s2 h2
        · rw [execute_task2_right]
          exact (ihC _ _ s).seq (fun _ h => h) fun y s1 h1 =>
            ((ihC _ _ s1).rebase h1).seq (fun _ h => h) fun x s2 h2 => fin _ s2 h2
      | task2dep A B R func_ conv arg1_ arg2_ =>
        rw [execute_task2dep]
        exact (ihG _ _ s).seq (fun _ h => h) fun y s1 h1 =>
          ((ihC _ _ s1).rebase h1).seq (fun _ h => h) fun x s2 h2 => fin _ s2 h2
    · intro T a s
      cases a with
      | value v => simp [convert_value, Res.All, Extends.refl]
      | future id_ => rw [convert_future]; exact ihG _ _ s

end Basics

section Denotation

variable {Ty : Type} [DecidableEq Ty] {den : Ty → Type}

theorem denote_succ (k : Nat) (tasks : List (ITask den)) (id : TaskID) :
    denote (k + 1) tasks id =
      match tasks[id.id_]? with
      | none => none
      | some task => task.eval (fun d => denote k tasks d) := rfl

theorem evalArg_mono {val val' : TaskID → Option (Any den)}
    (h : ∀ d a, val d = some a → val' d = some a) {T : Ty} {a : Arg den T} {x : den T}
    (hx : evalArg val a = some x) : evalArg val' a = some x := by
  cases a with
  | value v => simpa [evalArg] using hx
  | future id_ =>
    simp only [evalArg] at hx ⊢
    cases hv : val id_ with
    | none => simp [hv] at hx
    | some r => rw [hv] at hx; rw [h _ _ hv]; exact hx

theorem ITask.eval_mono {val val' : TaskID → Option (Any den)}
    (h : ∀ d a, val d = some a → val' d = some a) {task : ITask den} {v : Any den}
    (hv : task.eval val = some v) : task.eval val' = some v := by
  cases task with
  | task1 A R func_ arg1_ =>
    simp only [ITask.eval] at hv ⊢
    cases h1 : evalArg val arg1_ with
    | none => simp [h1] at hv
    | some x => rw [h1] at hv; rw [evalArg_mono h h1]; exact hv
  | task2 A B R func_ arg1_ arg2_ rightFirst =>
    simp only [ITask.eval] at hv ⊢
    cases h1 : evalArg val arg1_ with
    | none => simp [h1] at hv
    | some x =>
      cases h2 : evalArg val arg2_ with
      | none => simp [h1, h2] at hv
      | some y => rw [h1, h2] at hv; rw [evalArg_mono h h1, evalArg_mono h h2]; exact hv
  | task2dep A B R func_ conv arg1_ arg2_ =>
    simp only [ITask.eval] at hv ⊢
    cases h1 : evalArg val (Arg.future arg2_ : Arg den R) with
    | none => simp [h1] at hv
    | some x =>
      cases h2 : evalArg val arg1_ with
      | none => simp [h1, h2] at hv
      | some y => rw [h1, h2] at hv; rw [evalArg_mono h h1, evalArg_mono h h2]; exact hv

theorem denote_mono_succ (k : Nat) (tasks : List (ITask den)) :
    ∀ (id : TaskID) (a : Any den), denote k tasks id = some a →
      denote (k + 1) tasks id = some a := by
  induction k with
  | zero => intro id a h; simp [denote] at h
  | succ k ih =>
    intro id a h
    rw [denote_succ] at h ⊢
    cases ht : tasks[id.id_]? with
    | none => simp [ht] at h
    | some task =>
      rw [ht] at h
      exact ITask.eval_mono (fun d b hd => ih d b hd) h

theorem denote_mono {k k' : Nat} (hk : k ≤ k') {tasks : List (ITask den)} {id : TaskID}
    {a : Any den} (h : denote k tasks id = some a) : denote k' tasks id = some a := by
  induction hk with
  | refl => exact h
  | step _ ih => exact denote_mono_succ _ _ _ _ ih

theorem denote_unique {k k' : Nat} {tasks : List (ITask den)} {id : TaskID}
    {a a' : Any den} (h : denote k tasks id = some a) (h' : denote k' tasks id = some a') :
    a = a' := by
  have h1 := denote_mono (le_max_left k k') h
  have h2 := denote_mono (le_max_right k k') h'
  rw [h1] at h2
  exact Option.some.inj h2

theorem denote_lt {k : Nat} {tasks : List (ITask den)} {id : TaskID} {a : Any den}
    (h : denote k tasks id = some a) : id.id_ < tasks.length := by
  cases k with
  | zero => simp [denote] at h
  | succ k =>
    rw [denote_succ] at h
    by_contra hlt
    rw [List.getElem?_eq_none (by omega)] at h
    simp at h

theorem denote_isSome_mono {k k' : Nat} (hk : k ≤ k') {tasks : List (ITask den)}
    {id : TaskID} (h : (denote k tasks id).isSome) : (denote k' tasks id).isSome := by
  obtain ⟨a, ha⟩ := Option.isSome_iff_exists.mp h
  simp [denote_mono hk ha]

theorem evalArg_refs {val : TaskID → Option (Any den)} {T : Ty} {a : Arg den T} {x : den T}
    (hx : evalArg val a = some x) : ∀ d ∈ a.refs, (val d).isSome := by
  cases a with
  | value v => simp [Arg.refs]
  | future id_ =>
    simp only [Arg.refs, List.mem_singleton, forall_eq]
    simp only [evalArg] at hx
    cases hv : val id_ with
    | none => simp [hv] at hx
    | some r => simp

theorem ITask.eval_refs {val : TaskID → Option (Any den)} {task : ITask den} {v : Any den}
    (hv : task.eval val = some v) : ∀ d ∈ task.refs, (val d).isSome := by
  cases task with
  | task1 A R func_ arg1_ =>
    simp only [ITask.eval] at hv
    cases h1 : evalArg val arg1_ with
    | none => simp [h1] at hv
    | some x => exact evalArg_refs h1
  | task2 A B R func_ arg1_ arg2_ rightFirst =>
    simp only [ITask.eval] at hv
    cases h1 : evalArg val arg1_ with
    | none => simp [h1] at hv
    | some x =>
      cases h2 : evalArg val arg2_ with
      | none => simp [h1, h2] at hv
      | some y =>
        intro d hd
        simp only [ITask.refs, List.mem_append] at hd
        exact hd.elim (evalArg_refs h1 d) (evalArg_refs h2 d)
  | task2dep A B R func_ conv arg1_ arg2_ =>
    simp only [ITask.eval] at hv
    cases h1 : evalArg val (Arg.future arg2_ : Arg den R) with
    | none => simp [h1] at hv
    | some x =>
      cases h2 : evalArg val arg1_ with
      | none => simp [h1, h2] at hv
      | some y =>
        intro d hd
        simp only [ITask.refs, List.mem_cons] at hd
        rcases hd with rfl | hd
        · exact evalArg_refs h1 d (by simp [Arg.refs])
        · exact evalArg_refs h2 d hd

theorem denote_refs {k : Nat} {tasks : List (ITask den)} {id : TaskID} {task : ITask den}
    (ht : tasks[id.id_]? = some task) (h : (denote (k + 1) tasks id).isSome) :
    ∀ d ∈ task.refs, (denote k tasks d).isSome := by
  obtain ⟨a, ha⟩ := Option.isSome_iff_exists.mp h
  rw [denote_succ, ht] at ha
  exact ITask.eval_refs ha

theorem denote_append {k : Nat} {tasks : List (ITask den)} (extra : List (ITask den)) :
    ∀ {id : TaskID} {a : Any den}, denote k tasks id = some a →
      denote k (tasks ++ extra) id = some a := by
  induction k with
  | zero => intro id a h; simp [denote] at h
  | succ k ih =>
    intro id a h
    have hlt := denote_lt h
    rw [denote_succ] at h ⊢
    rw [List.getElem?_append_left hlt]
    cases ht : tasks[id.id_]? with
    | none => simp [ht] at h
    | some task =>
      rw [ht] at h
      exact ITask.eval_mono (fun d b hd => ih hd) h

theorem ITask.eval_of {val : TaskID → Option (Any den)} {task : ITask den} {a : Any den}
    (h : task.eval val = some a) : ∃ x : den task.resultTy, a = Any.of task.resultTy x := by
  cases task with
  | task1 A R func_ arg1_ =>
    simp only [ITask.eval] at h
    split at h
    · exact ⟨_, (Option.some.inj h).symm⟩
    · simp at h
  | task2 A B R func_ arg1_ arg2_ rightFirst =>
    simp only [ITask.eval] at h
    split at h
    · exact ⟨_, (Option.some.inj h).symm⟩
    · simp at h
  | task2dep A B R func_ conv arg1_ arg2_ =>
    simp only [ITask.eval] at h
    split at h
    · exact ⟨_, (Option.some.inj h).symm⟩
    · simp at h

theorem denote_of {k : Nat} {tasks : List (ITask den)} {id : TaskID} {a : Any den}
    (h : denote k tasks id = some a) :
    ∃ task, tasks[id.id_]? = some task ∧ ∃ x : den task.resultTy, a = Any.of task.resultTy x := by
  cases k with
  | zero => simp [denote] at h
  | succ k =>
    rw [denote_succ] at h
    cases ht : tasks[id.id_]? with
    | none => simp [ht] at h
    | some task =>
      rw [ht] at h
      exact ⟨task, rfl, ITask.eval_of h⟩

end Denotation

section Height

variable {Ty : Type} [DecidableEq Ty] {den : Ty → Type}

theorem New.same (k : Nat) (s : TTaskScheduler den) : New k s s :=
  fun _ hy => Or.inl hy

theorem New.compose {k : Nat} {s s1 s2 : TTaskScheduler den} (h1 : New k s s1)
    (e1 : Extends s s1) (h2 : New k s1 s2) : New k s s2 := by
  intro y hy
  rcases h2 y hy with h | h
  · exact h1 y h
  · rw [e1.tasks] at h; exact Or.inr h

theorem New.deeper {k k' : Nat} (hk : k ≤ k') {s s' : TTaskScheduler den} (h : New k s s') :
    New k' s s' :=
  fun y hy => (h y hy).imp id (denote_isSome_mono hk)

theorem Edges.carry {s s' : TTaskScheduler den} (h : Edges s) (e : Extends s s') :
    Edges s' := by
  intro id d hd
  rw [e.deps] at hd
  rw [e.tasks]
  exact h id d hd

theorem New.chain {α : Type} {k : Nat} {s s1 : TTaskScheduler den} {r : Res den α}
    (h1 : Extends s s1 ∧ New k s s1) (e : r.All (Extends s1)) (h : r.All (New k s1)) :
    r.All (fun s2 => Extends s s2 ∧ New k s s2) :=
  (e.and h).weaken fun _ h2 => ⟨h1.1.trans h2.1, h1.2.compose h1.1 h2.2⟩

/-- A run that resolves a task with a value at depth `k` calls only callables of tasks
that have a value at depth `k`. -/
theorem height (fuel : Nat) :
    (∀ (k : Nat) (T : Ty) (id : TaskID) (s : TTaskScheduler den), Edges s →
      (denote k s.tasks_ id).isSome → (getResult fuel T id s).All (New k s)) ∧
    (∀ (k : Nat) (id : TaskID) (visited : List TaskID) (s : TTaskScheduler den), Edges s →
      (denote k s.tasks_ id).isSome → (executeTask fuel id visited s).All (New k s)) ∧
    (∀ (k : Nat) (deps visited : List TaskID) (s : TTaskScheduler den), Edges s →
      (∀ d ∈ deps, (denote k s.tasks_ d).isSome) →
      (executeDeps fuel deps visited s).All (New k s)) ∧
    (∀ (k : Nat) (self : TaskID) (task : ITask den) (s : TTaskScheduler den), Edges s →
      s.tasks_[self.id_]? = some task → (denote k s.tasks_ self).isSome →
      (execute fuel self task s).All (New k s)) ∧
    (∀ (k : Nat) (T : Ty) (a : Arg den T) (s : TTaskScheduler den), Edges s →
      (∀ d ∈ a.refs, (denote k s.tasks_ d).isSome) →
      (convert fuel a s).All (New k s)) := by
  induction fuel with
  | zero => simp [getResult, executeTask, executeDeps, execute, convert, Res.All]
  | succ fuel ih =>
    obtain ⟨ihG, ihT, ihD, ihE, ihC⟩ := ih
    have fr := @frame Ty _ den fuel
    obtain ⟨frG, frT, frD, frE, frC⟩ := fr
    refine ⟨?_, ?_, ?_, ?_, ?_⟩
    · intro k T id s he hk
      rw [getResult_succ]
      split
      · simp [Res.All, New.same]
      · split
        · split
          · simp [Res.All, New.same]
          · refine ((frT id [] s).and (ihT k id [] s he hk)).seq (fun _ h => h.2)
              fun _ s1 h1 => ?_
            exact (castResult_same T id s1).weaken fun _ h => h ▸ h1.2
        · exact (castResult_same T id s).weaken fun _ h => h ▸ New.same k s
    · intro k id visited s he hk
      rw [executeTask_succ]
      split
      · simp [Res.All, New.same]
      · cases k with
        | zero => simp [denote] at hk
        | succ k' =>
          have hdeps : ∀ d ∈ s.dependencies_ id, (denote (k' + 1) s.tasks_ d).isSome := by
            intro d hd
            obtain ⟨task, ht, hr⟩ := he id d hd
            exact denote_isSome_mono (Nat.le_succ _) (denote_refs ht hk d hr)
          refine ((frD _ _ s).and (ihD (k' + 1) _ _ s he hdeps)).seq (fun _ h => h.2)
            fun visited1 s1 h1 => ?_
          split
          · split
            · simp [Res.All]
            · rename_i task ht
              have hk1 : (denote (k' + 1) s1.tasks_ id).isSome := by rw [h1.1.tasks]; exact hk
              refine (New.chain h1 (frE id task s1)
                (ihE (k' + 1) id task s1 (he.carry h1.1) ht hk1)).seq (fun _ h => h.2)
                fun v s2 h2 => ?_
              exact h2.2
          · exact h1.2
    · intro k deps visited s he hk
      cases deps with
      | nil => simp [executeDeps_nil, Res.All, New.same]
      | cons dep rest =>
        rw [executeDeps_cons]
        have hrest : ∀ d ∈ rest, (denote k s.tasks_ d).isSome :=
          fun d hd => hk d (List.mem_cons_of_mem _ hd)
        split
        · exact ihD k _ _ s he hrest
        · refine ((frT _ _ s).and (ihT k dep visited s he (hk dep (List.mem_cons_self _ _)))).seq
            (fun _ h => h.2) fun v1 s1 h1 => ?_
          exact (New.chain h1 (frD _ _ s1)
            (ihD k _ _ s1 (he.carry h1.1) (by rw [h1.1.tasks]; exact hrest))).weaken
            fun _ h => h.2
    · intro k self task s he ht hk
      cases k with
      | zero => simp [denote] at hk
      | succ k' =>
        have hrefs := denote_refs ht hk
        have fin : ∀ (v : Any den) (s2 : TTaskScheduler den),
            Extends s s2 ∧ New (k' + 1) s s2 →
            (Res.ok v (s2.logCall self) : Res den (Any den)).All (New (k' + 1) s) := by
          intro v s2 h2 y hy
          simp only [TTaskScheduler.logCall, List.mem_append, List.mem_singleton] at hy
          rcases hy with hy | rfl
          · exact h2.2 y hy
          · exact Or.inr hk
        have hC : ∀ (T : Ty) (a : Arg den T) (s1 : TTaskScheduler den),
            (∀ d ∈ a.refs, d ∈ task.refs) → Extends s s1 ∧ New (k' + 1) s s1 →
            (convert fuel a s1).All (fun s2 => Extends s s2 ∧ New (k' + 1) s s2) := by
          intro T a s1 ha h1
          refine New.chain h1 (frC T a s1) ((ihC k' T a s1 (he.carry h1.1) ?_).weaken
            fun _ h => h.deeper (Nat.le_succ _))
          intro d hd
          rw [h1.1.tasks]
          exact hrefs d (ha d hd)
        have h0 : Extends s s ∧ New (k' + 1) s s := ⟨Extends.refl s, New.same _ s⟩
        cases task with
        | task1 A R func_ arg1_ =>
          rw [execute_task1]
          exact (hC _ arg1_ s (fun d hd => by simp [ITask.refs, hd]) h0).seq (fun _ h => h.2)
            fun x s1 h1 => fin _ s1 h1
        | task2 A B R func_ arg1_ arg2_ rightFirst =>
          cases rightFirst
          · rw [execute_task2_left]
            exact (hC _ arg1_ s (fun d hd => by simp [ITask.refs, hd]) h0).seq (fun _ h => h.2)
              fun x s1 h1 => (hC _ arg2_ s1 (fun d hd => by simp [ITask.refs, hd]) h1).seq
                (fun _ h => h.2) fun y s2 h2 => fin _ s2 h2
          · rw [execute_task2_right]
            exact (hC _ arg2_ s (fun d hd => by simp [ITask.refs, hd]) h0).seq (fun _ h => h.2)
              fun x s1 h1 => (hC _ arg1_ s1 (fun d hd => by simp [ITask.refs, hd]) h1).seq
                (fun _ h => h.2) fun y s2 h2 => fin _ s2 h2
        | task2dep A B R func_ conv arg1_ arg2_ =>
          rw [execute_task2dep]
          have hG : (getResult fuel R arg2_ s).All
              (fun s2 => Extends s s2 ∧ New (k' + 1) s s2) :=
            New.chain h0 (frG R arg2_ s) ((ihG k' R arg2_ s he
              (hrefs arg2_ (by simp [ITask.refs]))).weaken fun _ h => h.deeper (Nat.le_succ _))
          exact hG.seq (fun _ h => h.2)
            fun x s1 h1 => (hC _ arg1_ s1 (fun d hd => by simp [ITask.refs, hd]) h1).seq
              (fun _ h => h.2) fun y s2 h2 => fin _ s2 h2
    · intro k T a s he hk
      cases a with
      | value v => simp [convert_value, Res.All, New.same]
      | future id_ =>
        rw [convert_future]
        exact ihG k T id_ s he (hk id_ (by simp [Arg.refs]))

end Height

section Soundness

variable {Ty : Type} [DecidableEq Ty] {den : Ty → Type}

theorem Inv.lt {s : TTaskScheduler den} (h : Inv s) {id : TaskID}
    (hc : s.results_ id ≠ none) : id.id_ < s.tasks_.length := by
  cases hr : s.results_ id with
  | none => exact absurd hr hc
  | some a =>
    obtain ⟨_, k, hk⟩ := h.cached id a hr
    exact denote_lt hk

theorem Inv.mem {s : TTaskScheduler den} (h : Inv s) {id : TaskID}
    (hc : s.results_ id ≠ none) : id ∈ s.invoked := by
  cases hr : s.results_ id with
  | none => exact absurd hr hc
  | some a => exact (h.cached id a hr).1

theorem Inv.not_mem {s : TTaskScheduler den} (h : Inv s) {id : TaskID}
    (hc : s.results_ id = none) : id ∉ s.invoked :=
  fun hm => h.logged id hm hc

theorem Inv.valid {s : TTaskScheduler den} (h : Inv s) {id : TaskID}
    (hlt : id.id_ < s.tasks_.length) : id.isValid = true :=
  isValid_of_lt (lt_of_lt_of_le hlt h.size)

/-- The state after the callable of `self` was called and its result stored. -/
theorem Inv.store_logCall {s : TTaskScheduler den} (h : Inv s) {self : TaskID}
    {task : ITask den} {v : Any den} (hnone : s.results_ self = none)
    (ht : s.tasks_[self.id_]? = some task) (hrefs : ∀ d ∈ task.refs, s.results_ d ≠ none)
    (hv : ∃ k, denote k s.tasks_ self = some v) : Inv ((s.logCall self).store self v) := by
  refine ⟨h.size, ?_, ?_, h.edges, ?_, ?_⟩
  · intro id a ha
    by_cases hid : id = self
    · subst hid
      simp only [TTaskScheduler.store, Function.update_same, Option.some.injEq] at ha
      subst ha
      exact ⟨by simp [TTaskScheduler.store, TTaskScheduler.logCall], hv⟩
    · simp only [TTaskScheduler.store, Function.update_noteq hid] at ha
      obtain ⟨hm, hk⟩ := h.cached id a ha
      exact ⟨by simp [TTaskScheduler.store, TTaskScheduler.logCall, hm], hk⟩
  · intro id hm
    by_cases hid : id = self
    · subst hid
      simp [TTaskScheduler.store]
    · simp only [TTaskScheduler.store, TTaskScheduler.logCall, List.mem_append,
        List.mem_singleton, hid, or_false] at hm
      simpa [TTaskScheduler.store, Function.update_noteq hid] using h.logged id hm
  · intro p T q hpq d hd
    simp only [TTaskScheduler.store, TTaskScheduler.logCall] at hpq hd
    rcases List.eq_nil_or_concat q with rfl | ⟨q', z, rfl⟩
    · have := List.append_inj' hpq (by simp)
      obtain ⟨hp, hT⟩ := this
      simp only [List.cons.injEq, and_true] at hT
      subst hT
      obtain ⟨task', ht', hd'⟩ := h.edges _ d hd
      rw [ht] at ht'
      obtain rfl := Option.some.inj ht'
      rw [← hp]
      exact h.mem (hrefs d hd')
    · have hpq' : s.invoked ++ [self] = (p ++ T :: q') ++ [z] := by simpa using hpq
      have := List.append_inj' hpq' (by simp)
      exact h.order p T q' this.1 d hd
  · simp only [TTaskScheduler.store, TTaskScheduler.logCall]
    rw [List.nodup_append]
    refine ⟨h.nodup, List.nodup_singleton _, ?_⟩
    intro a ha ha'
    rw [List.mem_singleton.mp ha'] at ha
    exact h.not_mem hnone ha

theorem Res.All.forall {α ι : Type} {r : Res den α} {P : ι → TTaskScheduler den → Prop}
    (h : ∀ i, r.All (P i)) : r.All (fun s => ∀ i, P i s) := by
  cases r <;> simp_all [Res.All]

theorem Res.All.imp {α : Type} {r : Res den α} {p : Prop} {P : TTaskScheduler den → Prop}
    (h : p → r.All P) : r.All (fun s => p → P s) := by
  cases r <;> simp_all [Res.All]

theorem Res.Sat.all {α : Type} {r : Res den α} {P : α → TTaskScheduler den → Prop}
    {Q : TTaskScheduler den → Prop} (h : r.Sat P Q) (hP : ∀ v s, P v s → Q s) :
    r.All Q := by
  cases r with
  | ok v s => exact hP v s h
  | throw e s => exact h
  | abort => trivial
  | undefined => trivial
  | timeout => trivial

theorem evalArg_future {val : TaskID → Option (Any den)} {T : Ty} {id_ : TaskID}
    {x : den T} (h : val id_ = some (Any.of T x)) :
    evalArg val (Arg.future id_ : Arg den T) = some x := by
  simp [evalArg, h, any_cast_of]

theorem ArgsDone.start {s : TTaskScheduler den} (h : Inv s) : ArgsDone s [] s :=
  ⟨h, Extends.refl s, by simp, fun k _ => New.same k s⟩

theorem ArgsDone.append {s s1 s2 : TTaskScheduler den} {rs rs' : List TaskID}
    (h1 : ArgsDone s rs s1) (h2 : ArgsDone s1 rs' s2) : ArgsDone s (rs ++ rs') s2 := by
  refine ⟨h2.inv, h1.ext.trans h2.ext, ?_, ?_⟩
  · intro d hd
    rcases List.mem_append.mp hd with hd | hd
    · exact h2.ext.cached (h1.refs d hd)
    · exact h2.refs d hd
  · intro k hk
    refine (h1.quiet k fun d hd => hk d (List.mem_append_left _ hd)).compose h1.ext
      (h2.quiet k fun d hd => ?_)
    rw [h1.ext.tasks]
    exact hk d (List.mem_append_right _ hd)

theorem ArgsDone.perm {s s' : TTaskScheduler den} {rs rs' : List TaskID}
    (h : ArgsDone s rs s') (hsub : ∀ d, d ∈ rs' ↔ d ∈ rs) : ArgsDone s rs' s' :=
  ⟨h.inv, h.ext, fun d hd => h.refs d ((hsub d).mp hd),
   fun k hk => h.quiet k fun d hd => hk d ((hsub d).mpr hd)⟩

/-- The callable of `self` is not called while the arguments of `self` are resolved:
after the resolution `self` still has no cached result. -/
theorem ArgsDone.uncached {s s' : TTaskScheduler den} {self : TaskID} {task : ITask den}
    (hs : Inv s) (h : ArgsDone s task.refs s') (ht : s.tasks_[self.id_]? = some task)
    (hnone : s.results_ self = none) : s'.results_ self = none := by
  by_contra hc
  have hmem : self ∈ s'.invoked := h.inv.mem hc
  have hno : ∀ k, ¬ (denote k s.tasks_ self).isSome := by
    intro k
    induction k with
    | zero => simp [denote]
    | succ k ih =>
      intro hk
      rcases h.quiet k (denote_refs ht hk) self hmem with hm | hm
      · exact hs.not_mem hnone hm
      · exact ih hm
  cases hr : s'.results_ self with
  | none => exact hc hr
  | some a =>
    obtain ⟨_, k, hk⟩ := h.inv.cached self a hr
    rw [h.ext.tasks] at hk
    exact hno k (by simp [hk])

theorem castResult_sat (T : Ty) (id : TaskID) {s : TTaskScheduler den} (h : Inv s) :
    (castResult T id s).Sat (fun x s' => Inv s' ∧ s'.results_ id = some (Any.of T x)) Inv := by
  cases hr : castResult T id s with
  | ok x s' =>
    obtain ⟨rfl, hx⟩ := castResult_ok hr
    exact ⟨h, hx⟩
  | throw e s' =>
    have := castResult_same T id s
    rw [hr] at this
    simp only [Res.All] at this
    subst this
    exact h
  | abort => trivial
  | undefined => trivial
  | timeout => trivial

/-- The postcondition of `convert` in terms of `ArgsDone`. -/
theorem convert_done {fuel : Nat} {T : Ty} {a : Arg den T} {s : TTaskScheduler den}
    (hs : Inv s)
    (h : (convert fuel a s).Sat (fun x s' => Inv s' ∧ (∀ d ∈ a.refs, s'.results_ d ≠ none) ∧
      ∃ k, evalArg (fun d => denote k s'.tasks_ d) a = some x) Inv) :
    (convert fuel a s).Sat (fun x s' => ArgsDone s a.refs s' ∧
      ∃ k, evalArg (fun d => denote k s.tasks_ d) a = some x) Inv := by
  have hf := (@frame Ty _ den fuel).2.2.2.2 T a s
  have hh : (convert fuel a s).All
      (fun s' => ∀ k, (∀ d ∈ a.refs, (denote k s.tasks_ d).isSome) → New k s s') :=
    Res.All.forall fun k => Res.All.imp fun hk => (height fuel).2.2.2.2 k T a s hs.edges hk
  cases hr : convert fuel a s with
  | ok x s' =>
    rw [hr] at h hf hh
    obtain ⟨h1, h2, k, h3⟩ := h
    refine ⟨⟨h1, hf, h2, hh⟩, k, ?_⟩
    rw [← hf.tasks]
    exact h3
  | throw e s' => rw [hr] at h; exact h
  | abort => trivial
  | undefined => trivial
  | timeout => trivial

/-- The postcondition of `getResult` in terms of `ArgsDone`. -/
theorem getResult_done {fuel : Nat} {T : Ty} {id : TaskID} {s : TTaskScheduler den}
    (hs : Inv s)
    (h : (getResult fuel T id s).Sat
      (fun x s' => Inv s' ∧ s'.results_ id = some (Any.of T x)) Inv) :
    (getResult fuel T id s).Sat (fun x s' => ArgsDone s [id] s' ∧
      ∃ k, evalArg (fun d => denote k s.tasks_ d) (Arg.future id : Arg den T) = some x)
      Inv := by
  have hf := (@frame Ty _ den fuel).1 T id s
  have hh : (getResult fuel T id s).All
      (fun s' => ∀ k, (∀ d ∈ [id], (denote k s.tasks_ d).isSome) → New k s s') :=
    Res.All.forall fun k => Res.All.imp fun hk =>
      (height fuel).1 k T id s hs.edges (hk id (List.mem_singleton_self id))
  cases hr : getResult fuel T id s with
  | ok x s' =>
    rw [hr] at h hf hh
    obtain ⟨h1, h2⟩ := h
    obtain ⟨_, k, hk⟩ := h1.cached id _ h2
    refine ⟨⟨h1, hf, ?_, hh⟩, k, ?_⟩
    · intro d hd
      rw [List.mem_singleton.mp hd, h2]
      simp
    · rw [← hf.tasks]
      exact evalArg_future hk
  | throw e s' => rw [hr] at h; exact h
  | abort => trivial
  | undefined => trivial
  | timeout => trivial

theorem evalArg_le {k k' : Nat} (hk : k ≤ k') {tasks : List (ITask den)} {T : Ty}
    {a : Arg den T} {x : den T} (h : evalArg (fun d => denote k tasks d) a = some x) :
    evalArg (fun d => denote k' tasks d) a = some x :=
  evalArg_mono (fun _ _ hd => denote_mono hk hd) h

/-- Soundness of a run from a state that satisfies the invariant: the invariant holds
in the state it leaves, whether it returned or threw, and a returned value is the cached
value of the task. -/
theorem sound (fuel : Nat) :
    (∀ (T : Ty) (id : TaskID) (s : TTaskScheduler den), Inv s →
      (getResult fuel T id s).Sat
        (fun x s' => Inv s' ∧ s'.results_ id = some (Any.of T x)) Inv) ∧
    (∀ (id : TaskID) (visited : List TaskID) (s : TTaskScheduler den), Inv s →
      (executeTask fuel id visited s).Sat
        (fun visited' s' => Inv s' ∧ id ∈ visited' ∧ (∀ x ∈ visited, x ∈ visited') ∧
          ∀ x ∈ visited', x ∈ visited ∨ s'.results_ x ≠ none) Inv) ∧
    (∀ (deps visited : List TaskID) (s : TTaskScheduler den), Inv s →
      (executeDeps fuel deps visited s).Sat
        (fun visited' s' => Inv s' ∧ (∀ x ∈ visited, x ∈ visited') ∧
          ∀ x ∈ visited', x ∈ visited ∨ s'.results_ x ≠ none) Inv) ∧
    (∀ (self : TaskID) (task : ITask den) (s : TTaskScheduler den), Inv s →
      (execute fuel self task s).Sat (ExecPost s self task) Inv) ∧
    (∀ (T : Ty) (a : Arg den T) (s : TTaskScheduler den), Inv s →
      (convert fuel a s).Sat (fun x s' => Inv s' ∧ (∀ d ∈ a.refs, s'.results_ d ≠ none) ∧
        ∃ k, evalArg (fun d => denote k s'.tasks_ d) a = some x) Inv) := by
  induction fuel with
  | zero => simp [getResult, executeTask, executeDeps, execute, convert, Res.Sat]
  | succ fuel ih =>
    obtain ⟨ihG, ihT, ihD, ihE, ihC⟩ := ih
    obtain ⟨frG, frT, frD, frE, frC⟩ := @frame Ty _ den fuel
    refine ⟨?_, ?_, ?_, ?_, ?_⟩
    · intro T id s hs
      rw [getResult_succ]
      split
      · exact hs
      · split
        · split
          · exact hs
          · exact (ihT id [] s hs).seqSat (fun _ h => h) fun _ s1 h1 => castResult_sat T id h1.1
        · exact castResult_sat T id hs
    · intro id visited s hs
      rw [executeTask_succ]
      split
      · rename_i hv
        exact ⟨hs, hv, fun _ h => h, fun _ h => Or.inl h⟩
      · refine ((ihD _ _ s hs).and_all (frD _ _ s)).seqSat (fun _ h => h.1)
          fun visited1 s1 h1 => ?_
        obtain ⟨⟨hs1, hsub, hvis⟩, he1⟩ := h1
        split
        · rename_i hnone
          have hnone1 : s1.results_ id = none := by simpa using hnone
          split
          · trivial
          · rename_i task ht
            refine (ihE id task s1 hs1).seqSat (fun _ h => h) fun v s2 h2 => ?_
            obtain ⟨s2', rfl, hargs, k, hk⟩ := h2
            have hun := hargs.uncached hs1 ht hnone1
            have ht2 : s2'.tasks_[id.id_]? = some task := by rw [hargs.ext.tasks]; exact ht
            have hk2 : denote (k + 1) s2'.tasks_ id = some v := by
              rw [denote_succ, ht2, hargs.ext.tasks]; exact hk
            refine ⟨hargs.inv.store_logCall hun ht2 hargs.refs ⟨_, hk2⟩,
              hsub id (List.mem_cons_self _ _),
              fun x hx => hsub x (List.mem_cons_of_mem _ hx), fun x hx => ?_⟩
            by_cases hxid : x = id
            · subst hxid
              right
              simp [TTaskScheduler.store]
            · rcases hvis x hx with h | h
              · simp only [List.mem_cons, hxid, false_or] at h
                exact Or.inl h
              · right
                have := hargs.ext.cached h
                simpa [TTaskScheduler.store, TTaskScheduler.logCall,
                  Function.update_noteq hxid] using this
        · rename_i hsome
          refine ⟨hs1, hsub id (List.mem_cons_self _ _),
            fun x hx => hsub x (List.mem_cons_of_mem _ hx), fun x hx => ?_⟩
          by_cases hxid : x = id
          · subst hxid
            right
            intro hn
            simp [hn] at hsome
          · rcases hvis x hx with h | h
            · simp only [List.mem_cons, hxid, false_or] at h
              exact Or.inl h
            · exact Or.inr h
    · intro deps visited s hs
      cases deps with
      | nil => exact ⟨hs, fun _ h => h, fun _ h => Or.inl h⟩
      | cons dep rest =>
        rw [executeDeps_cons]
        split
        · exact ihD _ _ s hs
        · refine ((ihT dep visited s hs).and_all (frT _ _ s)).seqSat (fun _ h => h.1)
            fun visited1 s1 h1 => ?_
          obtain ⟨⟨hs1, _, hsub, hvis⟩, he1⟩ := h1
          refine ((ihD rest visited1 s1 hs1).and_all (frD _ _ s1)).weakenSat ?_ (fun _ h => h.1)
          rintro visited2 s2 ⟨⟨hs2, hsub2, hvis2⟩, he2⟩
          refine ⟨hs2, fun x hx => hsub2 x (hsub x hx), fun x hx => ?_⟩
          rcases hvis2 x hx with h | h
          · exact (hvis x h).imp id he2.cached
          · exact Or.inr h
    · intro self task s hs
      have hC : ∀ (T : Ty) (a : Arg den T) (s1 : TTaskScheduler den), Inv s1 →
          (convert fuel a s1).Sat (fun x s' => ArgsDone s1 a.refs s' ∧
            ∃ k, evalArg (fun d => denote k s1.tasks_ d) a = some x) Inv :=
        fun T a s1 hs1 => convert_done hs1 (ihC T a s1 hs1)
      cases task with
      | task1 A R func_ arg1_ =>
        rw [execute_task1]
        refine (hC _ arg1_ s hs).seqSat (fun _ h => h) fun x s1 h1 => ?_
        obtain ⟨hd, k, hk⟩ := h1
        exact ⟨s1, rfl, hd, k, by simp [ITask.eval, hk]⟩
      | task2 A B R func_ arg1_ arg2_ rightFirst =>
        cases rightFirst
        · rw [execute_task2_left]
          refine (hC _ arg1_ s hs).seqSat (fun _ h => h) fun x s1 h1 => ?_
          obtain ⟨hd1, k1, hk1⟩ := h1
          refine (hC _ arg2_ s1 hd1.inv).seqSat (fun _ h => h) fun y s2 h2 => ?_
          obtain ⟨hd2, k2, hk2⟩ := h2
          rw [hd1.ext.tasks] at hk2
          refine ⟨s2, rfl, hd1.append hd2, max k1 k2, ?_⟩
          simp [ITask.eval, evalArg_le (le_max_left k1 k2) hk1,
            evalArg_le (le_max_right k1 k2) hk2]
        · rw [execute_task2_right]
          refine (hC _ arg2_ s hs).seqSat (fun _ h => h) fun y s1 h1 => ?_
          obtain ⟨hd1, k1, hk1⟩ := h1
          refine (hC _ arg1_ s1 hd1.inv).seqSat (fun _ h => h) fun x s2 h2 => ?_
          obtain ⟨hd2, k2, hk2⟩ := h2
          rw [hd1.ext.tasks] at hk2
          refine ⟨s2, rfl, (hd1.append hd2).perm ?_, max k1 k2, ?_⟩
          · intro d
            simp [ITask.refs, or_comm]
          · simp [ITask.eval, evalArg_le (le_max_left k1 k2) hk1,
              evalArg_le (le_max_right k1 k2) hk2]
      | task2dep A B R func_ conv arg1_ arg2_ =>
        rw [execute_task2dep]
        refine (getResult_done hs (ihG R arg2_ s hs)).seqSat (fun _ h => h) fun r s1 h1 => ?_
        obtain ⟨hd1, k1, hk1⟩ := h1
        refine (hC _ arg1_ s1 hd1.inv).seqSat (fun _ h => h) fun x s2 h2 => ?_
        obtain ⟨hd2, k2, hk2⟩ := h2
        rw [hd1.ext.tasks] at hk2
        refine ⟨s2, rfl, hd1.append hd2, max k1 k2, ?_⟩
        simp [ITask.eval, evalArg_le (le_max_left k1 k2) hk1,
          evalArg_le (le_max_right k1 k2) hk2]
    · intro T a s hs
      cases a with
      | value v => exact ⟨hs, by simp [Arg.refs], 0, rfl⟩
      | future id_ =>
        rw [convert_future]
        refine (ihG T id_ s hs).weakenSat ?_ (fun _ h => h)
        rintro x s' ⟨hs', hx⟩
        obtain ⟨_, k, hk⟩ := hs'.cached id_ _ hx
        exact ⟨hs', by simp [Arg.refs, hx], k, evalArg_future hk⟩

end Soundness

section Reach

variable {Ty : Type} [DecidableEq Ty] {den : Ty → Type}

theorem frameAll (fuel : Nat) : ∀ (i : Nat) (visited : List TaskID) (s : TTaskScheduler den),
    (executeAllFrom fuel i visited s).All (Extends s) := by
  induction fuel with
  | zero => intro i visited s; simp [executeAllFrom, Res.All]
  | succ fuel ih =>
    intro i visited s
    rw [executeAllFrom_succ]
    split
    · split
      · exact ih _ _ s
      · exact ((frame fuel).2.1 _ _ s).seq (fun _ h => h)
          fun v1 s1 h1 => (ih _ _ s1).rebase h1
    · exact Extends.refl s

/-- Soundness of the loop of `executeAll`: when it returns, every handle below the
number of tasks has a cached result. -/
theorem soundAll (fuel : Nat) : ∀ (i : Nat) (visited : List TaskID) (s : TTaskScheduler den),
    Inv s → (∀ x ∈ visited, s.results_ x ≠ none) → (∀ j < i, s.results_ ⟨j⟩ ≠ none) →
    (executeAllFrom fuel i visited s).Sat
      (fun _ s' => Inv s' ∧ ∀ j < s.tasks_.length, s'.results_ ⟨j⟩ ≠ none) Inv := by
  induction fuel with
  | zero => intro i visited s _ _ _; simp [executeAllFrom, Res.Sat]
  | succ fuel ih =>
    intro i visited s hs hvis hlow
    rw [executeAllFrom_succ]
    split
    · split
      · rename_i hi hv
        refine ih (i + 1) visited s hs hvis fun j hj => ?_
        rcases Nat.lt_succ_iff_lt_or_eq.mp hj with h | rfl
        · exact hlow j h
        · exact hvis _ hv
      · refine (((sound fuel).2.1 ⟨i⟩ visited s hs).and_all ((frame fuel).2.1 _ _ s)).seqSat
          (fun _ h => h.1) fun visited1 s1 h1 => ?_
        obtain ⟨⟨hs1, hmem, _, hv1⟩, he1⟩ := h1
        have hvis1 : ∀ x ∈ visited1, s1.results_ x ≠ none := by
          intro x hx
          rcases hv1 x hx with h | h
          · exact he1.cached (hvis x h)
          · exact h
        have := ih (i + 1) visited1 s1 hs1 hvis1 (fun j hj => by
          rcases Nat.lt_succ_iff_lt_or_eq.mp hj with h | rfl
          · exact he1.cached (hlow j h)
          · exact hvis1 _ hmem)
        rw [he1.tasks] at this
        exact this
    · rename_i hi
      exact ⟨hs, fun j hj => hlow j (by omega)⟩

theorem executeAll_sound (fuel : Nat) {s : TTaskScheduler den} (hs : Inv s) :
    (executeAll fuel s).Sat
      (fun _ s' => Inv s' ∧ ∀ j < s.tasks_.length, s'.results_ ⟨j⟩ ≠ none) Inv :=
  soundAll fuel 0 [] s hs (by simp) (by simp)

theorem Inv.new : Inv (TTaskScheduler.new : TTaskScheduler den) := by
  refine ⟨by simp [TTaskScheduler.new], ?_, ?_, ?_, ?_, ?_⟩ <;> simp [TTaskScheduler.new]

/-- Storing one more task keeps the invariant. -/
theorem Inv.push {s : TTaskScheduler den} (h : Inv s) (task : ITask den)
    (hlt : s.tasks_.length < INVALID_TASK_ID) :
    Inv { s with tasks_ := s.tasks_ ++ [task] } := by
  refine ⟨by simp; omega, ?_, h.logged, ?_, h.order, h.nodup⟩
  · intro id a ha
    obtain ⟨hm, k, hk⟩ := h.cached id a ha
    exact ⟨hm, k, denote_append _ hk⟩
  · intro id d hd
    obtain ⟨t, ht, hr⟩ := h.edges id d hd
    refine ⟨t, ?_, hr⟩
    have hlt' : id.id_ < s.tasks_.length := by
      by_contra hc
      rw [List.getElem?_eq_none (by omega)] at ht
      simp at ht
    simp only
    rw [List.getElem?_append_left hlt']
    exact ht

theorem Inv.no_edges {s : TTaskScheduler den} (h : Inv s) {id : TaskID}
    (hge : s.tasks_.length ≤ id.id_) : s.dependencies_ id = [] := by
  cases hd : s.dependencies_ id with
  | nil => rfl
  | cons d rest =>
    obtain ⟨t, ht, _⟩ := h.edges id d (by simp [hd])
    rw [List.getElem?_eq_none hge] at ht
    simp at ht

theorem Inv.uncached_of_ge {s : TTaskScheduler den} (h : Inv s) {id : TaskID}
    (hge : s.tasks_.length ≤ id.id_) : s.results_ id = none := by
  by_contra hc
  have := h.lt hc
  omega

/-- Recording the edge from the task stored last to one of the handles it asks for
keeps the invariant. -/
theorem Inv.addDependency {s : TTaskScheduler den} (h : Inv s) {id d : TaskID}
    {task : ITask den} (ht : s.tasks_[id.id_]? = some task) (hd : d ∈ task.refs)
    (hun : s.results_ id = none) : Inv (addDependency id d s) := by
  refine ⟨h.size, h.cached, h.logged, ?_, ?_, h.nodup⟩
  · intro id' d' hd'
    by_cases hid : id' = id
    · subst hid
      simp only [TaskScheduler.addDependency, Function.update_same, List.mem_append,
        List.mem_singleton] at hd'
      rcases hd' with hd' | rfl
      · exact h.edges _ _ hd'
      · exact ⟨task, ht, hd⟩
    · simp only [TaskScheduler.addDependency, Function.update_noteq hid] at hd'
      exact h.edges _ _ hd'
  · intro p T q hpq d' hd'
    have hT : T ≠ id := by
      rintro rfl
      exact h.not_mem hun (by
        have : T ∈ p ++ T :: q := by simp
        simpa [TaskScheduler.addDependency] using hpq ▸ this)
    simp only [TaskScheduler.addDependency, Function.update_noteq hT] at hd'
    exact h.order p T q hpq d' hd'

theorem add2dep_inv {s s' : TTaskScheduler den} (h : Inv s) (A B R : Ty)
    (func : den A → den B → den R) (conv : den R → den B) (arg1 : Arg den A)
    (arg2 : TaskID) (hlt : s.tasks_.length < INVALID_TASK_ID)
    (hr : (add2dep A B R func conv arg1 arg2 s).state? = some s') : Inv s' := by
  have hp := h.push (.task2dep A B R func conv arg1 arg2) hlt
  unfold add2dep at hr
  split at hr
  · simp only [Res.state?, Option.some.injEq] at hr
    subst hr
    exact hp
  · simp only [Res.state?, Option.some.injEq] at hr
    subst hr
    have ht : ({ s with tasks_ := s.tasks_ ++ [ITask.task2dep A B R func conv arg1 arg2] } :
        TTaskScheduler den).tasks_[s.tasks_.length]? =
        some (ITask.task2dep A B R func conv arg1 arg2) := by simp
    refine hp.addDependency ht (by simp [ITask.refs]) ?_
    exact h.uncached_of_ge (le_refl _)

theorem Res.Sat.atState {α : Type} {r : Res den α} {P : α → TTaskScheduler den → Prop}
    {Q : TTaskScheduler den → Prop} (h : r.Sat P Q) (hP : ∀ v s, P v s → Q s)
    {s' : TTaskScheduler den} (hr : r.state? = some s') : Q s' := by
  cases r with
  | ok v s => simp only [Res.state?, Option.some.injEq] at hr; subst hr; exact hP v _ h
  | throw e s => simp only [Res.state?, Option.some.injEq] at hr; subst hr; exact h
  | abort => simp [Res.state?] at hr
  | undefined => simp [Res.state?] at hr
  | timeout => simp [Res.state?] at hr

theorem Res.All.onState {α : Type} {r : Res den α} {P : TTaskScheduler den → Prop}
    (h : r.All P) {s' : TTaskScheduler den} (hr : r.state? = some s') : P s' := by
  cases r with
  | ok v s => simp only [Res.state?, Option.some.injEq] at hr; subst hr; exact h
  | throw e s => simp only [Res.state?, Option.some.injEq] at hr; subst hr; exact h
  | abort => simp [Res.state?] at hr
  | undefined => simp [Res.state?] at hr
  | timeout => simp [Res.state?] at hr

theorem getFutureResult_state {T : Ty} {id : TaskID} {s s' : TTaskScheduler den}
    (h : (getFutureResult T id s).state? = some s') : s' = s := by
  unfold getFutureResult at h
  split at h
  · simpa [Res.state?] using h.symm
  · simpa [Res.state?] using h.symm

/-- Every call of a public operation keeps the invariant. -/
theorem Step.inv_step {s s' : TTaskScheduler den} (h : Step s s') (hs : Inv s) : Inv s' := by
  cases h with
  | add1 A R func arg1 hlt _ => exact hs.push _ hlt
  | add2 A B R func arg1 arg2 rightFirst hlt _ _ => exact hs.push _ hlt
  | add2dep A B R func conv arg1 arg2 hlt _ hr =>
    exact add2dep_inv hs A B R func conv arg1 arg2 hlt hr
  | getFutureResult T id hr => rw [getFutureResult_state hr]; exact hs
  | getResult fuel T id hr =>
    exact ((sound fuel).1 T id _ hs).atState (fun _ _ h => h.1) hr
  | materialize fuel T id hr =>
    exact ((sound fuel).1 T id _ hs).atState (fun _ _ h => h.1) hr
  | executeAll fuel hr =>
    exact (executeAll_sound fuel hs).atState (fun _ _ h => h.1) hr

theorem Later.inv_later {s s' : TTaskScheduler den} (h : Later s s') (hs : Inv s) : Inv s' := by
  induction h with
  | refl => exact hs
  | step _ hstep ih => exact hstep.inv_step ih

/-- Every reachable state satisfies the invariant. -/
theorem Reachable.inv {s : TTaskScheduler den} (h : Reachable s) : Inv s :=
  Later.inv_later h Inv.new

theorem Reachable.step {s s' : TTaskScheduler den} (h : Reachable s) (hs : Step s s') :
    Reachable s' :=
  Later.step h hs

theorem Reachable.later {s s' : TTaskScheduler den} (h : Reachable s) (hs : Later s s') :
    Reachable s' := by
  induction hs with
  | refl => exact h
  | step _ hstep ih => exact Later.step ih hstep

end Reach

section Fuel

variable {Ty : Type} [DecidableEq Ty] {den : Ty → Type}

theorem Res.bind_congr {α β : Type} {r r' : Res den α}
    {f f' : α → TTaskScheduler den → Res den β} (h : r.bind f ≠ .timeout)
    (hr : r ≠ .timeout → r' = r)
    (hf : ∀ v s, r = .ok v s → f v s ≠ .timeout → f' v s = f v s) :
    r'.bind f' = r.bind f := by
  cases r with
  | ok v s =>
    rw [hr (by simp)]
    exact hf v s rfl h
  | throw e s => rw [hr (by simp)]; rfl
  | abort => rw [hr (by simp)]; rfl
  | undefined => rw [hr (by simp)]; rfl
  | timeout => exact absurd rfl h

/-- More fuel does not change the result of a run that did not run out of fuel. -/
theorem fuel_succ (fuel : Nat) :
    (∀ (T : Ty) (id : TaskID) (s : TTaskScheduler den),
      getResult fuel T id s ≠ .timeout →
      getResult (fuel + 1) T id s = getResult fuel T id s) ∧
    (∀ (id : TaskID) (visited : List TaskID) (s : TTaskScheduler den),
      executeTask fuel id visited s ≠ .timeout →
      executeTask (fuel + 1) id visited s = executeTask fuel id visited s) ∧
    (∀ (deps visited : List TaskID) (s : TTaskScheduler den),
      executeDeps fuel deps visited s ≠ .timeout →
      executeDeps (fuel + 1) deps visited s = executeDeps fuel deps visited s) ∧
    (∀ (self : TaskID) (task : ITask den) (s : TTaskScheduler den),
      execute fuel self task s ≠ .timeout →
      execute (fuel + 1) self task s = execute fuel self task s) ∧
    (∀ (T : Ty) (a : Arg den T) (s : TTaskScheduler den),
      convert fuel a s ≠ .timeout →
      convert (fuel + 1) a s = convert fuel a s) := by
  induction fuel with
  | zero => simp [getResult, executeTask, executeDeps, execute, convert]
  | succ fuel ih =>
    obtain ⟨ihG, ihT, ihD, ihE, ihC⟩ := ih
    refine ⟨?_, ?_, ?_, ?_, ?_⟩
    · intro T id s h
      rw [getResult_succ] at h ⊢
      rw [getResult_succ fuel]
      split
      · rfl
      · rename_i hv
        simp only [hv, Bool.false_eq_true, ↓reduceIte] at h
        split
        · rename_i hn
          simp only [hn, ↓reduceIte] at h
          split
          · rfl
          · rename_i hlt
            simp only [hlt, ↓reduceIte] at h
            exact Res.bind_congr h (ihT _ _ _) fun _ _ _ _ => rfl
        · rfl
    · intro id visited s h
      rw [executeTask_succ] at h ⊢
      rw [executeTask_succ fuel]
      split
      · rfl
      · rename_i hv
        simp only [hv, ↓reduceIte] at h
        refine Res.bind_congr h (ihD _ _ _) fun visited1 s1 _ h1 => ?_
        split
        · rename_i hn
          simp only [hn, ↓reduceIte] at h1
          split
          · rfl
          · rename_i task ht
            simp only [ht] at h1
            exact Res.bind_congr h1 (ihE _ _ _) fun _ _ _ _ => rfl
        · rfl
    · intro deps visited s h
      cases deps with
      | nil => rfl
      | cons dep rest =>
        rw [executeDeps_cons] at h ⊢
        rw [executeDeps_cons fuel]
        split
        · rename_i hv
          simp only [hv, ↓reduceIte] at h
          exact ihD _ _ _ h
        · rename_i hv
          simp only [hv, ↓reduceIte] at h
          exact Res.bind_congr h (ihT _ _ _) fun _ _ _ h1 => ihD _ _ _ h1
    · intro self task s h
      cases task with
      | task1 A R func_ arg1_ =>
        rw [execute_task1] at h ⊢
        rw [execute_task1 fuel]
        exact Res.bind_congr h (ihC _ _ _) fun _ _ _ _ => rfl
      | task2 A B R func_ arg1_ arg2_ rightFirst =>
        cases rightFirst
        · rw [execute_task2_left] at h ⊢
          rw [execute_task2_left fuel]
          exact Res.bind_congr h (ihC _ _ _) fun _ _ _ h1 =>
            Res.bind_congr h1 (ihC _ _ _) fun _ _ _ _ => rfl
        · rw [execute_task2_right] at h ⊢
          rw [execute_task2_right fuel]
          exact Res.bind_congr h (ihC _ _ _) fun _ _ _ h1 =>
            Res.bind_congr h1 (ihC _ _ _) fun _ _ _ _ => rfl
      | task2dep A B R func_ conv arg1_ arg2_ =>
        rw [execute_task2dep] at h ⊢
        rw [execute_task2dep fuel]
        exact Res.bind_congr h (ihG _ _ _) fun _ _ _ h1 =>
          Res.bind_congr h1 (ihC _ _ _) fun _ _ _ _ => rfl
    · intro T a s h
      cases a with
      | value v => rfl
      | future id_ =>
        rw [convert_future] at h ⊢
        rw [convert_future fuel]
        exact ihG _ _ _ h

theorem getResult_fuel {fuel fuel' : Nat} (hle : fuel ≤ fuel') {T : Ty} {id : TaskID}
    {s : TTaskScheduler den} (h : getResult fuel T id s ≠ .timeout) :
    getResult fuel' T id s = getResult fuel T id s := by
  induction hle with
  | refl => rfl
  | step _ ih => rw [← ih]; exact (fuel_succ _).1 T id s (by rw [ih]; exact h)

theorem executeTask_fuel {fuel fuel' : Nat} (hle : fuel ≤ fuel') {id : TaskID}
    {visited : List TaskID} {s : TTaskScheduler den}
    (h : executeTask fuel id visited s ≠ .timeout) :
    executeTask fuel' id visited s = executeTask fuel id visited s := by
  induction hle with
  | refl => rfl
  | step _ ih => rw [← ih]; exact (fuel_succ _).2.1 id visited s (by rw [ih]; exact h)

theorem executeDeps_fuel {fuel fuel' : Nat} (hle : fuel ≤ fuel') {deps visited : List TaskID}
    {s : TTaskScheduler den} (h : executeDeps fuel deps visited s ≠ .timeout) :
    executeDeps fuel' deps visited s = executeDeps fuel deps visited s := by
  induction hle with
  | refl => rfl
  | step _ ih => rw [← ih]; exact (fuel_succ _).2.2.1 deps visited s (by rw [ih]; exact h)

theorem execute_fuel {fuel fuel' : Nat} (hle : fuel ≤ fuel') {self : TaskID}
    {task : ITask den} {s : TTaskScheduler den} (h : execute fuel self task s ≠ .timeout) :
    execute fuel' self task s = execute fuel self task s := by
  induction hle with
  | refl => rfl
  | step _ ih => rw [← ih]; exact (fuel_succ _).2.2.2.1 self task s (by rw [ih]; exact h)

theorem convert_fuel {fuel fuel' : Nat} (hle : fuel ≤ fuel') {T : Ty} {a : Arg den T}
    {s : TTaskScheduler den} (h : convert fuel a s ≠ .timeout) :
    convert fuel' a s = convert fuel a s := by
  induction hle with
  | refl => rfl
  | step _ ih => rw [← ih]; exact (fuel_succ _).2.2.2.2 T a s (by rw [ih]; exact h)

theorem executeAllFrom_fuel_succ (fuel : Nat) :
    ∀ (i : Nat) (visited : List TaskID) (s : TTaskScheduler den),
      executeAllFrom fuel i visited s ≠ .timeout →
      executeAllFrom (fuel + 1) i visited s = executeAllFrom fuel i visited s := by
  induction fuel with
  | zero => simp [executeAllFrom]
  | succ fuel ih =>
    intro i visited s h
    rw [executeAllFrom_succ] at h
    rw [executeAllFrom_succ (fuel + 1) i visited s, executeAllFrom_succ fuel i visited s]
    split
    · rename_i hi
      simp only [hi, ↓reduceIte] at h
      split
      · rename_i hv
        simp only [hv, ↓reduceIte] at h
        exact ih _ _ _ h
      · rename_i hv
        simp only [hv, ↓reduceIte] at h
        exact Res.bind_congr h ((fuel_succ fuel).2.1 _ _ _) fun _ _ _ h1 => ih _ _ _ h1
    · rfl

theorem executeAll_fuel {fuel fuel' : Nat} (hle : fuel ≤ fuel') {s : TTaskScheduler den}
    (h : executeAll fuel s ≠ .timeout) : executeAll fuel' s = executeAll fuel s := by
  induction hle with
  | refl => rfl
  | step _ ih =>
    rename_i m _
    rw [← ih]
    have hm : executeAll m s ≠ .timeout := by rw [ih]; exact h
    exact executeAllFrom_fuel_succ m 0 [] s hm

end Fuel

section Completeness

variable {Ty : Type} [DecidableEq Ty] {den : Ty → Type}

theorem executeTask_post {fuel : Nat} {id : TaskID} {visited visited' : List TaskID}
    {s s' : TTaskScheduler den} (hs : Inv s)
    (h : executeTask fuel id visited s = .ok visited' s') :
    Inv s' ∧ Extends s s' ∧ id ∈ visited' ∧ (∀ x ∈ visited, x ∈ visited') ∧
      ∀ x ∈ visited', x ∈ visited ∨ s'.results_ x ≠ none := by
  have h1 := (sound fuel).2.1 id visited s hs
  have h2 := (frame fuel).2.1 id visited s
  rw [h] at h1 h2
  exact ⟨h1.1, h2, h1.2⟩

theorem executeDeps_post {fuel : Nat} {deps visited visited' : List TaskID}
    {s s' : TTaskScheduler den} (hs : Inv s)
    (h : executeDeps fuel deps visited s = .ok visited' s') :
    Inv s' ∧ Extends s s' ∧ (∀ x ∈ visited, x ∈ visited') ∧
      ∀ x ∈ visited', x ∈ visited ∨ s'.results_ x ≠ none := by
  have h1 := (sound fuel).2.2.1 deps visited s hs
  have h2 := (frame fuel).2.2.1 deps visited s
  rw [h] at h1 h2
  exact ⟨h1.1, h2, h1.2⟩

theorem getResult_post {fuel : Nat} {T : Ty} {id : TaskID} {x : den T}
    {s s' : TTaskScheduler den} (hs : Inv s) (h : getResult fuel T id s = .ok x s') :
    Inv s' ∧ Extends s s' ∧ s'.results_ id = some (Any.of T x) := by
  have h1 := (sound fuel).1 T id s hs
  have h2 := (frame fuel).1 T id s
  rw [h] at h1 h2
  exact ⟨h1.1, h2, h1.2⟩

theorem getResult_throw {fuel : Nat} {T : Ty} {id : TaskID} {e : Exc}
    {s s' : TTaskScheduler den} (hs : Inv s) (h : getResult fuel T id s = .throw e s') :
    Inv s' ∧ Extends s s' := by
  have h1 := (sound fuel).1 T id s hs
  have h2 := (frame fuel).1 T id s
  rw [h] at h1 h2
  exact ⟨h1, h2⟩

theorem convert_post {fuel : Nat} {T : Ty} {a : Arg den T} {x : den T}
    {s s' : TTaskScheduler den} (hs : Inv s) (h : convert fuel a s = .ok x s') :
    Inv s' ∧ Extends s s' := by
  have h1 := (sound fuel).2.2.2.2 T a s hs
  have h2 := (frame fuel).2.2.2.2 T a s
  rw [h] at h1 h2
  exact ⟨h1.1, h2⟩

theorem execute_post {fuel : Nat} {self : TaskID} {task : ITask den} {v : Any den}
    {s s' : TTaskScheduler den} (hs : Inv s) (h : execute fuel self task s = .ok v s') :
    ExecPost s self task v s' := by
  have h1 := (sound fuel).2.2.2.1 self task s hs
  rw [h] at h1
  exact h1

theorem deps_complete {k : Nat} (hT : CompleteT den k) :
    ∀ (deps visited : List TaskID) (s : TTaskScheduler den), Inv s →
      (∀ d ∈ deps, (denote k s.tasks_ d).isSome) →
      ∃ fuel visited' s', executeDeps fuel deps visited s = .ok visited' s' := by
  intro deps
  induction deps with
  | nil => intro visited s _ _; exact ⟨1, visited, s, rfl⟩
  | cons dep rest ih =>
    intro visited s hs hk
    have hrest : ∀ d ∈ rest, (denote k s.tasks_ d).isSome :=
      fun d hd => hk d (List.mem_cons_of_mem _ hd)
    by_cases hv : dep ∈ visited
    · obtain ⟨fuel, v', s', h⟩ := ih visited s hs hrest
      exact ⟨fuel + 1, v', s', by rw [executeDeps_cons, if_pos hv, h]⟩
    · obtain ⟨a, ha⟩ := Option.isSome_iff_exists.mp (hk dep (List.mem_cons_self _ _))
      obtain ⟨f1, v1, s1, h1, _⟩ := hT dep a visited s hs ha
      obtain ⟨hs1, he1, _⟩ := executeTask_post hs h1
      obtain ⟨f2, v2, s2, h2⟩ := ih v1 s1 hs1 (by rw [he1.tasks]; exact hrest)
      refine ⟨max f1 f2 + 1, v2, s2, ?_⟩
      rw [executeDeps_cons, if_neg hv,
        executeTask_fuel (le_max_left f1 f2) (by rw [h1]; simp), h1]
      simp only [Res.bind]
      rw [executeDeps_fuel (le_max_right f1 f2) (by rw [h2]; simp), h2]

theorem castResult_of {T : Ty} {id : TaskID} {x : den T} {s : TTaskScheduler den}
    (h : s.results_ id = some (Any.of T x)) : castResult T id s = .ok x s := by
  rw [castResult_some T h, any_cast_of]

theorem evalArg_future_inv {val : TaskID → Option (Any den)} {T : Ty} {id_ : TaskID}
    {x : den T} (h : evalArg val (Arg.future id_ : Arg den T) = some x) :
    val id_ = some (Any.of T x) := by
  simp only [evalArg] at h
  cases hv : val id_ with
  | none => simp [hv] at h
  | some r =>
    rw [hv] at h
    simp only at h
    cases hc : r.any_cast T with
    | held v =>
      rw [hc] at h
      simp only [Option.some.injEq] at h
      subst h
      rw [any_cast_held hc]
    | bad_cast => simp [hc] at h
    | assertion_failed => simp [hc] at h

theorem future_complete {k : Nat} (hG : CompleteG den k) {T : Ty} {id_ : TaskID} {x : den T}
    {s : TTaskScheduler den} (hs : Inv s)
    (h : evalArg (fun d => denote k s.tasks_ d) (Arg.future id_ : Arg den T) = some x) :
    ∃ fuel s', getResult fuel T id_ s = .ok x s' := by
  obtain ⟨fuel, s', _, _, hc, hr⟩ := hG T id_ _ s hs (evalArg_future_inv h)
  exact ⟨fuel, s', by rw [hr, castResult_of hc]⟩

theorem convert_complete {k : Nat} (hG : CompleteG den k) {T : Ty} {a : Arg den T}
    {x : den T} {s : TTaskScheduler den} (hs : Inv s)
    (h : evalArg (fun d => denote k s.tasks_ d) a = some x) :
    ∃ fuel s', convert fuel a s = .ok x s' := by
  cases a with
  | value v =>
    simp only [evalArg, Option.some.injEq] at h
    subst h
    exact ⟨1, s, rfl⟩
  | future id_ =>
    obtain ⟨fuel, s', hr⟩ := future_complete hG hs h
    exact ⟨fuel + 1, s', by rw [convert_future, hr]⟩

theorem execute_complete {k : Nat} (hG : CompleteG den k) (self : TaskID) {task : ITask den}
    {v : Any den} {s : TTaskScheduler den} (hs : Inv s)
    (h : task.eval (fun d => denote k s.tasks_ d) = some v) :
    ∃ fuel s', execute fuel self task s = .ok v s' := by
  cases task with
  | task1 A R func_ arg1_ =>
    simp only [ITask.eval] at h
    cases h1 : evalArg (fun d => denote k s.tasks_ d) arg1_ with
    | none => simp [h1] at h
    | some x =>
      rw [h1] at h
      simp only [Option.some.injEq] at h
      subst h
      obtain ⟨f1, s1, hr1⟩ := convert_complete hG hs h1
      exact ⟨f1 + 1, s1.logCall self, by rw [execute_task1, hr1]; rfl⟩
  | task2 A B R func_ arg1_ arg2_ rightFirst =>
    simp only [ITask.eval] at h
    cases h1 : evalArg (fun d => denote k s.tasks_ d) arg1_ with
    | none => simp [h1] at h
    | some x =>
      cases h2 : evalArg (fun d => denote k s.tasks_ d) arg2_ with
      | none => simp [h1, h2] at h
      | some y =>
        rw [h1, h2] at h
        simp only [Option.some.injEq] at h
        subst h
        cases rightFirst
        · obtain ⟨f1, s1, hr1⟩ := convert_complete hG hs h1
          obtain ⟨hs1, he1⟩ := convert_post hs hr1
          rw [← he1.tasks] at h2
          obtain ⟨f2, s2, hr2⟩ := convert_complete hG hs1 h2
          refine ⟨max f1 f2 + 1, s2.logCall self, ?_⟩
          rw [execute_task2_left, convert_fuel (le_max_left f1 f2) (by rw [hr1]; simp), hr1]
          simp only [Res.bind]
          rw [convert_fuel (le_max_right f1 f2) (by rw [hr2]; simp), hr2]
        · obtain ⟨f1, s1, hr1⟩ := convert_complete hG hs h2
          obtain ⟨hs1, he1⟩ := convert_post hs hr1
          rw [← he1.tasks] at h1
          obtain ⟨f2, s2, hr2⟩ := convert_complete hG hs1 h1
          refine ⟨max f1 f2 + 1, s2.logCall self, ?_⟩
          rw [execute_task2_right, convert_fuel (le_max_left f1 f2) (by rw [hr1]; simp), hr1]
          simp only [Res.bind]
          rw [convert_fuel (le_max_right f1 f2) (by rw [hr2]; simp), hr2]
  | task2dep A B R func_ conv arg1_ arg2_ =>
    simp only [ITask.eval] at h
    cases h1 : evalArg (fun d => denote k s.tasks_ d) (Arg.future arg2_ : Arg den R) with
    | none => simp [h1] at h
    | some r =>
      cases h2 : evalArg (fun d => denote k s.tasks_ d) arg1_ with
      | none => simp [h1, h2] at h
      | some x =>
        rw [h1, h2] at h
        simp only [Option.some.injEq] at h
        subst h
        obtain ⟨f1, s1, hr1⟩ := future_complete hG hs h1
        obtain ⟨hs1, he1, _⟩ := getResult_post hs hr1
        rw [← he1.tasks] at h2
        obtain ⟨f2, s2, hr2⟩ := convert_complete hG hs1 h2
        refine ⟨max f1 f2 + 1, s2.logCall self, ?_⟩
        rw [execute_task2dep, getResult_fuel (le_max_left f1 f2) (by rw [hr1]; simp), hr1]
        simp only [Res.bind]
        rw [convert_fuel (le_max_right f1 f2) (by rw [hr2]; simp), hr2]

theorem task_complete {k : Nat} (hT : CompleteT den k) (hG : CompleteG den k) :
    CompleteT den (k + 1) := by
  intro id a visited s hs hd
  by_cases hv : id ∈ visited
  · exact ⟨1, visited, s, by rw [executeTask_succ, if_pos hv], Or.inl hv⟩
  rw [denote_succ] at hd
  cases ht : s.tasks_[id.id_]? with
  | none => simp [ht] at hd
  | some task =>
    rw [ht] at hd
    simp only at hd
    have hdeps : ∀ d ∈ s.dependencies_ id, (denote k s.tasks_ d).isSome := by
      intro d hdm
      obtain ⟨task', ht', hr⟩ := hs.edges id d hdm
      rw [ht] at ht'
      obtain rfl := Option.some.inj ht'
      exact ITask.eval_refs hd d hr
    obtain ⟨fD, v1, s1, hD⟩ := deps_complete hT _ (id :: visited) s hs hdeps
    obtain ⟨hs1, he1, _⟩ := executeDeps_post hs hD
    cases hc : s1.results_ id with
    | none =>
      have hd1 : task.eval (fun d => denote k s1.tasks_ d) = some a := by
        rw [he1.tasks]; exact hd
      obtain ⟨fE, s2, hE⟩ := execute_complete hG id hs1 hd1
      refine ⟨max fD fE + 1, v1, s2.store id a, ?_, Or.inr (by simp [TTaskScheduler.store])⟩
      rw [executeTask_succ, if_neg hv,
        executeDeps_fuel (le_max_left fD fE) (by rw [hD]; simp), hD]
      simp only [Res.bind, hc, Option.isNone_none, ↓reduceIte, he1.tasks, ht]
      rw [execute_fuel (le_max_right fD fE) (by rw [hE]; simp), hE]
    | some a' =>
      obtain ⟨_, k', hk'⟩ := hs1.cached id a' hc
      rw [he1.tasks] at hk'
      have hk : denote (k + 1) s.tasks_ id = some a := by rw [denote_succ, ht]; exact hd
      obtain rfl := denote_unique hk' hk
      refine ⟨fD + 1, v1, s1, ?_, Or.inr hc⟩
      rw [executeTask_succ, if_neg hv, hD]
      simp [Res.bind, hc]

theorem getResult_complete {k : Nat} (hT : CompleteT den k) : CompleteG den k := by
  intro T id a s hs hd
  have hlt := denote_lt hd
  have hvalid := hs.valid hlt
  cases hc : s.results_ id with
  | none =>
    obtain ⟨f, v', s', h, hres⟩ := hT id a [] s hs hd
    obtain ⟨hs', he', _⟩ := executeTask_post hs h
    have hres' : s'.results_ id = some a := by simpa using hres
    refine ⟨f + 1, s', hs', he', hres', ?_⟩
    rw [getResult_succ, h]
    simp [hvalid, hc, hlt, Res.bind]
  | some a' =>
    obtain ⟨_, k', hk'⟩ := hs.cached id a' hc
    obtain rfl := denote_unique hk' hd
    refine ⟨1, s, hs, Extends.refl s, hc, ?_⟩
    rw [getResult_succ]
    simp [hvalid, hc]

/-- Completeness: a task that has a value is resolved to that value by a run with
enough fuel, from every state that satisfies the invariant. -/
theorem complete (k : Nat) : CompleteT den k ∧ CompleteG den k := by
  induction k with
  | zero =>
    have h0 : CompleteT den 0 := by
      intro id a visited s _ hd
      simp [denote] at hd
    exact ⟨h0, getResult_complete h0⟩
  | succ k ih =>
    have h1 := task_complete ih.1 ih.2
    exact ⟨h1, getResult_complete h1⟩

/-- With enough fuel `getResult` returns the value of the task, cast to the requested
type, when that value has the requested type. -/
theorem getResult_of_denote {k : Nat} {T : Ty} {id : TaskID} {x : den T}
    {s : TTaskScheduler den} (hs : Inv s) (h : denote k s.tasks_ id = some (Any.of T x)) :
    ∃ fuel s', getResult fuel T id s = .ok x s' := by
  obtain ⟨fuel, s', _, _, hc, hr⟩ := (complete k).2 T id _ s hs h
  exact ⟨fuel, s', by rw [hr, castResult_of hc]⟩

/-- A value returned by `getResult` is the value of the task. -/
theorem denote_of_getResult {fuel : Nat} {T : Ty} {id : TaskID} {x : den T}
    {s s' : TTaskScheduler den} (hs : Inv s) (h : getResult fuel T id s = .ok x s') :
    ∃ k, denote k s.tasks_ id = some (Any.of T x) := by
  obtain ⟨hs', he, hc⟩ := getResult_post hs h
  obtain ⟨_, k, hk⟩ := hs'.cached id _ hc
  exact ⟨k, by rw [← he.tasks]; exact hk⟩

end Completeness

section WellTypedRuns

variable {Ty : Type} [DecidableEq Ty] {den : Ty → Type}

theorem WellTyped.backward {s : TTaskScheduler den} (h : WellTyped s) : Backward s := by
  intro i task ht d hd
  have key : ∃ T, (d, T) ∈ task.requests := by
    cases task with
    | task1 A R func_ arg1_ =>
      cases arg1_ with
      | value v => simp [ITask.refs, Arg.refs] at hd
      | future id_ =>
        simp only [ITask.refs, Arg.refs, List.mem_singleton] at hd
        exact ⟨A, by simp [ITask.requests, Arg.requests, hd]⟩
    | task2 A B R func_ arg1_ arg2_ rightFirst =>
      simp only [ITask.refs, List.mem_append] at hd
      rcases hd with hd | hd
      · cases arg1_ with
        | value v => simp [Arg.refs] at hd
        | future id_ =>
          simp only [Arg.refs, List.mem_singleton] at hd
          exact ⟨A, by simp [ITask.requests, Arg.requests, hd]⟩
      · cases arg2_ with
        | value v => simp [Arg.refs] at hd
        | future id_ =>
          simp only [Arg.refs, List.mem_singleton] at hd
          exact ⟨B, by simp [ITask.requests, Arg.requests, hd]⟩
    | task2dep A B R func_ conv arg1_ arg2_ =>
      simp only [ITask.refs, List.mem_cons] at hd
      rcases hd with hd | hd
      · exact ⟨R, by simp [ITask.requests, hd]⟩
      · cases arg1_ with
        | value v => simp [Arg.refs] at hd
        | future id_ =>
          simp only [Arg.refs, List.mem_singleton] at hd
          exact ⟨A, by simp [ITask.requests, Arg.requests, hd]⟩
  obtain ⟨T, hT⟩ := key
  exact (h i task ht (d, T) hT).1

theorem evalArg_of_requests {val : TaskID → Option (Any den)} {T : Ty} (a : Arg den T)
    (h : ∀ p ∈ a.requests, ∃ x : den p.2, val p.1 = some (Any.of p.2 x)) :
    ∃ x, evalArg val a = some x := by
  cases a with
  | value v => exact ⟨v, rfl⟩
  | future id_ =>
    obtain ⟨x, hx⟩ := h (id_, T) (by simp [Arg.requests])
    exact ⟨x, evalArg_future hx⟩

theorem ITask.eval_of_requests {val : TaskID → Option (Any den)} (task : ITask den)
    (h : ∀ p ∈ task.requests, ∃ x : den p.2, val p.1 = some (Any.of p.2 x)) :
    ∃ x : den task.resultTy, task.eval val = some (Any.of task.resultTy x) := by
  cases task with
  | task1 A R func_ arg1_ =>
    obtain ⟨x, hx⟩ := evalArg_of_requests arg1_ (fun p hp => h p (by simpa [ITask.requests] using hp))
    exact ⟨func_ x, by simp [ITask.eval, hx, ITask.resultTy]⟩
  | task2 A B R func_ arg1_ arg2_ rightFirst =>
    obtain ⟨x, hx⟩ := evalArg_of_requests arg1_
      (fun p hp => h p (by simp [ITask.requests, hp]))
    obtain ⟨y, hy⟩ := evalArg_of_requests arg2_
      (fun p hp => h p (by simp [ITask.requests, hp]))
    exact ⟨func_ x y, by simp [ITask.eval, hx, hy, ITask.resultTy]⟩
  | task2dep A B R func_ conv arg1_ arg2_ =>
    obtain ⟨r, hr⟩ := h (arg2_, R) (by simp [ITask.requests])
    obtain ⟨x, hx⟩ := evalArg_of_requests arg1_
      (fun p hp => h p (by simp [ITask.requests, hp]))
    exact ⟨func_ x (conv r), by simp [ITask.eval, evalArg_future hr, hx, ITask.resultTy]⟩

/-- In a well-typed table every stored task has a value, of the result type of its
callable. -/
theorem WellTyped.denote {s : TTaskScheduler den} (h : WellTyped s) :
    ∀ (i : Nat) (task : ITask den), s.tasks_[i]? = some task →
      ∃ x : den task.resultTy, denote (i + 1) s.tasks_ ⟨i⟩ = some (Any.of task.resultTy x) := by
  intro i
  induction i using Nat.strong_induction_on with
  | _ i ih =>
    intro task ht
    rw [denote_succ]
    simp only [ht]
    refine task.eval_of_requests fun p hp => ?_
    obtain ⟨hlt, task', ht', hty⟩ := h i task ht p hp
    obtain ⟨x, hx⟩ := ih p.1.id_ hlt task' ht'
    obtain ⟨d, T⟩ := p
    simp only at hty hlt hx ⊢
    subst hty
    exact ⟨x, denote_mono (by omega) hx⟩

/-- The loop of `executeAll` returns when every stored task has a value. -/
theorem all_complete {tasks : List (ITask den)}
    (hd : ∀ i, i < tasks.length → ∃ k a, denote k tasks ⟨i⟩ = some a) :
    ∀ (m i : Nat) (visited : List TaskID) (s : TTaskScheduler den), Inv s →
      s.tasks_ = tasks → tasks.length - i ≤ m →
      ∃ fuel s', executeAllFrom fuel i visited s = .ok () s' := by
  intro m
  induction m with
  | zero =>
    intro i visited s _ ht hm
    refine ⟨1, s, ?_⟩
    rw [executeAllFrom_succ, if_neg (by rw [ht]; omega)]
  | succ m ih =>
    intro i visited s hs ht hm
    by_cases hi : i < tasks.length
    · by_cases hv : (⟨i⟩ : TaskID) ∈ visited
      · obtain ⟨fuel, s', h⟩ := ih (i + 1) visited s hs ht (by omega)
        exact ⟨fuel + 1, s', by rw [executeAllFrom_succ, if_pos (by rw [ht]; exact hi),
          if_pos hv, h]⟩
      · obtain ⟨k, a, hk⟩ := hd i hi
        obtain ⟨f1, v1, s1, h1, _⟩ := (complete k).1 ⟨i⟩ a visited s hs (by rw [ht]; exact hk)
        obtain ⟨hs1, he1, _⟩ := executeTask_post hs h1
        obtain ⟨f2, s2, h2⟩ := ih (i + 1) v1 s1 hs1 (by rw [he1.tasks, ht]) (by omega)
        refine ⟨max f1 f2 + 1, s2, ?_⟩
        rw [executeAllFrom_succ, if_pos (by rw [ht]; exact hi), if_neg hv,
          executeTask_fuel (le_max_left f1 f2) (by rw [h1]; simp), h1]
        simp only [Res.bind]
        have hne : executeAllFrom f2 (i + 1) v1 s1 ≠ .timeout := by rw [h2]; simp
        have hmono : ∀ F, f2 ≤ F →
            executeAllFrom F (i + 1) v1 s1 = executeAllFrom f2 (i + 1) v1 s1 := by
          intro F hF
          induction hF with
          | refl => rfl
          | step _ ihF =>
            rw [← ihF]
            exact executeAllFrom_fuel_succ _ _ _ _ (by rw [ihF]; exact hne)
        rw [hmono _ (le_max_right f1 f2), h2]
    · refine ⟨1, s, ?_⟩
      rw [executeAllFrom_succ, if_neg (by rw [ht]; exact hi)]

theorem TTaskScheduler.ext_of {s s' : TTaskScheduler den} (h1 : s'.tasks_ = s.tasks_)
    (h2 : s'.results_ = s.results_) (h3 : s'.dependencies_ = s.dependencies_)
    (h4 : s'.invoked = s.invoked) : s' = s := by
  cases s
  cases s'
  simp_all

/-- The callables called between `s` and a later state `s'` of a run are exactly those
of the tasks that had no cached result in `s` and have one in `s'`. -/
theorem new_calls {s s' : TTaskScheduler den} (hs : Inv s) (hs' : Inv s')
    (he : Extends s s') :
    ∃ new, s'.invoked = s.invoked ++ new ∧ new.Nodup ∧
      ∀ id, id ∈ new ↔ (s.results_ id = none ∧ s'.results_ id ≠ none) := by
  obtain ⟨new, hnew⟩ := he.invoked
  have hnd := hs'.nodup
  rw [← hnew, List.nodup_append] at hnd
  refine ⟨new, hnew.symm, hnd.2.1, fun id => ⟨fun hm => ?_, fun hc => ?_⟩⟩
  · have hm' : id ∈ s'.invoked := by rw [← hnew]; exact List.mem_append_right _ hm
    refine ⟨?_, hs'.logged id hm'⟩
    cases hr : s.results_ id with
    | none => rfl
    | some a => exact absurd hm (fun h => hnd.2.2 (hs.cached id a hr).1 h)
  · have hm' := hs'.mem hc.2
    rw [← hnew] at hm'
    rcases List.mem_append.mp hm' with h | h
    · exact absurd hc.1 (hs.logged id h)
    · exact h

/-- A run that starts with every stored task cached changes nothing. -/
theorem same_of_all_cached {s s' : TTaskScheduler den} (hs : Inv s) (hs' : Inv s')
    (he : Extends s s') (hall : ∀ i < s.tasks_.length, s.results_ ⟨i⟩ ≠ none) : s' = s := by
  obtain ⟨new, hnew, _, hmem⟩ := new_calls hs hs' he
  have hnil : new = [] := by
    apply List.eq_nil_iff_forall_not_mem.mpr
    intro id hid
    obtain ⟨h1, h2⟩ := (hmem id).mp hid
    have hlt := hs'.lt h2
    rw [he.tasks] at hlt
    exact hall id.id_ hlt h1
  refine TTaskScheduler.ext_of he.tasks ?_ he.deps (by rw [hnew, hnil, List.append_nil])
  funext id
  cases hr : s.results_ id with
  | some a => exact he.results id a hr
  | none =>
    by_contra hc
    have := (hmem id).mpr ⟨hr, hc⟩
    rw [hnil] at this
    simp at this

end WellTypedRuns

section Termination

variable {Ty : Type} [DecidableEq Ty] {den : Ty → Type}

theorem settles_ok {α : Type} (v : α) (s : TTaskScheduler den) :
    Settles (fun _ => (Res.ok v s : Res den α)) :=
  ⟨0, trivial, fun _ _ => rfl⟩

theorem settles_throw {α : Type} (e : Exc) (s : TTaskScheduler den) :
    Settles (fun _ => (Res.throw e s : Res den α)) :=
  ⟨0, trivial, fun _ _ => rfl⟩

theorem settles_const {α : Type} {r : Res den α} (h : r.Done) : Settles (fun _ => r) :=
  ⟨0, h, fun _ _ => rfl⟩

theorem settles_succ {α : Type} {r : Nat → Res den α} (h : Settles (fun f => r (f + 1))) :
    Settles r := by
  obtain ⟨F, hd, hst⟩ := h
  refine ⟨F + 1, hd, fun F' hF' => ?_⟩
  obtain ⟨F'', rfl⟩ : ∃ F'', F' = F'' + 1 := ⟨F' - 1, by omega⟩
  exact hst F'' (by omega)

theorem settles_bind {α β : Type} {r1 : Nat → Res den α}
    {r2 : Nat → α → TTaskScheduler den → Res den β} (h1 : Settles r1)
    (h2 : ∀ F v s, r1 F = .ok v s → Settles (fun f => r2 f v s)) :
    Settles (fun f => (r1 f).bind (r2 f)) := by
  obtain ⟨F1, hd1, hst1⟩ := h1
  cases hr : r1 F1 with
  | ok v s =>
    obtain ⟨F2, hd2, hst2'⟩ := h2 F1 v s hr
    have hst2 : ∀ F', F2 ≤ F' → r2 F' v s = r2 F2 v s := hst2'
    have hd2 : (r2 F2 v s).Done := hd2
    refine ⟨max F1 F2, ?_, fun F' hF' => ?_⟩
    · simp only [hst1 _ (le_max_left F1 F2), hr, Res.bind]
      rw [hst2 _ (le_max_right F1 F2)]
      exact hd2
    · simp only [hst1 _ (le_max_left F1 F2), hst1 F' (le_trans (le_max_left F1 F2) hF'), hr,
        Res.bind]
      rw [hst2 _ (le_max_right F1 F2), hst2 F' (le_trans (le_max_right F1 F2) hF')]
  | throw e s =>
    refine ⟨F1, by simp [hr, Res.bind, Res.Done], fun F' hF' => ?_⟩
    simp only [hst1 F' hF', hr, Res.bind]
  | abort => rw [hr] at hd1; exact absurd hd1 (by simp [Res.Done])
  | undefined => rw [hr] at hd1; exact absurd hd1 (by simp [Res.Done])
  | timeout => rw [hr] at hd1; exact absurd hd1 (by simp [Res.Done])

theorem Inv.nonempty {s : TTaskScheduler den} (h : Inv s) {id : TaskID} {a : Any den}
    (hc : s.results_ id = some a) : ∃ (T : Ty) (x : den T), a = Any.of T x := by
  obtain ⟨_, k, hk⟩ := h.cached id a hc
  obtain ⟨task, _, x, hx⟩ := denote_of hk
  exact ⟨_, x, hx⟩

theorem castResult_done (T : Ty) {id : TaskID} {s : TTaskScheduler den} (hs : Inv s)
    (hc : s.results_ id ≠ none) : (castResult T id s).Done := by
  cases hr : s.results_ id with
  | none => exact absurd hr hc
  | some a =>
    obtain ⟨T', x, rfl⟩ := hs.nonempty hr
    rw [castResult_some T hr]
    by_cases hT : T' = T
    · subst hT
      rw [any_cast_of]
      trivial
    · rw [any_cast_of_ne x hT]
      trivial

theorem Backward.carry_back {s s' : TTaskScheduler den} (h : Backward s) (e : Extends s s') :
    Backward s' := by
  intro i task ht
  rw [e.tasks] at ht
  exact h i task ht

/-- What the termination proof knows about the handles below `i`. -/
theorem settles_below_deps {i : Nat}
    (ih : ∀ (d : TaskID), d.id_ < i → ∀ (s : TTaskScheduler den), Inv s → Backward s →
      d.id_ < s.tasks_.length → ∀ visited, Settles (fun f => executeTask f d visited s)) :
    ∀ (deps visited : List TaskID) (s : TTaskScheduler den), Inv s → Backward s →
      (∀ d ∈ deps, d.id_ < i ∧ d.id_ < s.tasks_.length) →
      Settles (fun f => executeDeps f deps visited s) := by
  intro deps
  induction deps with
  | nil =>
    intro visited s _ _ _
    exact settles_succ (settles_ok visited s)
  | cons dep rest ihr =>
    intro visited s hs hb hd
    apply settles_succ
    simp only [executeDeps_cons]
    have hrest : ∀ d ∈ rest, d.id_ < i ∧ d.id_ < s.tasks_.length :=
      fun d hm => hd d (List.mem_cons_of_mem _ hm)
    by_cases hv : dep ∈ visited
    · simp only [if_pos hv]
      exact ihr visited s hs hb hrest
    · simp only [if_neg hv]
      have hdep := hd dep (List.mem_cons_self _ _)
      refine settles_bind (ih dep hdep.1 s hs hb hdep.2 visited) fun F v1 s1 h1 => ?_
      obtain ⟨hs1, he1, _⟩ := executeTask_post hs h1
      exact ihr v1 s1 hs1 (hb.carry_back he1) (by rw [he1.tasks]; exact hrest)

theorem settles_convert {T : Ty} (a : Arg den T) (s : TTaskScheduler den)
    (ih : ∀ d ∈ a.refs, Settles (fun f => getResult f T d s)) :
    Settles (fun f => convert f a s) := by
  apply settles_succ
  cases a with
  | value v => exact settles_ok v s
  | future id_ =>
    simp only [convert_future]
    exact ih id_ (by simp [Arg.refs])

theorem settles_execute (self : TaskID) (task : ITask den) (s : TTaskScheduler den)
    (hs : Inv s)
    (ih : ∀ d ∈ task.refs, ∀ (T : Ty) (s1 : TTaskScheduler den), Inv s1 → Extends s s1 →
      Settles (fun f => getResult f T d s1)) :
    Settles (fun f => execute f self task s) := by
  apply settles_succ
  cases task with
  | task1 A R func_ arg1_ =>
    simp only [execute_task1]
    refine settles_bind (settles_convert arg1_ s fun d hd =>
      ih d (by simp [ITask.refs, hd]) _ s hs (Extends.refl s)) fun F x s1 _ => ?_
    exact settles_ok _ _
  | task2 A B R func_ arg1_ arg2_ rightFirst =>
    cases rightFirst
    · simp only [execute_task2_left]
      refine settles_bind (settles_convert arg1_ s fun d hd =>
        ih d (by simp [ITask.refs, hd]) _ s hs (Extends.refl s)) fun F x s1 h1 => ?_
      obtain ⟨hs1, he1⟩ := convert_post hs h1
      refine settles_bind (settles_convert arg2_ s1 fun d hd =>
        ih d (by simp [ITask.refs, hd]) _ s1 hs1 he1) fun F y s2 _ => ?_
      exact settles_ok _ _
    · simp only [execute_task2_right]
      refine settles_bind (settles_convert arg2_ s fun d hd =>
        ih d (by simp [ITask.refs, hd]) _ s hs (Extends.refl s)) fun F x s1 h1 => ?_
      obtain ⟨hs1, he1⟩ := convert_post hs h1
      refine settles_bind (settles_convert arg1_ s1 fun d hd =>
        ih d (by simp [ITask.refs, hd]) _ s1 hs1 he1) fun F y s2 _ => ?_
      exact settles_ok _ _
  | task2dep A B R func_ conv arg1_ arg2_ =>
    simp only [execute_task2dep]
    refine settles_bind (ih arg2_ (by simp [ITask.refs]) R s hs (Extends.refl s))
      fun F r s1 h1 => ?_
    obtain ⟨hs1, he1, _⟩ := getResult_post hs h1
    refine settles_bind (settles_convert arg1_ s1 fun d hd =>
      ih d (by simp [ITask.refs, hd]) _ s1 hs1 he1) fun F y s2 _ => ?_
    exact settles_ok _ _

theorem settles_getResult_of_task (T : Ty) (id : TaskID) (s : TTaskScheduler den)
    (hs : Inv s) (hlt : id.id_ < s.tasks_.length)
    (ih : Settles (fun f => executeTask f id [] s)) :
    Settles (fun f => getResult f T id s) := by
  apply settles_succ
  simp only [getResult_succ, hs.valid hlt, Bool.not_true, Bool.false_eq_true, ↓reduceIte]
  cases hc : s.results_ id with
  | some a =>
    simp only [Option.isNone_some, Bool.false_eq_true, ↓reduceIte]
    exact settles_const (castResult_done T hs (by simp [hc]))
  | none =>
    simp only [Option.isNone_none, ↓reduceIte, ge_iff_le, Nat.not_le.mpr hlt]
    refine settles_bind ih fun F v1 s1 h1 => ?_
    obtain ⟨hs1, _, hm, _, hv⟩ := executeTask_post hs h1
    refine settles_const (castResult_done T hs1 ?_)
    rcases hv id hm with h | h
    · simp at h
    · exact h

/-- Termination: when every reference points to an earlier task, resolving a stored
task settles, with a value or with an exception. -/
theorem settles_task (i : Nat) :
    ∀ (id : TaskID), id.id_ = i → ∀ (s : TTaskScheduler den), Inv s → Backward s →
      id.id_ < s.tasks_.length → ∀ visited, Settles (fun f => executeTask f id visited s) := by
  induction i using Nat.strong_induction_on with
  | _ i ih =>
    intro id hid s hs hb hlt visited
    have ihT : ∀ (d : TaskID), d.id_ < i → ∀ (s : TTaskScheduler den), Inv s →
        Backward s → d.id_ < s.tasks_.length →
        ∀ visited, Settles (fun f => executeTask f d visited s) :=
      fun d hd => ih d.id_ hd d rfl
    apply settles_succ
    simp only [executeTask_succ]
    by_cases hv : id ∈ visited
    · simp only [if_pos hv]
      exact settles_ok _ _
    simp only [if_neg hv]
    obtain ⟨task, ht⟩ : ∃ task, s.tasks_[id.id_]? = some task :=
      ⟨_, List.getElem?_eq_getElem hlt⟩
    have hrefs : ∀ d ∈ task.refs, d.id_ < i ∧ d.id_ < s.tasks_.length := by
      intro d hd
      have := hb id.id_ task ht d hd
      omega
    have hdeps : ∀ d ∈ s.dependencies_ id, d.id_ < i ∧ d.id_ < s.tasks_.length := by
      intro d hd
      obtain ⟨task', ht', hr⟩ := hs.edges id d hd
      rw [ht] at ht'
      obtain rfl := Option.some.inj ht'
      exact hrefs d hr
    refine settles_bind (settles_below_deps ihT _ _ s hs hb hdeps) fun F v1 s1 h1 => ?_
    obtain ⟨hs1, he1, _⟩ := executeDeps_post hs h1
    cases hc : s1.results_ id with
    | some a =>
      simp only [Option.isNone_some, Bool.false_eq_true, ↓reduceIte]
      exact settles_ok _ _
    | none =>
      simp only [Option.isNone_none, ↓reduceIte, he1.tasks, ht]
      refine settles_bind (settles_execute id task s1 hs1 fun d hd T s2 hs2 he2 => ?_)
        fun F v s2 _ => settles_ok _ _
      have hd' := hrefs d hd
      have hlt2 : d.id_ < s2.tasks_.length := by rw [he2.tasks, he1.tasks]; exact hd'.2
      exact settles_getResult_of_task T d s2 hs2 hlt2
        (ihT d hd'.1 s2 hs2 ((hb.carry_back he1).carry_back he2) hlt2 [])

/-- Termination of `getResult` on any handle, when every reference points to an earlier
task: it settles with a value or with an exception. -/
theorem settles_getResult {s : TTaskScheduler den} (hs : Inv s) (hb : Backward s) (T : Ty)
    (id : TaskID) : Settles (fun f => getResult f T id s) := by
  by_cases hlt : id.id_ < s.tasks_.length
  · exact settles_getResult_of_task T id s hs hlt (settles_task id.id_ id rfl s hs hb hlt [])
  · apply settles_succ
    simp only [getResult_succ]
    cases hv : id.isValid
    · simp only [Bool.not_false, ↓reduceIte]
      exact settles_throw _ _
    · simp only [Bool.not_true, Bool.false_eq_true, ↓reduceIte,
        hs.uncached_of_ge (Nat.le_of_not_lt hlt), Option.isNone_none, ge_iff_le,
        Nat.le_of_not_lt hlt]
      exact settles_throw _ _

end Termination

section OrderIndependence

variable {Ty : Type} [DecidableEq Ty] {den : Ty → Type}

theorem Res.Done.ne_timeout {α : Type} {r : Res den α} (h : r.Done) : r ≠ .timeout := by
  rintro rfl
  exact h

theorem resolveEach_cons (fuel : Nat) (T : Ty) (id : TaskID) (rest : List (Ty × TaskID))
    (s : TTaskScheduler den) :
    resolveEach fuel ((T, id) :: rest) s =
      match getResult fuel T id s with
      | .ok _ s' => resolveEach fuel rest s'
      | .throw _ s' => resolveEach fuel rest s'
      | _ => none := rfl

theorem resolveEach_fuel {fuel fuel' : Nat} (hle : fuel ≤ fuel') :
    ∀ (reqs : List (Ty × TaskID)) (s sE : TTaskScheduler den),
      resolveEach fuel reqs s = some sE → resolveEach fuel' reqs s = some sE := by
  intro reqs
  induction reqs with
  | nil => intro s sE h; exact h
  | cons p rest ih =>
    obtain ⟨T, id⟩ := p
    intro s sE h
    rw [resolveEach_cons] at h ⊢
    cases hr : getResult fuel T id s with
    | ok v s' =>
      rw [hr] at h
      rw [getResult_fuel hle (by rw [hr]; simp), hr]
      exact ih s' sE h
    | throw e s' =>
      rw [hr] at h
      rw [getResult_fuel hle (by rw [hr]; simp), hr]
      exact ih s' sE h
    | abort => rw [hr] at h; simp at h
    | undefined => rw [hr] at h; simp at h
    | timeout => rw [hr] at h; simp at h

theorem getResult_unregistered (fuel : Nat) (T : Ty) {id : TaskID} {s : TTaskScheduler den}
    (hs : Inv s) (hge : s.tasks_.length ≤ id.id_) :
    ∃ e, getResult (fuel + 1) T id s = .throw e s := by
  rw [getResult_succ]
  cases hv : id.isValid
  · exact ⟨.invalid_argument, by simp⟩
  · exact ⟨.out_of_range, by simp [hs.uncached_of_ge hge, hge]⟩

/-- A sequence of `getResult` calls returns when every stored task has a value, and
afterwards every requested stored task is cached. -/
theorem resolveEach_complete {tasks : List (ITask den)}
    (hd : ∀ i, i < tasks.length → ∃ k a, denote k tasks ⟨i⟩ = some a) :
    ∀ (reqs : List (Ty × TaskID)) (s : TTaskScheduler den), Inv s → s.tasks_ = tasks →
      ∃ fuel sE, resolveEach fuel reqs s = some sE ∧ Inv sE ∧ Extends s sE ∧
        ∀ p ∈ reqs, p.2.id_ < tasks.length → sE.results_ p.2 ≠ none := by
  intro reqs
  induction reqs with
  | nil =>
    intro s hs _
    exact ⟨0, s, rfl, hs, Extends.refl s, by simp⟩
  | cons p rest ih =>
    obtain ⟨T, id⟩ := p
    intro s hs ht
    by_cases hlt : id.id_ < tasks.length
    · obtain ⟨k, a, hk⟩ := hd id.id_ hlt
      obtain ⟨f1, s1, hs1, he1, hc1, hr1⟩ := (complete k).2 T id a s hs (by rw [ht]; exact hk)
      obtain ⟨f2, sE, h2, hsE, heE, hall⟩ := ih s1 hs1 (by rw [he1.tasks, ht])
      have hdone := castResult_done T hs1 (by simp [hc1] : s1.results_ id ≠ none)
      have hsame := castResult_same T id s1
      refine ⟨max f1 f2, sE, ?_, hsE, he1.trans heE, ?_⟩
      · rw [resolveEach_cons, getResult_fuel (le_max_left f1 f2) (by rw [hr1]; exact hdone.ne_timeout),
          hr1]
        cases hc : castResult T id s1 with
        | ok v s' =>
          rw [hc] at hsame
          simp only [Res.All] at hsame
          subst hsame
          exact resolveEach_fuel (le_max_right f1 f2) _ _ _ h2
        | throw e s' =>
          rw [hc] at hsame
          simp only [Res.All] at hsame
          subst hsame
          exact resolveEach_fuel (le_max_right f1 f2) _ _ _ h2
        | abort => rw [hc] at hdone; exact absurd hdone (by simp [Res.Done])
        | undefined => rw [hc] at hdone; exact absurd hdone (by simp [Res.Done])
        | timeout => rw [hc] at hdone; exact absurd hdone (by simp [Res.Done])
      · intro p hp hpl
        rcases List.mem_cons.mp hp with rfl | hp
        · exact heE.cached (by simp [hc1])
        · exact hall p hp hpl
    · obtain ⟨f2, sE, h2, hsE, heE, hall⟩ := ih s hs ht
      obtain ⟨e, he⟩ := getResult_unregistered (max 0 f2) T hs
        (by rw [ht]; exact Nat.le_of_not_lt hlt : s.tasks_.length ≤ id.id_)
      refine ⟨max 0 f2 + 1, sE, ?_, hsE, heE, ?_⟩
      · rw [resolveEach_cons, he]
        exact resolveEach_fuel (by omega) _ _ _ h2
      · intro p hp hpl
        rcases List.mem_cons.mp hp with rfl | hp
        · exact absurd hpl hlt
        · exact hall p hp hpl

/-- Two states over the same table in which every stored task is cached hold the same
cache. -/
theorem results_eq_of_all_cached {s s' : TTaskScheduler den} (hs : Inv s) (hs' : Inv s')
    (ht : s'.tasks_ = s.tasks_) (hall : ∀ i < s.tasks_.length, s.results_ ⟨i⟩ ≠ none)
    (hall' : ∀ i < s.tasks_.length, s'.results_ ⟨i⟩ ≠ none) : s'.results_ = s.results_ := by
  funext id
  by_cases hlt : id.id_ < s.tasks_.length
  · cases hr : s.results_ id with
    | none => exact absurd hr (hall id.id_ hlt)
    | some a =>
      cases hr' : s'.results_ id with
      | none => exact absurd hr' (hall' id.id_ hlt)
      | some a' =>
        obtain ⟨_, k, hk⟩ := hs.cached id a hr
        obtain ⟨_, k', hk'⟩ := hs'.cached id a' hr'
        rw [ht] at hk'
        rw [denote_unique hk' hk]
  · rw [hs.uncached_of_ge (Nat.le_of_not_lt hlt),
      hs'.uncached_of_ge (by rw [ht]; exact Nat.le_of_not_lt hlt)]

/-- A settled `getResult` agrees with every run of it that returned. -/
theorem getResult_settled {F f : Nat} {T : Ty} {id : TaskID} {s s' : TTaskScheduler den}
    {x : den T} (hd : (getResult F T id s).Done) (h : getResult f T id s = .ok x s') :
    getResult F T id s = .ok x s' := by
  have h1 := getResult_fuel (le_max_left F f) hd.ne_timeout
  have h2 : getResult (max F f) T id s = getResult f T id s :=
    getResult_fuel (le_max_right F f) (by rw [h]; simp)
  rw [← h1, h2, h]

/-- The value of `getResult` is the same in two states over the same table. -/
theorem value_agrees {s s' : TTaskScheduler den} (hs : Inv s) (hs' : Inv s')
    (ht : s'.tasks_ = s.tasks_) {F : Nat} {T : Ty} {id : TaskID}
    (hd : (getResult F T id s).Done) (hd' : (getResult F T id s').Done) :
    (getResult F T id s).value? = (getResult F T id s').value? := by
  cases hr : getResult F T id s with
  | ok x s1 =>
    obtain ⟨k, hk⟩ := denote_of_getResult hs hr
    rw [← ht] at hk
    obtain ⟨f3, s3, h3⟩ := getResult_of_denote hs' hk
    rw [getResult_settled hd' h3]
    rfl
  | throw e s1 =>
    cases hr' : getResult F T id s' with
    | ok x s1' =>
      obtain ⟨k, hk⟩ := denote_of_getResult hs' hr'
      rw [ht] at hk
      obtain ⟨f3, s3, h3⟩ := getResult_of_denote hs hk
      rw [getResult_settled hd h3] at hr
      simp at hr
    | throw e' s1' => rfl
    | abort => rfl
    | undefined => rfl
    | timeout => rfl
  | abort => rw [hr] at hd; exact absurd hd (by simp [Res.Done])
  | undefined => rw [hr] at hd; exact absurd hd (by simp [Res.Done])
  | timeout => rw [hr] at hd; exact absurd hd (by simp [Res.Done])

end OrderIndependence

section Demo

theorem demo1_reachable : Reachable demo1 :=
  Later.step Later.refl (@Step.add1 CTy _ cden _ CTy.int CTy.int simpleFunc (.value 5) (by decide) trivial)

theorem demo2_reachable : Reachable demo2 :=
  demo1_reachable.step (@Step.add1 CTy _ cden _ CTy.int CTy.int simpleFunc (.value 10) (by decide) trivial)

theorem demo3_reachable : Reachable demo3 :=
  demo2_reachable.step
    (@Step.add2dep CTy _ cden _ _ CTy.int CTy.int CTy.int addFunc id (.value 3) ⟨1⟩ (by decide) trivial rfl)

theorem demo4_reachable : Reachable demo4 :=
  demo3_reachable.step
    (@Step.add2dep CTy _ cden _ _ CTy.int CTy.int CTy.int addFunc id (.future ⟨0⟩) ⟨2⟩ (by decide) rfl rfl)

theorem demo5_reachable : Reachable demo5 :=
  demo4_reachable.step (Step.executeAll 20 rfl)

theorem diamond3_reachable : Reachable diamond3 :=
  (demo1_reachable.step
    (@Step.add2dep CTy _ cden _ _ CTy.int CTy.int CTy.int addFunc id (.future ⟨0⟩) ⟨0⟩
      (by decide) rfl rfl)).step
    (@Step.add2 CTy _ cden _ CTy.int CTy.int CTy.int addFunc (.future ⟨0⟩) (.future ⟨1⟩) false
      (by decide) rfl rfl)

theorem diamond4_reachable : Reachable diamond4 :=
  diamond3_reachable.step (Step.getResult 20 CTy.long ⟨2⟩ rfl)

theorem diamond5_reachable : Reachable diamond5 :=
  diamond4_reachable.step (Step.executeAll 20 rfl)

end Demo

/-! ## The claims -/

section Claims

variable {Ty : Type} [DecidableEq Ty] {den : Ty → Type}

theorem Step.results_step {s s' : TTaskScheduler den} (h : Step s s') :
    ∀ id a, s.results_ id = some a → s'.results_ id = some a := by
  cases h with
  | add1 A R func arg1 _ _ => exact fun _ _ h => h
  | add2 A B R func arg1 arg2 rightFirst _ _ _ => exact fun _ _ h => h
  | add2dep A B R func conv arg1 arg2 _ _ hr =>
    unfold TaskScheduler.add2dep at hr
    split at hr <;>
    · simp only [Res.state?, Option.some.injEq] at hr
      subst hr
      exact fun _ _ h => h
  | getFutureResult T id hr => rw [getFutureResult_state hr]; exact fun _ _ h => h
  | getResult fuel T id hr => exact (((frame fuel).1 T id _).onState hr).results
  | materialize fuel T id hr => exact (((frame fuel).1 T id _).onState hr).results
  | executeAll fuel hr => exact ((frameAll fuel 0 [] _).onState hr).results

theorem Step.invoked {s s' : TTaskScheduler den} (h : Step s s') :
    s.invoked <+: s'.invoked := by
  cases h with
  | add1 A R func arg1 _ _ => exact List.prefix_refl _
  | add2 A B R func arg1 arg2 rightFirst _ _ _ => exact List.prefix_refl _
  | add2dep A B R func conv arg1 arg2 _ _ hr =>
    unfold TaskScheduler.add2dep at hr
    split at hr <;>
    · simp only [Res.state?, Option.some.injEq] at hr
      subst hr
      exact List.prefix_refl _
  | getFutureResult T id hr => rw [getFutureResult_state hr]
  | getResult fuel T id hr => exact (((frame fuel).1 T id _).onState hr).invoked
  | materialize fuel T id hr => exact (((frame fuel).1 T id _).onState hr).invoked
  | executeAll fuel hr => exact ((frameAll fuel 0 [] _).onState hr).invoked

theorem Later.results_later {s s' : TTaskScheduler den} (h : Later s s') :
    ∀ id a, s.results_ id = some a → s'.results_ id = some a := by
  induction h with
  | refl => exact fun _ _ h => h
  | step _ hstep ih => exact fun id a h => hstep.results_step id a (ih id a h)

theorem getResult_cached (fuel : Nat) (T : Ty) {id : TaskID} {s : TTaskScheduler den}
    {a : Any den} (hv : id.isValid = true) (hc : s.results_ id = some a) :
    getResult (fuel + 1) T id s = castResult T id s := by
  rw [getResult_succ]
  simp [hv, hc]

theorem add2dep_invalid (A B R : Ty) (g : den A → den B → den R) (conv : den R → den B)
    (a : Arg den A) {h : TaskID} (s : TTaskScheduler den) (hv : h.isValid = false) :
    add2dep A B R g conv a h s = .throw .invalid_argument
      { s with tasks_ := s.tasks_ ++ [.task2dep A B R g conv a h] } := by
  simp [add2dep, hv]

theorem add2dep_valid (A B R : Ty) (g : den A → den B → den R) (conv : den R → den B)
    (a : Arg den A) {h : TaskID} (s : TTaskScheduler den) (hv : h.isValid = true) :
    add2dep A B R g conv a h s = .ok ⟨s.tasks_.length⟩
      (addDependency ⟨s.tasks_.length⟩ h
        { s with tasks_ := s.tasks_ ++ [.task2dep A B R g conv a h] }) := by
  simp [add2dep, hv]

/-- C1. In every reachable state, after `H = add(f, a)` with a value `a`, resolving `H`
with `getResult<R>(H)`, `R` the result type of `f`, returns `f(a)`, whatever was
registered or resolved before. The hypothesis `hroom` says that the vector `tasks_`,
indexed by `size_t`, has room for one more task. -/
theorem C1_getResult_add1 {s : TTaskScheduler den} (hs : Reachable s)
    (hroom : s.tasks_.length < INVALID_TASK_ID) (A R : Ty) (f : den A → den R) (a : den A) :
    ∃ fuel s', getResult fuel R (add1 A R f (.value a) s).1 (add1 A R f (.value a) s).2 =
      .ok (f a) s' := by
  have hinv : Inv (add1 A R f (.value a) s).2 := hs.inv.push _ hroom
  refine getResult_of_denote (k := 1) hinv ?_
  simp [add1, denote, ITask.eval, evalArg]

/-- C1, witness: `H = add(simpleFunc, 5)` on the scheduler with two tasks. -/
theorem C1_witness :
    ∃ fuel s', getResult fuel CTy.int (add1 CTy.int CTy.int simpleFunc (.value 5) demo2).1
      (add1 CTy.int CTy.int simpleFunc (.value 5) demo2).2 = .ok (simpleFunc 5) s' :=
  C1_getResult_add1 demo2_reachable (by decide) CTy.int CTy.int simpleFunc 5

theorem Arg.Resolves.evalArg {T : Ty} {a : Arg den T} {s : TTaskScheduler den} {x : den T}
    (hs : Inv s) (h : a.Resolves s x) :
    ∃ k, TaskScheduler.evalArg (fun d => denote k s.tasks_ d) a = some x := by
  cases a with
  | value v =>
    simp only [Arg.Resolves] at h
    subst h
    exact ⟨0, rfl⟩
  | future id_ =>
    obtain ⟨fuel, s', hr⟩ := h
    obtain ⟨k, hk⟩ := denote_of_getResult hs hr
    exact ⟨k, evalArg_future hk⟩

theorem evalArg_append {k : Nat} {tasks : List (ITask den)} (extra : List (ITask den))
    {T : Ty} {a : Arg den T} {x : den T}
    (h : evalArg (fun d => denote k tasks d) a = some x) :
    evalArg (fun d => denote k (tasks ++ extra) d) a = some x :=
  evalArg_mono (fun _ _ hd => denote_append extra hd) h

/-- C2. Let `A` be a handle that `getResult` resolves to `rA`, in a reachable state, and
let `B = add(g, a, A)` with `A` passed as a raw handle, everything over one value type.
Then `add` succeeds and `getResult(B)` returns `g(a, rA)`; afterwards the cache holds
`g(a, rA)` for `B` and `rA` for `A`, and `getResult(A)` still returns `rA`. This covers
`A` cached before the call and `A` first computed while `B` is resolved. The hypothesis
`hroom` says that the vector `tasks_` has room for one more task. -/
theorem C2_raw_handle_dependency {s : TTaskScheduler den} (hs : Reachable s)
    (hroom : s.tasks_.length < INVALID_TASK_ID) (T : Ty) (g : den T → den T → den T)
    (a : den T) (A : TaskID) {fuelA : Nat} {rA : den T} {sA : TTaskScheduler den}
    (hA : getResult fuelA T A s = .ok rA sA) :
    ∃ s1, add2dep T T T g id (.value a) A s = .ok ⟨s.tasks_.length⟩ s1 ∧
      ∃ fuel s2, getResult fuel T ⟨s.tasks_.length⟩ s1 = .ok (g a rA) s2 ∧
        s2.results_ ⟨s.tasks_.length⟩ = some (Any.of T (g a rA)) ∧
        s2.results_ A = some (Any.of T rA) ∧
        ∃ fuel' s3, getResult fuel' T A s2 = .ok rA s3 := by
  obtain ⟨k, hk⟩ := denote_of_getResult hs.inv hA
  have hvalid : A.isValid = true := hs.inv.valid (denote_lt hk)
  have hadd := add2dep_valid T T T g id (.value a) s hvalid
  refine ⟨_, hadd, ?_⟩
  have hinv1 := add2dep_inv hs.inv T T T g id (.value a) A hroom (by rw [hadd]; rfl)
  have hk1 : denote k (s.tasks_ ++ [ITask.task2dep T T T g id (.value a) A]) A =
      some (Any.of T rA) := denote_append _ hk
  have hB : denote (k + 1) (s.tasks_ ++ [ITask.task2dep T T T g id (.value a) A])
      ⟨s.tasks_.length⟩ = some (Any.of T (g a rA)) := by
    rw [denote_succ]
    have hget : (s.tasks_ ++ [ITask.task2dep T T T g id (.value a) A])[s.tasks_.length]? =
        some (ITask.task2dep T T T g id (.value a) A) := by simp
    simp only [hget, ITask.eval]
    rw [evalArg_future hk1]
    simp [evalArg]
  obtain ⟨fuel, s2, h2⟩ := getResult_of_denote hinv1 hB
  obtain ⟨hinv2, he2, hc2⟩ := getResult_post hinv1 h2
  have hk2 : denote k s2.tasks_ A = some (Any.of T rA) := by rw [he2.tasks]; exact hk1
  have hcA : s2.results_ A = some (Any.of T rA) := by
    obtain ⟨hm, _⟩ := hinv2.cached _ _ hc2
    obtain ⟨p, q, hpq⟩ := List.append_of_mem hm
    have hd : A ∈ s2.dependencies_ ⟨s.tasks_.length⟩ := by
      rw [he2.deps]
      simp [addDependency]
    have hAp := hinv2.order p _ q hpq A hd
    have hAm : A ∈ s2.invoked := by rw [hpq]; exact List.mem_append_left _ hAp
    cases hr : s2.results_ A with
    | none => exact absurd hr (hinv2.logged A hAm)
    | some a' =>
      obtain ⟨_, k', hk'⟩ := hinv2.cached A a' hr
      rw [denote_unique hk' hk2]
  exact ⟨fuel, s2, h2, hc2, hcA, getResult_of_denote hinv2 hk2⟩

/-- C3. Let the arguments of `C = add(g, arg1, arg2)` be values or futures that resolve
to `x` and `y` in a reachable state (two futures, or one future and one value in either
position). Then no edge is recorded, and `getResult(C)` returns `g(x, y)`, called right
after the registration or after a run of `executeAll`, for either order in which the
two arguments are converted. The hypothesis `hroom` says that the vector `tasks_` has
room for one more task. -/
theorem C3_future_arguments {s : TTaskScheduler den} (hs : Reachable s)
    (hroom : s.tasks_.length < INVALID_TASK_ID) (A B R : Ty) (g : den A → den B → den R)
    (arg1 : Arg den A) (arg2 : Arg den B) (rightFirst : Bool) {x : den A} {y : den B}
    (h1 : arg1.Resolves s x) (h2 : arg2.Resolves s y) :
    (add2 A B R g arg1 arg2 rightFirst s).2.dependencies_ = s.dependencies_ ∧
    ∀ s2, (s2 = (add2 A B R g arg1 arg2 rightFirst s).2 ∨
        ∃ fuel, (executeAll fuel (add2 A B R g arg1 arg2 rightFirst s).2).state? = some s2) →
      ∃ fuel s3, getResult fuel R (add2 A B R g arg1 arg2 rightFirst s).1 s2 =
        .ok (g x y) s3 := by
  refine ⟨rfl, ?_⟩
  obtain ⟨k1, hk1⟩ := h1.evalArg hs.inv
  obtain ⟨k2, hk2⟩ := h2.evalArg hs.inv
  have hinv1 : Inv (add2 A B R g arg1 arg2 rightFirst s).2 := hs.inv.push _ hroom
  have hC : denote (max k1 k2 + 1) (add2 A B R g arg1 arg2 rightFirst s).2.tasks_
      (add2 A B R g arg1 arg2 rightFirst s).1 = some (Any.of R (g x y)) := by
    rw [denote_succ]
    simp [add2, ITask.eval, evalArg_append _ (evalArg_le (le_max_left k1 k2) hk1),
      evalArg_append _ (evalArg_le (le_max_right k1 k2) hk2)]
  intro s2 hs2
  rcases hs2 with rfl | ⟨fuel, hrun⟩
  · exact getResult_of_denote hinv1 hC
  · have hinv2 : Inv s2 := (executeAll_sound fuel hinv1).atState (fun _ _ h => h.1) hrun
    have he2 : Extends _ s2 := (frameAll fuel 0 [] _).onState hrun
    rw [← he2.tasks] at hC
    exact getResult_of_denote hinv2 hC

/-- C4. In every state reached by a sequence of calls of `add`, `getFutureResult`,
`getResult`, future materialisation and `executeAll`, some of which may have thrown, the
callable of each task was called at most once. -/
theorem C4_invoked_at_most_once {s : TTaskScheduler den} (hs : Reachable s) (id : TaskID) :
    s.invoked.count id ≤ 1 :=
  List.nodup_iff_count_le_one.mp hs.inv.nodup id

/-- C5. A cached result stays: after any later sequence of calls the entry of `H` is the
same value `v`, of some type `T`; every later `getResult<T>(H)` returns it and every
`getResult<R>(H)` at another type throws `bad_cast`, and both leave the scheduler state
as it was. -/
theorem C5_cache_stable {s s' : TTaskScheduler den} (hs : Reachable s) {H : TaskID}
    {v : Any den} (hc : s.results_ H = some v) (hl : Later s s') :
    s'.results_ H = some v ∧
    ∃ (T : Ty) (x : den T), v = Any.of T x ∧
      (∀ fuel, getResult (fuel + 1) T H s' = .ok x s') ∧
      (∀ fuel R, R ≠ T → getResult (fuel + 1) R H s' = .throw .bad_cast s') := by
  have hc' := hl.results_later H v hc
  have hinv' := (hs.later hl).inv
  obtain ⟨_, k, hk⟩ := hinv'.cached H v hc'
  obtain ⟨task, _, x, hx⟩ := denote_of hk
  have hvalid := hinv'.valid (denote_lt hk)
  refine ⟨hc', task.resultTy, x, hx, fun fuel => ?_, fun fuel R hR => ?_⟩
  · rw [getResult_cached fuel _ hvalid hc', castResult_some _ hc', hx, any_cast_of]
  · rw [getResult_cached fuel _ hvalid hc', castResult_some _ hc', hx,
      any_cast_of_ne _ (Ne.symm hR)]

/-- In a reachable state whose references all point to earlier tasks of the type that
the code requests, which for a handle bound as second argument is the result type of the
dependent callable, `executeAll` returns; afterwards every handle below the number of tasks has a
cached result; the callables called during the run, `new`, are those of the tasks that
had no cached result, each once, so a cached task is not called; cached results are
kept; when everything was cached already the run calls nothing and leaves the cache as
it is; and so does a second `executeAll` right after the first. -/
theorem executeAll_wellTyped {s : TTaskScheduler den} (hs : Reachable s) (hw : WellTyped s) :
    ∃ fuel s' new, executeAll fuel s = .ok () s' ∧
      (∀ i < s.tasks_.length, s'.results_ ⟨i⟩ ≠ none) ∧
      s'.invoked = s.invoked ++ new ∧ new.Nodup ∧
      (∀ id, id ∈ new ↔ (id.id_ < s.tasks_.length ∧ s.results_ id = none)) ∧
      (∀ id a, s.results_ id = some a → s'.results_ id = some a) ∧
      ((∀ i < s.tasks_.length, s.results_ ⟨i⟩ ≠ none) →
        s'.results_ = s.results_ ∧ s'.invoked = s.invoked) ∧
      ∃ fuel2 s'', executeAll fuel2 s' = .ok () s'' ∧
        s''.results_ = s'.results_ ∧ s''.invoked = s'.invoked := by
  have hden : ∀ i, i < s.tasks_.length → ∃ k a, denote k s.tasks_ ⟨i⟩ = some a := by
    intro i hi
    obtain ⟨x, hx⟩ := hw.denote i s.tasks_[i] (List.getElem?_eq_getElem hi)
    exact ⟨_, _, hx⟩
  obtain ⟨fuel, s', hrun⟩ := all_complete hden s.tasks_.length 0 [] s hs.inv rfl (by omega)
  have hpost := executeAll_sound fuel hs.inv
  have hext := frameAll fuel 0 [] s
  unfold executeAll at hpost
  rw [hrun] at hpost hext
  obtain ⟨hinv', hall⟩ := hpost
  obtain ⟨new, hnew, hnd, hmem⟩ := new_calls hs.inv hinv' hext
  refine ⟨fuel, s', new, hrun, hall, hnew, hnd, fun id => ?_, hext.results,
    fun hc => by rw [same_of_all_cached hs.inv hinv' hext hc]; exact ⟨rfl, rfl⟩, ?_⟩
  · rw [hmem id]
    constructor
    · rintro ⟨h1, h2⟩
      have hlt := hinv'.lt h2
      rw [hext.tasks] at hlt
      exact ⟨hlt, h1⟩
    · rintro ⟨h1, h2⟩
      exact ⟨h2, hall id.id_ h1⟩
  · obtain ⟨fuel2, s'', hrun2⟩ := all_complete hden s.tasks_.length 0 [] s' hinv' hext.tasks
      (by omega)
    have hpost2 := executeAll_sound fuel2 hinv'
    have hext2 := frameAll fuel2 0 [] s'
    unfold executeAll at hpost2
    rw [hrun2] at hpost2 hext2
    have hsame : s'' = s' :=
      same_of_all_cached hinv' hpost2.1 hext2 (by rw [hext.tasks]; exact hall)
    exact ⟨fuel2, s'', hrun2, by rw [hsame], by rw [hsame]⟩

/-- C8. Dependencies run before dependents. A call of a public operation from a
reachable state appends the list `new` to `invoked`; when the callable of `T` is called,
every recorded dependency `d` of `T` already has its result in the cache: it was cached
before the operation or its callable was called earlier in the operation, and it is not
called at or after the call of `T`. -/
theorem C8_dependencies_first {s s' : TTaskScheduler den} (hs : Reachable s)
    (hstep : Step s s') :
    ∃ new, s'.invoked = s.invoked ++ new ∧
      ∀ p T q, new = p ++ T :: q → ∀ d ∈ s'.dependencies_ T,
        (s.results_ d ≠ none ∨ d ∈ p) ∧ d ≠ T ∧ d ∉ q := by
  obtain ⟨new, hnew⟩ := hstep.invoked
  have hinv' := (hs.step hstep).inv
  refine ⟨new, hnew.symm, ?_⟩
  intro p T q hpq d hd
  have hsplit : s'.invoked = (s.invoked ++ p) ++ T :: q := by
    rw [← hnew, hpq, List.append_assoc]
  have hmem := hinv'.order _ T q hsplit d hd
  have hnd := hinv'.nodup
  rw [hsplit, List.nodup_append] at hnd
  refine ⟨?_, ?_, ?_⟩
  · rcases List.mem_append.mp hmem with h | h
    · exact Or.inl (hs.inv.logged d h)
    · exact Or.inr h
  · rintro rfl
    exact hnd.2.2 hmem (List.mem_cons_self _ _) 
  · intro hq
    exact hnd.2.2 hmem (List.mem_cons_of_mem _ hq)

/-- C9. In every reachable state, `getResult<R>(h)` on the sentinel handle throws
`invalid_argument`, and on another handle that is not below the number of stored tasks
it throws `out_of_range`; in both cases the state at the throw is the state before the
call, so no callable was called and the cache is unchanged. -/
theorem C9_getResult_errors {s : TTaskScheduler den} (hs : Reachable s) (fuel : Nat)
    (R : Ty) (h : TaskID) :
    (h = TaskID.invalid → getResult (fuel + 1) R h s = .throw .invalid_argument s) ∧
    (h ≠ TaskID.invalid → s.tasks_.length ≤ h.id_ →
      getResult (fuel + 1) R h s = .throw .out_of_range s) := by
  refine ⟨?_, ?_⟩
  · rintro rfl
    rw [getResult_succ]
    simp [TaskID.invalid, TaskID.isValid]
  · intro hne hge
    have hv : h.isValid = true := by
      rcases h with ⟨n⟩
      simp only [TaskID.invalid, ne_eq, TaskID.mk.injEq] at hne
      simpa [TaskID.isValid] using hne
    rw [getResult_succ]
    simp [hv, hs.inv.uncached_of_ge hge, hge]

/-- C10. The call `add(g, a, h)` with a task handle `h` as second argument throws
`invalid_argument` exactly when `h` is the sentinel; it throws before any callable runs,
with the cache and the edges as they were; otherwise it returns the handle `n`, the
number of tasks before the call, and appends exactly the edge from `n` to `h`. A value or
future second argument records no edge. -/
theorem C10_add_handle_argument (s : TTaskScheduler den) (A B R : Ty)
    (g : den A → den B → den R) (conv : den R → den B) (a : Arg den A) (h : TaskID) :
    ((add2dep A B R g conv a h s).exc? = some .invalid_argument ↔ h = TaskID.invalid) ∧
    (h = TaskID.invalid → ∃ s1, add2dep A B R g conv a h s = .throw .invalid_argument s1 ∧
      s1.results_ = s.results_ ∧ s1.invoked = s.invoked ∧
      s1.dependencies_ = s.dependencies_) ∧
    (h ≠ TaskID.invalid → ∃ s1, add2dep A B R g conv a h s = .ok ⟨s.tasks_.length⟩ s1 ∧
      s1.results_ = s.results_ ∧ s1.invoked = s.invoked ∧
      s1.dependencies_ = Function.update s.dependencies_ ⟨s.tasks_.length⟩
        (s.dependencies_ ⟨s.tasks_.length⟩ ++ [h])) ∧
    (∀ (b : Arg den B) (rightFirst : Bool),
      (add2 A B R g a b rightFirst s).2.dependencies_ = s.dependencies_) := by
  have hiff : h.isValid = false ↔ h = TaskID.invalid := by
    rcases h with ⟨n⟩
    simp [TaskID.invalid, TaskID.isValid]
  by_cases hh : h = TaskID.invalid
  · have hv : h.isValid = false := hiff.mpr hh
    have hr := add2dep_invalid A B R g conv a s hv
    refine ⟨?_, fun _ => ⟨_, hr, rfl, rfl, rfl⟩, fun hne => absurd hh hne, fun _ _ => rfl⟩
    rw [hr]
    simp [Res.exc?, hh]
  · have hv : h.isValid = true := by
      cases hb : h.isValid
      · exact absurd (hiff.mp hb) hh
      · rfl
    have hr := add2dep_valid A B R g conv a s hv
    refine ⟨?_, fun he => absurd he hh, fun _ => ⟨_, hr, rfl, rfl, rfl⟩, fun _ _ => rfl⟩
    rw [hr]
    simp [Res.exc?, hh]

end Claims

section ClaimWitnesses

/-- C4, witness: the diamond, in which task 0 is reached through a raw handle and
through futures, after a `getResult` that threw `bad_cast` and a run of `executeAll`. -/
theorem C4_witness :
    (getResult 20 CTy.long ⟨2⟩ diamond3).exc? = some .bad_cast ∧
    diamond5.invoked = [⟨0⟩, ⟨1⟩, ⟨2⟩] ∧ ∀ id, diamond5.invoked.count id ≤ 1 :=
  ⟨rfl, rfl, fun id => C4_invoked_at_most_once diamond5_reachable id⟩

/-- C2, witness: the test `GetResultForTaskWithMultipleDependencies` at its third
`add`, where task 1 is resolved to 11 and the new task gets `3 + 11`. -/
theorem C2_witness :
    ∃ s1, add2dep CTy.int CTy.int CTy.int addFunc id (.value 3) ⟨1⟩ demo2 =
        .ok ⟨demo2.tasks_.length⟩ s1 ∧
      ∃ fuel s2, getResult fuel CTy.int ⟨demo2.tasks_.length⟩ s1 = .ok (addFunc 3 11) s2 ∧
        s2.results_ ⟨demo2.tasks_.length⟩ = some (Any.of CTy.int (addFunc 3 11)) ∧
        s2.results_ ⟨1⟩ = some (Any.of CTy.int 11) ∧
        ∃ fuel' s3, getResult fuel' CTy.int ⟨1⟩ s2 = .ok 11 s3 :=
  C2_raw_handle_dependency demo2_reachable (by decide) CTy.int addFunc 3 ⟨1⟩
    (show getResult 10 CTy.int ⟨1⟩ demo2 =
      .ok 11 ((getResult 10 CTy.int ⟨1⟩ demo2).stateOr demo2) from rfl)

/-- C3, witness: the third `add` of the test `AddTaskWithMultipleDependencies`, with the
futures of the tasks 0 and 1, which resolve to 6 and 11 here. -/
theorem C3_witness :
    (add2 CTy.int CTy.int CTy.int multiplyFunc (.future ⟨0⟩) (.future ⟨1⟩) false
        demo2).2.dependencies_ = demo2.dependencies_ ∧
    ∀ s2, (s2 = (add2 CTy.int CTy.int CTy.int multiplyFunc (.future ⟨0⟩) (.future ⟨1⟩) false
          demo2).2 ∨
        ∃ fuel, (executeAll fuel (add2 CTy.int CTy.int CTy.int multiplyFunc (.future ⟨0⟩)
          (.future ⟨1⟩) false demo2).2).state? = some s2) →
      ∃ fuel s3, getResult fuel CTy.int (add2 CTy.int CTy.int CTy.int multiplyFunc
        (.future ⟨0⟩) (.future ⟨1⟩) false demo2).1 s2 = .ok (multiplyFunc 6 11) s3 :=
  C3_future_arguments demo2_reachable (by decide) CTy.int CTy.int CTy.int multiplyFunc
    (.future ⟨0⟩) (.future ⟨1⟩) false
    (show ∃ fuel s', getResult fuel CTy.int ⟨0⟩ demo2 = .ok 6 s' from ⟨10, _, rfl⟩)
    (show ∃ fuel s', getResult fuel CTy.int ⟨1⟩ demo2 = .ok 11 s' from ⟨10, _, rfl⟩)

/-- C5, witness: the result 6 of task 0, cached by `executeAll`, after one more `add`. -/
theorem C5_witness :
    (add1 CTy.int CTy.int simpleFunc (.value 7) demo5).2.results_ ⟨0⟩ =
        some (Any.of CTy.int 6) ∧
    ∃ (T : CTy) (x : cden T), Any.of CTy.int (6 : Int) = Any.of T x ∧
      (∀ fuel, getResult (fuel + 1) T ⟨0⟩ (add1 CTy.int CTy.int simpleFunc (.value 7) demo5).2 =
        .ok x (add1 CTy.int CTy.int simpleFunc (.value 7) demo5).2) ∧
      (∀ fuel R, R ≠ T →
        getResult (fuel + 1) R ⟨0⟩ (add1 CTy.int CTy.int simpleFunc (.value 7) demo5).2 =
          .throw .bad_cast (add1 CTy.int CTy.int simpleFunc (.value 7) demo5).2) :=
  C5_cache_stable demo5_reachable (show demo5.results_ ⟨0⟩ = some (Any.of CTy.int 6) from rfl)
    (Later.step Later.refl
      (@Step.add1 CTy _ cden _ CTy.int CTy.int simpleFunc (.value 7) (by decide) trivial))

/-- C8, witness: the run of `executeAll` in the test
`GetResultForTaskWithMultipleDependencies`. -/
theorem C8_witness :
    ∃ new, demo5.invoked = demo4.invoked ++ new ∧
      ∀ p T q, new = p ++ T :: q → ∀ d ∈ demo5.dependencies_ T,
        (demo4.results_ d ≠ none ∨ d ∈ p) ∧ d ≠ T ∧ d ∉ q :=
  C8_dependencies_first demo4_reachable (Step.executeAll 20 rfl)

/-- C9, witness: the handle 999 on the scheduler with two tasks, and the sentinel. -/
theorem C9_witness :
    getResult 1 CTy.int TaskID.invalid demo2 = .throw .invalid_argument demo2 ∧
    getResult 1 CTy.int ⟨999⟩ demo2 = .throw .out_of_range demo2 :=
  ⟨(C9_getResult_errors demo2_reachable 0 CTy.int TaskID.invalid).1 rfl,
   (C9_getResult_errors demo2_reachable 0 CTy.int ⟨999⟩).2 (by decide) (by decide)⟩

theorem demo4_wellTyped : WellTyped demo4 := by
  intro i task ht p hp
  have htasks : demo4.tasks_ =
      [.task1 CTy.int CTy.int simpleFunc (.value 5),
       .task1 CTy.int CTy.int simpleFunc (.value 10),
       .task2dep CTy.int CTy.int CTy.int addFunc id (.value 3) ⟨1⟩,
       .task2dep CTy.int CTy.int CTy.int addFunc id (.future ⟨0⟩) ⟨2⟩] := rfl
  rw [htasks] at ht ⊢
  rcases i with _ | _ | _ | _ | i
  · simp only [List.getElem?_cons_zero, Option.some.injEq] at ht
    subst ht
    simp [ITask.requests, Arg.requests] at hp
  · simp only [List.getElem?_cons_succ, List.getElem?_cons_zero, Option.some.injEq] at ht
    subst ht
    simp [ITask.requests, Arg.requests] at hp
  · simp only [List.getElem?_cons_succ, List.getElem?_cons_zero, Option.some.injEq] at ht
    subst ht
    simp only [ITask.requests, Arg.requests, List.mem_singleton] at hp
    subst hp
    simp [ITask.resultTy]
  · simp only [List.getElem?_cons_succ, List.getElem?_cons_zero, Option.some.injEq] at ht
    subst ht
    simp only [ITask.requests, Arg.requests, List.mem_cons, List.mem_singleton,
      List.not_mem_nil, or_false] at hp
    rcases hp with rfl | rfl <;> simp [ITask.resultTy]
  · simp at ht

/-- The run of `executeAll` on the scheduler of the test
`GetResultForTaskWithMultipleDependencies` before its run. -/
theorem executeAll_wellTyped_demo4 :
    ∃ fuel s' new, executeAll fuel demo4 = .ok () s' ∧
      (∀ i < demo4.tasks_.length, s'.results_ ⟨i⟩ ≠ none) ∧
      s'.invoked = demo4.invoked ++ new ∧ new.Nodup ∧
      (∀ id, id ∈ new ↔ (id.id_ < demo4.tasks_.length ∧ demo4.results_ id = none)) ∧
      (∀ id a, demo4.results_ id = some a → s'.results_ id = some a) ∧
      ((∀ i < demo4.tasks_.length, demo4.results_ ⟨i⟩ ≠ none) →
        s'.results_ = demo4.results_ ∧ s'.invoked = demo4.invoked) ∧
      ∃ fuel2 s'', executeAll fuel2 s' = .ok () s'' ∧
        s''.results_ = s'.results_ ∧ s''.invoked = s'.invoked :=
  executeAll_wellTyped demo4_reachable demo4_wellTyped

end ClaimWitnesses

/-! ## The container, the futures and the registration -/

section Container

variable {Ty : Type} [DecidableEq Ty] {den : Ty → Type}

theorem copy_of (T : Ty) (v : den T) : (Any.of T v).copy = Any.of T v := rfl

theorem copy_empty : (Any.empty : Any den).copy = Any.empty := rfl

/-- C15. Typed retrieval is an exact-type round trip: `Any(v).any_cast<T>()` returns
`v`; a copy made by the copy constructor or by copy assignment holds the same type and
value and returns `v` too; and `any_cast<U>()` for every type `U` other than `T` throws
`bad_cast`, on the original and on the copies. -/
theorem C15_any_round_trip (T : Ty) (v : den T) :
    (Any.of T v).any_cast T = .held v ∧
    (Any.of T v).copy = Any.of T v ∧
    (∀ self : Any den, self.assign (Any.of T v) = Any.of T v) ∧
    (Any.of T v).copy.any_cast T = .held v ∧
    (∀ self : Any den, (self.assign (Any.of T v)).any_cast T = .held v) ∧
    ∀ U, U ≠ T →
      (Any.of T v).any_cast U = .bad_cast ∧ (Any.of T v).copy.any_cast U = .bad_cast ∧
      ∀ self : Any den, (self.assign (Any.of T v)).any_cast U = .bad_cast := by
  refine ⟨any_cast_of T v, rfl, fun _ => rfl, any_cast_of T v, fun _ => any_cast_of T v, ?_⟩
  intro U hU
  exact ⟨any_cast_of_ne v (Ne.symm hU), any_cast_of_ne v (Ne.symm hU),
    fun _ => any_cast_of_ne v (Ne.symm hU)⟩

/-- C16, as amended. Typed retrieval on an `Any` that holds nothing, default-constructed
or a copy of one, fails the assertion `assert(content)` for every requested type: no
exception is raised to the caller. In a build with `NDEBUG` it throws `bad_cast`, the
exception of a type mismatch. In the scheduler, a typed retrieval of an empty entry of
`results_` ends the run with the failed assertion. -/
theorem C16_empty_any_asserts (T : Ty) :
    (Any.empty : Any den).any_cast T = .assertion_failed ∧
    (Any.empty : Any den).copy.any_cast T = .assertion_failed ∧
    (∀ self : Any den, (self.assign Any.empty).any_cast T = .assertion_failed) ∧
    ((Any.empty : Any den).any_cast T).thrown? = none ∧
    (Any.empty : Any den).any_cast_ndebug T = .bad_cast ∧
    (∀ (s : TTaskScheduler den) (id : TaskID), s.results_ id = some Any.empty →
      castResult T id s = .abort) := by
  refine ⟨rfl, rfl, fun _ => rfl, rfl, rfl, ?_⟩
  intro s id h
  rw [castResult_some T h]
  rfl

/-- C17. A future is a deferred `getResult`: `getFutureResult<T>(h)` throws
`invalid_argument` exactly when `h` is the sentinel, and otherwise returns the future of
`h` without looking at the table; in both cases the scheduler state is the one before the
call, so nothing is called. Materialising the future in any state is `getResult<T>(h)` in
that state: the same value or exception and the same resulting state. -/
theorem C17_future_is_deferred_getResult (s : TTaskScheduler den) (T : Ty) (h : TaskID) :
    ((getFutureResult T h s).exc? = some .invalid_argument ↔ h = TaskID.invalid) ∧
    (h = TaskID.invalid → getFutureResult T h s = .throw .invalid_argument s) ∧
    (h ≠ TaskID.invalid → getFutureResult T h s = .ok (.future h) s) ∧
    (∀ (fuel : Nat) (s' : TTaskScheduler den),
      materialize fuel T h s' = getResult fuel T h s') ∧
    (∀ (fuel : Nat) (s' : TTaskScheduler den),
      convert (fuel + 1) (Arg.future h : Arg den T) s' = getResult fuel T h s') := by
  have hiff : h.isValid = false ↔ h = TaskID.invalid := by
    rcases h with ⟨n⟩
    simp [TaskID.invalid, TaskID.isValid]
  by_cases hh : h = TaskID.invalid
  · have hv : h.isValid = false := hiff.mpr hh
    have hr : getFutureResult T h s = .throw .invalid_argument s := by
      simp [getFutureResult, hv]
    refine ⟨?_, fun _ => hr, fun hne => absurd hh hne, fun _ _ => rfl, fun _ _ => rfl⟩
    rw [hr]
    simp [Res.exc?, hh]
  · have hv : h.isValid = true := by
      cases hb : h.isValid
      · exact absurd (hiff.mp hb) hh
      · rfl
    have hr : getFutureResult T h s = .ok (.future h) s := by
      simp [getFutureResult, hv]
    refine ⟨?_, fun he => absurd he hh, fun _ => hr, fun _ _ => rfl, fun _ _ => rfl⟩
    rw [hr]
    simp [Res.exc?, hh]

end Container

section ContainerWitnesses

/-- C15, witness: the `int` 5, asked for as `int` and as `long`. -/
theorem C15_witness :
    (Any.of CTy.int (5 : Int) : Any cden).any_cast CTy.int = .held 5 ∧
    (Any.of CTy.int (5 : Int) : Any cden).copy.any_cast CTy.long = .bad_cast :=
  ⟨(@C15_any_round_trip CTy _ cden CTy.int (5 : Int)).1,
   ((@C15_any_round_trip CTy _ cden CTy.int (5 : Int)).2.2.2.2.2 CTy.long (by decide)).2.1⟩

/-- C16, counterexample: `any_cast<int>` on a default-constructed `Any` raises no
exception to the caller. -/
theorem C16_counterexample :
    ¬ ∃ e, ((Any.empty : Any cden).any_cast CTy.int).thrown? = some e := by
  rintro ⟨e, he⟩
  simp [Any.empty, Any.any_cast, Cast.thrown?] at he

end ContainerWitnesses

/-! ## Registration and dependencies on the code as it is -/

section Registration

variable {Ty : Type} [DecidableEq Ty] {den : Ty → Type}

theorem getResult_from {N : Nat} {T : Ty} {id : TaskID} {s : TTaskScheduler den}
    {r : Res den (den T)} (h : getResult N T id s = r) (hr : r ≠ .timeout) (fuel : Nat) :
    getResult (fuel + N) T id s = r := by
  rw [getResult_fuel (Nat.le_add_left N fuel) (by rw [h]; exact hr), h]

theorem Res.ne_timeout_of_exc {α : Type} {r : Res den α} {e : Exc} (h : r.exc? = some e) :
    r ≠ .timeout := by
  rintro rfl
  simp [Res.exc?] at h

theorem Res.ne_timeout_of_value {α : Type} {r : Res den α} {v : α} (h : r.value? = some v) :
    r ≠ .timeout := by
  rintro rfl
  simp [Res.value?] at h

theorem getResult_from_exc {N : Nat} {T : Ty} {id : TaskID} {s : TTaskScheduler den}
    {e : Exc} (h : (getResult N T id s).exc? = some e) (fuel : Nat) :
    (getResult (fuel + N) T id s).exc? = some e := by
  rw [getResult_fuel (Nat.le_add_left N fuel) (Res.ne_timeout_of_exc h), h]

theorem getResult_from_value {N : Nat} {T : Ty} {id : TaskID} {s : TTaskScheduler den}
    {v : den T} (h : (getResult N T id s).value? = some v) (fuel : Nat) :
    (getResult (fuel + N) T id s).value? = some v := by
  rw [getResult_fuel (Nat.le_add_left N fuel) (Res.ne_timeout_of_value h), h]

theorem executeAll_from_exc {N : Nat} {s : TTaskScheduler den} {e : Exc}
    (h : (executeAll N s).exc? = some e) (fuel : Nat) :
    (executeAll (fuel + N) s).exc? = some e := by
  rw [executeAll_fuel (Nat.le_add_left N fuel) (Res.ne_timeout_of_exc h), h]

theorem executeAll_from_value {N : Nat} {s : TTaskScheduler den}
    (h : (executeAll N s).value? = some ()) (fuel : Nat) :
    (executeAll (fuel + N) s).value? = some () := by
  rw [executeAll_fuel (Nat.le_add_left N fuel) (Res.ne_timeout_of_value h), h]

theorem executeAll_from {N : Nat} {s : TTaskScheduler den} {r : Res den Unit}
    (h : executeAll N s = r) (hr : r ≠ .timeout) (fuel : Nat) :
    executeAll (fuel + N) s = r := by
  rw [executeAll_fuel (Nat.le_add_left N fuel) (by rw [h]; exact hr), h]

/-- No call of a public operation removes or replaces a stored task. -/
theorem Step.tasks_grow {s s' : TTaskScheduler den} (h : Step s s') :
    s.tasks_ <+: s'.tasks_ := by
  cases h with
  | add1 A R func arg1 _ _ => exact List.prefix_append _ _
  | add2 A B R func arg1 arg2 rightFirst _ _ _ => exact List.prefix_append _ _
  | add2dep A B R func conv arg1 arg2 _ _ hr =>
    unfold TaskScheduler.add2dep at hr
    split at hr <;>
    · simp only [Res.state?, Option.some.injEq] at hr
      subst hr
      exact List.prefix_append _ _
  | getFutureResult T id hr => rw [getFutureResult_state hr]
  | getResult fuel T id hr => rw [(((frame fuel).1 T id _).onState hr).tasks]
  | materialize fuel T id hr => rw [(((frame fuel).1 T id _).onState hr).tasks]
  | executeAll fuel hr => rw [((frameAll fuel 0 [] _).onState hr).tasks]

theorem Later.tasks_keep {s s' : TTaskScheduler den} (h : Later s s') :
    s.tasks_ <+: s'.tasks_ := by
  induction h with
  | refl => exact List.prefix_refl _
  | step _ hstep ih => exact ih.trans hstep.tasks_grow

/-- A successful `add` returns the number of tasks stored before the call, which is a
valid handle when the vector has room, and stores one more task. -/
theorem Registers.handle {s s' : TTaskScheduler den} {h : TaskID} (hr : Registers s h s') :
    h = ⟨s.tasks_.length⟩ ∧ s'.tasks_.length = s.tasks_.length + 1 ∧
      (s.tasks_.length < INVALID_TASK_ID → h.isValid = true) := by
  cases hr with
  | add1 A R func arg1 =>
    exact ⟨rfl, by simp [TaskScheduler.add1], fun hlt => isValid_of_lt hlt⟩
  | add2 A B R func arg1 arg2 rightFirst =>
    exact ⟨rfl, by simp [TaskScheduler.add2], fun hlt => isValid_of_lt hlt⟩
  | add2dep A B R func conv arg1 arg2 hadd =>
    unfold TaskScheduler.add2dep at hadd
    split at hadd
    · simp at hadd
    · simp only [Res.ok.injEq] at hadd
      obtain ⟨rfl, rfl⟩ := hadd
      exact ⟨rfl, by simp [addDependency], fun hlt => isValid_of_lt hlt⟩

/-- The handles that successful calls of `add` return are strictly increasing, so none
is returned twice, and each is below the number of stored tasks from its call on. -/
theorem handles_increase {s1 s1' s2 s2' : TTaskScheduler den} {h1 h2 : TaskID}
    (hr1 : Registers s1 h1 s1') (hl : Later s1' s2) (hr2 : Registers s2 h2 s2') :
    h1.id_ < h2.id_ ∧ h1.id_ < s2.tasks_.length ∧ h2.id_ < s2'.tasks_.length := by
  obtain ⟨rfl, hlen1, _⟩ := hr1.handle
  obtain ⟨rfl, hlen2, _⟩ := hr2.handle
  have := hl.tasks_keep.length_le
  simp only
  omega

end Registration

section RegistrationEvaluations

theorem failedAdd_reachable : Reachable failedAdd :=
  Later.step Later.refl
    (@Step.add2dep CTy _ cden _ _ CTy.int CTy.int CTy.int addFunc id (.value 5)
      TaskID.invalid (by decide) trivial rfl)

theorem selfRef_reachable : Reachable selfRef :=
  Later.step Later.refl
    (@Step.add2dep CTy _ cden _ _ CTy.int CTy.int CTy.int addFunc id (.value 1) ⟨0⟩
      (by decide) trivial rfl)

theorem dangling_reachable : Reachable dangling :=
  Later.step Later.refl
    (@Step.add2dep CTy _ cden _ _ CTy.int CTy.int CTy.int addFunc id (.value 1) ⟨7⟩
      (by decide) trivial rfl)

theorem widen1_reachable : Reachable widen1 :=
  demo1_reachable.step
    (@Step.add2dep CTy _ cden _ _ CTy.int CTy.int CTy.long widenFunc id (.value 1) ⟨0⟩
      (by decide) trivial rfl)

/-- C11, the code at the failing input: on a fresh scheduler `add(addFunc, 5, TaskID())`
throws `invalid_argument` after it has stored the task. The table goes from 0 tasks to
1, the next `add` returns handle 1 where it returns 0 without the failed call, and
`executeAll` throws `invalid_argument` where it returns without the failed call. -/
theorem C11_failed_add_stores_task :
    add2dep CTy.int CTy.int CTy.int addFunc id (.value 5) TaskID.invalid
        (TTaskScheduler.new : TTaskScheduler cden) = .throw .invalid_argument failedAdd ∧
    (TTaskScheduler.new : TTaskScheduler cden).tasks_.length = 0 ∧
    failedAdd.tasks_.length = 1 ∧
    (add1 CTy.int CTy.int simpleFunc (.value 5)
        (TTaskScheduler.new : TTaskScheduler cden)).1 = ⟨0⟩ ∧
    (add1 CTy.int CTy.int simpleFunc (.value 5) failedAdd).1 = ⟨1⟩ ∧
    (∀ fuel, (executeAll (fuel + 1) (TTaskScheduler.new : TTaskScheduler cden)).value? =
      some ()) ∧
    (∀ fuel, (executeAll (fuel + 4) failedAdd).exc? = some .invalid_argument) := by
  have h1 : (executeAll 1 (TTaskScheduler.new : TTaskScheduler cden)).value? = some () := rfl
  have h4 : (executeAll 4 failedAdd).exc? = some .invalid_argument := rfl
  exact ⟨rfl, rfl, rfl, rfl, rfl, fun fuel => executeAll_from_value h1 fuel,
    fun fuel => executeAll_from_exc h4 fuel⟩

/-- C13, the code at the failing input: on a fresh scheduler `B = add(addFunc, 1,
TaskID(7))` records the edge to the handle 7, which no task has. Resolving `B` with
`getResult` or with `executeAll` follows the edge in `executeTask` and indexes `tasks_`
at 7, out of bounds; no `out_of_range` is thrown. -/
theorem C13_unregistered_dependency :
    dangling.dependencies_ ⟨0⟩ = [⟨7⟩] ∧ dangling.tasks_.length = 1 ∧
    (∀ fuel, getResult (fuel + 5) CTy.int ⟨0⟩ dangling = .undefined) ∧
    (∀ fuel, executeAll (fuel + 5) dangling = .undefined) := by
  have hG : getResult 5 CTy.int ⟨0⟩ dangling = .undefined := rfl
  have hA : executeAll 5 dangling = .undefined := rfl
  exact ⟨rfl, rfl, fun fuel => getResult_from hG (by simp) fuel,
    fun fuel => executeAll_from hA (by simp) fuel⟩

/-- C14, the code at the failing input: on a fresh scheduler the call
`add(addFunc, 5, TaskID())` throws, and the first `add` that succeeds, with one or with
two arguments, returns handle 1. -/
theorem C14_first_handle_after_failed_add :
    (add2dep CTy.int CTy.int CTy.int addFunc id (.value 5) TaskID.invalid
        (TTaskScheduler.new : TTaskScheduler cden)).state? = some failedAdd ∧
    (add2dep CTy.int CTy.int CTy.int addFunc id (.value 5) TaskID.invalid
        (TTaskScheduler.new : TTaskScheduler cden)).exc? = some .invalid_argument ∧
    (add1 CTy.int CTy.int simpleFunc (.value 5) failedAdd).1 = ⟨1⟩ ∧
    (add2 CTy.int CTy.int CTy.int addFunc (.value 5) (.value 10) false failedAdd).1 = ⟨1⟩ ∧
    (add2dep CTy.int CTy.int CTy.int addFunc id (.value 5) ⟨0⟩ failedAdd).value? =
      some ⟨1⟩ :=
  ⟨rfl, rfl, rfl, rfl, rfl⟩

/-- C19, the code at the failing input. In `widen1` the callable of task 1 takes two
`int` and returns `long`, and its dependency, task 0, has an `int` result:
`getResult<long>` on task 1 throws `bad_cast`, because `execute` asks for the result of
task 0 as `long`. In `widen2` the dependency has a `long` result, which is not the second
parameter type, and `getResult<long>` on task 1 returns `1 + 6`. -/
theorem C19_dependency_requested_at_result_type :
    (∀ fuel, (getResult (fuel + 6) CTy.long ⟨1⟩ widen1).exc? = some .bad_cast) ∧
    (∀ fuel, (getResult (fuel + 6) CTy.long ⟨1⟩ widen2).value? = some (widenFunc 1 6)) := by
  have h1 : (getResult 6 CTy.long ⟨1⟩ widen1).exc? = some .bad_cast := rfl
  have h2 : (getResult 6 CTy.long ⟨1⟩ widen2).value? = some (widenFunc 1 6) := rfl
  exact ⟨fun fuel => getResult_from_exc h1 fuel, fun fuel => getResult_from_value h2 fuel⟩

end RegistrationEvaluations

/-! ## Failed results, termination and recorded edges -/

section LaterClaims

variable {Ty : Type} [DecidableEq Ty] {den : Ty → Type}

/-- Two runs of `getResult` that did not run out of fuel have the same result. -/
theorem getResult_deterministic {f1 f2 : Nat} {T : Ty} {id : TaskID}
    {s : TTaskScheduler den} (h1 : getResult f1 T id s ≠ .timeout)
    (h2 : getResult f2 T id s ≠ .timeout) : getResult f1 T id s = getResult f2 T id s := by
  rw [← getResult_fuel (le_max_left f1 f2) h1, ← getResult_fuel (le_max_right f1 f2) h2]

/-- The loop of `executeAll` settles when every reference points to an earlier task. -/
theorem settles_all : ∀ (m i : Nat) (visited : List TaskID) (s : TTaskScheduler den),
    Inv s → Backward s → s.tasks_.length - i ≤ m →
    Settles (fun f => executeAllFrom f i visited s) := by
  intro m
  induction m with
  | zero =>
    intro i visited s _ _ hm
    apply settles_succ
    simp only [executeAllFrom_succ, if_neg (by omega : ¬ i < s.tasks_.length)]
    exact settles_ok _ _
  | succ m ih =>
    intro i visited s hs hb hm
    apply settles_succ
    simp only [executeAllFrom_succ]
    by_cases hi : i < s.tasks_.length
    · simp only [if_pos hi]
      by_cases hv : (⟨i⟩ : TaskID) ∈ visited
      · simp only [if_pos hv]
        exact ih (i + 1) visited s hs hb (by omega)
      · simp only [if_neg hv]
        refine settles_bind (settles_task i ⟨i⟩ rfl s hs hb hi visited) fun F v1 s1 h1 => ?_
        obtain ⟨hs1, he1, _⟩ := executeTask_post hs h1
        exact ih (i + 1) v1 s1 hs1 (hb.carry_back he1) (by rw [he1.tasks]; omega)
    · simp only [if_neg hi]
      exact settles_ok _ _

theorem settles_executeAll {s : TTaskScheduler den} (hs : Inv s) (hb : Backward s) :
    Settles (fun f => executeAll f s) :=
  settles_all s.tasks_.length 0 [] s hs hb (by omega)

theorem EdgesRecorded.fresh : EdgesRecorded (TTaskScheduler.new : TTaskScheduler den) := by
  intro A B h
  simp [TTaskScheduler.new] at h

theorem EdgesRecorded.push_task {s : TTaskScheduler den} (h : EdgesRecorded s)
    (task : ITask den) : EdgesRecorded { s with tasks_ := s.tasks_ ++ [task] } := by
  intro A B hB
  obtain ⟨h1, h2, h3, X, Y, Z, g, conv, a, h4⟩ := h A B hB
  refine ⟨h1, h2, by simp; omega, X, Y, Z, g, conv, a, ?_⟩
  simp only
  rw [List.getElem?_append_left h3]
  exact h4

theorem EdgesRecorded.transfer {s s' : TTaskScheduler den} (h : EdgesRecorded s)
    (ht : s'.tasks_ = s.tasks_) (hd : s'.dependencies_ = s.dependencies_) :
    EdgesRecorded s' := by
  intro A B hB
  rw [hd] at hB ⊢
  rw [ht]
  exact h A B hB

theorem EdgesRecorded.none_at_end {s : TTaskScheduler den} (h : EdgesRecorded s) :
    s.dependencies_ ⟨s.tasks_.length⟩ = [] := by
  cases hd : s.dependencies_ ⟨s.tasks_.length⟩ with
  | nil => rfl
  | cons B rest =>
    obtain ⟨_, _, h3, _⟩ := h ⟨s.tasks_.length⟩ B (by simp [hd])
    simp at h3

theorem Step.edges_step {s s' : TTaskScheduler den} (hstep : Step s s')
    (h : EdgesRecorded s) : EdgesRecorded s' := by
  cases hstep with
  | add1 A R func arg1 _ _ => exact h.push_task _
  | add2 A B R func arg1 arg2 rightFirst _ _ _ => exact h.push_task _
  | add2dep X Y Z func conv arg1 arg2 _ _ hr =>
    unfold TaskScheduler.add2dep at hr
    split at hr
    · simp only [Res.state?, Option.some.injEq] at hr
      subst hr
      exact h.push_task _
    · rename_i hv
      simp only [Res.state?, Option.some.injEq] at hr
      subst hr
      have hp := h.push_task (.task2dep X Y Z func conv arg1 arg2)
      intro A B hB
      by_cases hA : A = ⟨s.tasks_.length⟩
      · subst hA
        simp only [addDependency, Function.update_same, h.none_at_end, List.nil_append,
          List.mem_singleton] at hB ⊢
        subst hB
        refine ⟨rfl, by simpa using hv, by simp, X, Y, Z, func, conv, arg1, by simp⟩
      · simp only [addDependency, Function.update_noteq hA] at hB ⊢
        exact hp A B hB
  | getFutureResult T id hr => rw [getFutureResult_state hr]; exact h
  | getResult fuel T id hr =>
    have he := ((frame fuel).1 T id _).onState hr
    exact h.transfer he.tasks he.deps
  | materialize fuel T id hr =>
    have he := ((frame fuel).1 T id _).onState hr
    exact h.transfer he.tasks he.deps
  | executeAll fuel hr =>
    have he := (frameAll fuel 0 [] _).onState hr
    exact h.transfer he.tasks he.deps

theorem Reachable.edges_recorded {s : TTaskScheduler den} (h : Reachable s) :
    EdgesRecorded s := by
  induction h with
  | refl => exact EdgesRecorded.fresh
  | step _ hstep ih => exact hstep.edges_step ih

/-- C12, as amended. Let `getResult<R>(h)` throw in a reachable state. An entry that the
cache held for `h` before the call is still the same. When `h` had no entry, either it
still has none, or the task of `h` was computed and only the typed retrieval failed: the
exception is `bad_cast` and the cache now holds the value of the task of `h`, whose type
is not `R`. Materialising a future bound to `h` is the same call. -/
theorem C12_failed_result {s s' : TTaskScheduler den} (hs : Reachable s) {fuel : Nat}
    {R : Ty} {h : TaskID} {e : Exc} (hr : getResult fuel R h s = .throw e s') :
    (∀ a, s.results_ h = some a → s'.results_ h = some a) ∧
    (s'.results_ h = s.results_ h ∨
      (s.results_ h = none ∧ e = .bad_cast ∧
        ∃ (T : Ty) (x : den T), T ≠ R ∧ s'.results_ h = some (Any.of T x) ∧
          ∃ k, denote k s.tasks_ h = some (Any.of T x))) ∧
    materialize fuel R h s = .throw e s' := by
  obtain ⟨hinv', hext⟩ := getResult_throw hs.inv hr
  refine ⟨hext.results h, ?_, hr⟩
  cases hc : s.results_ h with
  | some a => exact Or.inl (hext.results h a hc)
  | none =>
    cases hc' : s'.results_ h with
    | none => exact Or.inl rfl
    | some a =>
      right
      obtain ⟨_, k, hk⟩ := hinv'.cached h a hc'
      rw [hext.tasks] at hk
      obtain ⟨T, x, rfl⟩ := hinv'.nonempty hc'
      obtain ⟨f2, s2, hs2, _, hc2, hr2⟩ := (complete k).2 R h _ s hs.inv hk
      have hdone := castResult_done R hs2 (by simp [hc2] : s2.results_ h ≠ none)
      have heq := getResult_deterministic (by rw [hr]; simp)
        (by rw [hr2]; exact hdone.ne_timeout : getResult f2 R h s ≠ .timeout)
      rw [hr, hr2, castResult_some R hc2] at heq
      by_cases hT : T = R
      · subst hT
        rw [any_cast_of] at heq
        simp at heq
      · rw [any_cast_of_ne x hT] at heq
        simp only [Res.throw.injEq] at heq
        exact ⟨rfl, heq.1, T, x, hT, rfl, k, hk⟩

/-- C18. In a reachable state in which every reference of a stored task, a raw handle or
a future, points to a task stored before it, every operation runs to completion: with
enough fuel `getResult`, the materialisation of a future and `executeAll` return a value
or throw one of the three exceptions, and more fuel does not change the result; so does
`executeTask` on every stored task. The proof is by induction on the handle index. -/
theorem C18_operations_terminate {s : TTaskScheduler den} (hs : Reachable s)
    (hb : Backward s) :
    (∀ (T : Ty) (id : TaskID), Settles (fun fuel => getResult fuel T id s)) ∧
    (∀ (T : Ty) (id : TaskID), Settles (fun fuel => materialize fuel T id s)) ∧
    Settles (fun fuel => executeAll fuel s) ∧
    (∀ (id : TaskID) (visited : List TaskID), id.id_ < s.tasks_.length →
      Settles (fun fuel => executeTask fuel id visited s)) :=
  ⟨fun T id => settles_getResult hs.inv hb T id,
   fun T id => settles_getResult hs.inv hb T id,
   settles_executeAll hs.inv hb,
   fun id visited hlt => settles_task id.id_ id rfl s hs.inv hb hlt visited⟩

/-- C20, as amended. In every reachable state, every recorded edge `(A, B)` is the one
edge of the stored task `A`, a two-argument task whose second argument is the handle
`B`: `A` is below the number of stored tasks and `B` is not the sentinel. `B` need not be
registered: in every reachable state `add(g, a, h)` with any handle `h` other than the
sentinel returns the new handle and records the edge from it to `h`, whether `h` is an
earlier handle, the new handle itself, a later one or one that no task has. -/
theorem C20_recorded_edges {s : TTaskScheduler den} (hs : Reachable s) :
    (∀ A B : TaskID, B ∈ s.dependencies_ A →
      s.dependencies_ A = [B] ∧ B ≠ TaskID.invalid ∧ A.id_ < s.tasks_.length ∧
      ∃ (X Y Z : Ty) (g : den X → den Y → den Z) (conv : den Z → den Y) (a : Arg den X),
        s.tasks_[A.id_]? = some (.task2dep X Y Z g conv a B)) ∧
    (∀ (X Y Z : Ty) (g : den X → den Y → den Z) (conv : den Z → den Y) (a : Arg den X)
        (h : TaskID), s.tasks_.length < INVALID_TASK_ID → a.Made → h ≠ TaskID.invalid →
      ∃ s', add2dep X Y Z g conv a h s = .ok ⟨s.tasks_.length⟩ s' ∧ Reachable s' ∧
        s'.dependencies_ ⟨s.tasks_.length⟩ = [h]) := by
  have hne : ∀ B : TaskID, B.isValid = true → B ≠ TaskID.invalid := by
    rintro B h2 rfl
    simp [TaskID.invalid, TaskID.isValid] at h2
  refine ⟨fun A B hB => ?_, fun X Y Z g conv a h hroom hmade hh => ?_⟩
  · obtain ⟨h1, h2, h3, h4⟩ := hs.edges_recorded A B hB
    exact ⟨h1, hne B h2, h3, h4⟩
  · have hv : h.isValid = true := by
      cases hb : h.isValid
      · exfalso
        apply hh
        rcases h with ⟨n⟩
        simp only [TaskID.isValid, bne_eq_false_iff_eq] at hb
        simp [TaskID.invalid, hb]
      · rfl
    have hrun := add2dep_valid X Y Z g conv a s hv
    have hs' : Reachable (addDependency ⟨s.tasks_.length⟩ h
        { s with tasks_ := s.tasks_ ++ [.task2dep X Y Z g conv a h] }) :=
      hs.step (Step.add2dep X Y Z g conv a h hroom hmade (by rw [hrun]; rfl))
    have hmem : h ∈ (addDependency ⟨s.tasks_.length⟩ h
        { s with tasks_ := s.tasks_ ++ [.task2dep X Y Z g conv a h] }).dependencies_
          ⟨s.tasks_.length⟩ := by
      simp [addDependency]
    exact ⟨_, hrun, hs', (hs'.edges_recorded _ h hmem).1⟩

end LaterClaims

section LaterWitnesses

/-- C12, counterexample: `getResult<long>` on the uncached task 0 of `demo1`, whose
callable returns an `int`, throws `bad_cast`, and the cache, which held nothing for the
handle, now holds the `int` 6 for it. -/
theorem C12_counterexample :
    (getResult 4 CTy.long ⟨0⟩ demo1).exc? = some .bad_cast ∧
    demo1.results_ ⟨0⟩ = none ∧
    ((getResult 4 CTy.long ⟨0⟩ demo1).stateOr demo1).results_ ⟨0⟩ =
      some (Any.of CTy.int (6 : Int)) :=
  ⟨rfl, rfl, rfl⟩

/-- C12, witness: the same failed call. -/
theorem C12_witness :
    (∀ a, demo1.results_ ⟨0⟩ = some a →
      ((getResult 4 CTy.long ⟨0⟩ demo1).stateOr demo1).results_ ⟨0⟩ = some a) ∧
    (((getResult 4 CTy.long ⟨0⟩ demo1).stateOr demo1).results_ ⟨0⟩ = demo1.results_ ⟨0⟩ ∨
      (demo1.results_ ⟨0⟩ = none ∧ Exc.bad_cast = .bad_cast ∧
        ∃ (T : CTy) (x : cden T), T ≠ CTy.long ∧
          ((getResult 4 CTy.long ⟨0⟩ demo1).stateOr demo1).results_ ⟨0⟩ =
            some (Any.of T x) ∧
          ∃ k, denote k demo1.tasks_ ⟨0⟩ = some (Any.of T x))) ∧
    materialize 4 CTy.long ⟨0⟩ demo1 =
      .throw .bad_cast ((getResult 4 CTy.long ⟨0⟩ demo1).stateOr demo1) :=
  C12_failed_result demo1_reachable
    (show getResult 4 CTy.long ⟨0⟩ demo1 =
      .throw .bad_cast ((getResult 4 CTy.long ⟨0⟩ demo1).stateOr demo1) from rfl)

/-- C18, witness: the scheduler of the test `GetResultForTaskWithMultipleDependencies`
before its run. -/
theorem C18_witness :
    Settles (fun fuel => getResult fuel CTy.int ⟨3⟩ demo4) ∧
    Settles (fun fuel => materialize fuel CTy.int ⟨0⟩ demo4) ∧
    Settles (fun fuel => executeAll fuel demo4) :=
  ⟨(C18_operations_terminate demo4_reachable demo4_wellTyped.backward).1 CTy.int ⟨3⟩,
   (C18_operations_terminate demo4_reachable demo4_wellTyped.backward).2.1 CTy.int ⟨0⟩,
   (C18_operations_terminate demo4_reachable demo4_wellTyped.backward).2.2.1⟩

/-- C20, counterexample: `add(addFunc, 1, TaskID(0))` on a fresh scheduler records the
edge from task 0 to itself, and `add(addFunc, 1, TaskID(7))` records an edge to the
handle 7 with one task stored. -/
theorem C20_counterexample :
    Reachable selfRef ∧ (⟨0⟩ : TaskID) ∈ selfRef.dependencies_ ⟨0⟩ ∧ ¬ ((0 : Nat) < 0) ∧
    Reachable dangling ∧ (⟨7⟩ : TaskID) ∈ dangling.dependencies_ ⟨0⟩ ∧
    ¬ (7 < dangling.tasks_.length) :=
  ⟨selfRef_reachable, by decide, by decide, dangling_reachable, by decide, by decide⟩

/-- C20, witness: the edge from task 3 to task 2 of the test
`GetResultForTaskWithMultipleDependencies`, and a call `add(addFunc, 1, TaskID(9))` on
that scheduler, which holds four tasks. -/
theorem C20_witness :
    (demo4.dependencies_ ⟨3⟩ = [⟨2⟩] ∧ (⟨2⟩ : TaskID) ≠ TaskID.invalid ∧
      (3 : Nat) < demo4.tasks_.length ∧
      ∃ (X Y Z : CTy) (g : cden X → cden Y → cden Z) (conv : cden Z → cden Y)
        (a : Arg cden X), demo4.tasks_[3]? = some (.task2dep X Y Z g conv a ⟨2⟩)) ∧
    (∃ s', add2dep CTy.int CTy.int CTy.int addFunc id (.value 1) ⟨9⟩ demo4 =
        .ok ⟨demo4.tasks_.length⟩ s' ∧ Reachable s' ∧
      s'.dependencies_ ⟨demo4.tasks_.length⟩ = [⟨9⟩]) :=
  ⟨(C20_recorded_edges demo4_reachable).1 ⟨3⟩ ⟨2⟩ (by decide),
   (C20_recorded_edges demo4_reachable).2 CTy.int CTy.int CTy.int addFunc id (.value 1) ⟨9⟩
     (by decide) trivial (by decide)⟩

end LaterWitnesses
/-! ## `executeAll` against one-by-one resolution, and the types of the dependencies -/

section Resolution

variable {Ty : Type} [DecidableEq Ty] {den : Ty → Type}

/-- A call of `getResult` on a task that has a value leaves that value in the cache,
whether the typed retrieval then succeeds or throws. -/
theorem getResult_state_cached {F k : Nat} {T : Ty} {id : TaskID} {a : Any den}
    {s s1 : TTaskScheduler den} (hs : Inv s) (hk : denote k s.tasks_ id = some a)
    (h : (getResult F T id s).state? = some s1) : s1.results_ id = some a := by
  obtain ⟨f1, s1', hs1', _, hc1, hr1⟩ := (complete k).2 T id a s hs hk
  have hdone := castResult_done T hs1' (by simp [hc1] : s1'.results_ id ≠ none)
  have hsame := castResult_same T id s1'
  have hne : getResult F T id s ≠ .timeout := by
    intro ht
    rw [ht] at h
    simp [Res.state?] at h
  have h1 : getResult (max F f1) T id s = getResult F T id s :=
    getResult_fuel (le_max_left F f1) hne
  have h2 : getResult (max F f1) T id s = getResult f1 T id s :=
    getResult_fuel (le_max_right F f1) (by rw [hr1]; exact hdone.ne_timeout)
  rw [← h1, h2, hr1] at h
  cases hc : castResult T id s1' with
  | ok v s' =>
    rw [hc] at hsame h
    simp only [Res.All] at hsame
    simp only [Res.state?, Option.some.injEq] at h
    rw [← h, hsame]
    exact hc1
  | throw e s' =>
    rw [hc] at hsame h
    simp only [Res.All] at hsame
    simp only [Res.state?, Option.some.injEq] at h
    rw [← h, hsame]
    exact hc1
  | abort => rw [hc] at h; simp [Res.state?] at h
  | undefined => rw [hc] at h; simp [Res.state?] at h
  | timeout => rw [hc] at h; simp [Res.state?] at h

/-- A sequence of `getResult` calls on a state with backward references returns, and
afterwards every requested task that has a value is cached with that value. -/
theorem resolveEach_settles :
    ∀ (reqs : List (Ty × TaskID)) (s : TTaskScheduler den), Inv s → Backward s →
      ∃ fuel sE, resolveEach fuel reqs s = some sE ∧ Inv sE ∧ Extends s sE ∧
        ∀ p ∈ reqs, ∀ k a, denote k s.tasks_ p.2 = some a → sE.results_ p.2 = some a := by
  intro reqs
  induction reqs with
  | nil =>
    intro s hs _
    exact ⟨0, s, rfl, hs, Extends.refl s, by simp⟩
  | cons p rest ih =>
    obtain ⟨T, id⟩ := p
    intro s hs hb
    obtain ⟨F, hd', _⟩ := settles_getResult hs hb T id
    have hd : (getResult F T id s).Done := hd'
    have key : ∀ s1, (getResult F T id s).state? = some s1 → Inv s1 → Extends s s1 →
        ∃ fuel sE, resolveEach fuel ((T, id) :: rest) s = some sE ∧ Inv sE ∧ Extends s sE ∧
          ∀ p ∈ (T, id) :: rest, ∀ k a, denote k s.tasks_ p.2 = some a →
            sE.results_ p.2 = some a := by
      intro s1 hst hs1 he1
      obtain ⟨f2, sE, h2, hsE, heE, hall⟩ := ih s1 hs1 (hb.carry_back he1)
      refine ⟨max F f2, sE, ?_, hsE, he1.trans heE, ?_⟩
      · rw [resolveEach_cons, getResult_fuel (le_max_left F f2) hd.ne_timeout]
        cases hr : getResult F T id s with
        | ok v s' =>
          rw [hr] at hst
          simp only [Res.state?, Option.some.injEq] at hst
          subst hst
          exact resolveEach_fuel (le_max_right F f2) _ _ _ h2
        | throw e s' =>
          rw [hr] at hst
          simp only [Res.state?, Option.some.injEq] at hst
          subst hst
          exact resolveEach_fuel (le_max_right F f2) _ _ _ h2
        | abort => rw [hr] at hst; simp [Res.state?] at hst
        | undefined => rw [hr] at hst; simp [Res.state?] at hst
        | timeout => rw [hr] at hst; simp [Res.state?] at hst
      · intro p hp k a hk
        rcases List.mem_cons.mp hp with rfl | hp
        · exact heE.results _ _ (getResult_state_cached hs hk hst)
        · exact hall p hp k a (by rw [he1.tasks]; exact hk)
    cases hr : getResult F T id s with
    | ok v s1 =>
      obtain ⟨hs1, he1, _⟩ := getResult_post hs hr
      exact key s1 (by rw [hr]; rfl) hs1 he1
    | throw e s1 =>
      obtain ⟨hs1, he1⟩ := getResult_throw hs hr
      exact key s1 (by rw [hr]; rfl) hs1 he1
    | abort => rw [hr] at hd; exact absurd hd (by simp [Res.Done])
    | undefined => rw [hr] at hd; exact absurd hd (by simp [Res.Done])
    | timeout => rw [hr] at hd; exact absurd hd (by simp [Res.Done])

/-- Where the second parameter type of every callable with a handle as second argument is
its result type, the type of the parameter is the type that the code requests. -/
theorem WellTyped.of_paramTyped {s : TTaskScheduler den} (hp : ParamTyped s)
    (hsame : ∀ (i : Nat) (X Y Z : Ty) (g : den X → den Y → den Z) (conv : den Z → den Y)
      (a : Arg den X) (B : TaskID), s.tasks_[i]? = some (.task2dep X Y Z g conv a B) → Y = Z) :
    WellTyped s := by
  intro i task ht p hmem
  cases task with
  | task1 A R func arg1 => exact hp i _ ht p hmem
  | task2 A B R func arg1 arg2 rightFirst => exact hp i _ ht p hmem
  | task2dep X Y Z g conv a B =>
    have hYZ := hsame i X Y Z g conv a B ht
    subst hYZ
    exact hp i _ ht p hmem

/-- In a reachable state whose references all point to earlier tasks of the type of the
receiving parameter, and in which the second parameter type of every callable with a
handle as second argument is its result type, `executeAll` returns, caches every stored
task, calls exactly the callables of the tasks that had no cached result, each once, and
a second run right after the first calls nothing and leaves the cache as it is. -/
theorem executeAll_paramTyped {s : TTaskScheduler den} (hs : Reachable s)
    (hp : ParamTyped s)
    (hsame : ∀ (i : Nat) (X Y Z : Ty) (g : den X → den Y → den Z) (conv : den Z → den Y)
      (a : Arg den X) (B : TaskID), s.tasks_[i]? = some (.task2dep X Y Z g conv a B) → Y = Z) :
    ∃ fuel s' new, executeAll fuel s = .ok () s' ∧
      (∀ i < s.tasks_.length, s'.results_ ⟨i⟩ ≠ none) ∧
      s'.invoked = s.invoked ++ new ∧ new.Nodup ∧
      (∀ id, id ∈ new ↔ (id.id_ < s.tasks_.length ∧ s.results_ id = none)) ∧
      (∀ id a, s.results_ id = some a → s'.results_ id = some a) ∧
      ((∀ i < s.tasks_.length, s.results_ ⟨i⟩ ≠ none) →
        s'.results_ = s.results_ ∧ s'.invoked = s.invoked) ∧
      ∃ fuel2 s'', executeAll fuel2 s' = .ok () s'' ∧
        s''.results_ = s'.results_ ∧ s''.invoked = s'.invoked :=
  executeAll_wellTyped hs (WellTyped.of_paramTyped hp hsame)

end Resolution

section ResolutionClaims

variable {Ty : Type} [DecidableEq Ty] {den : Ty → Type}

/-- C7, as amended. Let every reference of a reachable state `s` point to an earlier
task. `executeAll` on `s` runs to completion. For every handle `H` and type `R`,
`getResult<R>(H)` called after `executeAll` and called directly on `s` both settle and
return the same value (or both throw). Every sequence of `getResult` calls on `s` that
asks for every stored handle, in any order and at any types, by a caller that catches
the exceptions, runs to completion and caches every result that `executeAll` caches,
with the same value; when `executeAll` returned without an exception, the two end with
the same cache. -/
theorem C7_order_independence {s : TTaskScheduler den} (hs : Reachable s)
    (hb : Backward s) :
    Settles (fun fuel => executeAll fuel s) ∧
    (∀ fuelAll sAll, (executeAll fuelAll s).state? = some sAll → ∀ (R : Ty) (H : TaskID),
      ∃ fuel, (getResult fuel R H s).Done ∧ (getResult fuel R H sAll).Done ∧
        (getResult fuel R H s).value? = (getResult fuel R H sAll).value?) ∧
    (∀ fuelAll sAll, (executeAll fuelAll s).state? = some sAll →
      ∀ reqs : List (Ty × TaskID),
      (∀ i < s.tasks_.length, ∃ T, (T, (⟨i⟩ : TaskID)) ∈ reqs) →
      ∃ fuel sEach, resolveEach fuel reqs s = some sEach ∧
        (∀ id a, sAll.results_ id = some a → sEach.results_ id = some a) ∧
        (executeAll fuelAll s = .ok () sAll → sEach.results_ = sAll.results_)) := by
  refine ⟨settles_executeAll hs.inv hb, ?_, ?_⟩
  · intro fuelAll sAll hrun R H
    have hinvA : Inv sAll := (executeAll_sound fuelAll hs.inv).atState (fun _ _ h => h.1) hrun
    have hextA : Extends s sAll := (frameAll fuelAll 0 [] s).onState hrun
    obtain ⟨F1, hd1, hst1⟩ := settles_getResult hs.inv hb R H
    obtain ⟨F2, hd2, hst2⟩ := settles_getResult hinvA (hb.carry_back hextA) R H
    have h1 : getResult (max F1 F2) R H s = getResult F1 R H s := hst1 _ (le_max_left F1 F2)
    have h2 : getResult (max F1 F2) R H sAll = getResult F2 R H sAll :=
      hst2 _ (le_max_right F1 F2)
    have hd1' : (getResult (max F1 F2) R H s).Done := by rw [h1]; exact hd1
    have hd2' : (getResult (max F1 F2) R H sAll).Done := by rw [h2]; exact hd2
    exact ⟨max F1 F2, hd1', hd2', value_agrees hs.inv hinvA hextA.tasks hd1' hd2'⟩
  · intro fuelAll sAll hrun reqs hreqs
    have hinvA : Inv sAll := (executeAll_sound fuelAll hs.inv).atState (fun _ _ h => h.1) hrun
    have hextA : Extends s sAll := (frameAll fuelAll 0 [] s).onState hrun
    obtain ⟨fuel, sE, hE, hinvE, hextE, hallE⟩ := resolveEach_settles reqs s hs.inv hb
    have hsub : ∀ id a, sAll.results_ id = some a → sE.results_ id = some a := by
      intro id a ha
      obtain ⟨_, k, hk⟩ := hinvA.cached id a ha
      rw [hextA.tasks] at hk
      obtain ⟨T, hT⟩ := hreqs id.id_ (denote_lt hk)
      exact hallE (T, id) hT k a hk
    refine ⟨fuel, sE, hE, hsub, fun hok => ?_⟩
    have hpost := executeAll_sound fuelAll hs.inv
    rw [hok] at hpost
    have hallA : ∀ i < s.tasks_.length, sAll.results_ ⟨i⟩ ≠ none := hpost.2
    have hallE' : ∀ i < sAll.tasks_.length, sE.results_ ⟨i⟩ ≠ none := by
      intro i hi
      rw [hextA.tasks] at hi
      cases hr : sAll.results_ ⟨i⟩ with
      | none => exact absurd hr (hallA i hi)
      | some a => simp [hsub _ a hr]
    exact results_eq_of_all_cached hinvA hinvE (by rw [hextE.tasks, hextA.tasks])
      (by rw [hextA.tasks]; exact hallA) hallE'

end ResolutionClaims

section ResolutionEvaluations

theorem futureLong_reachable : Reachable futureLong :=
  (demo1_reachable.step
    (@Step.add1 CTy _ cden _ CTy.long CTy.int simpleFunc (.future ⟨0⟩) (by decide) rfl)).step
    (@Step.add1 CTy _ cden _ CTy.int CTy.int simpleFunc (.value 7) (by decide) trivial)

theorem futureLong_backward : Backward futureLong := by
  intro i task ht d hd
  have htasks : futureLong.tasks_ =
      [.task1 CTy.int CTy.int simpleFunc (.value 5),
       .task1 CTy.long CTy.int simpleFunc (.future ⟨0⟩),
       .task1 CTy.int CTy.int simpleFunc (.value 7)] := rfl
  rw [htasks] at ht
  rcases i with _ | _ | _ | i
  · simp only [List.getElem?_cons_zero, Option.some.injEq] at ht
    subst ht
    simp [ITask.refs, Arg.refs] at hd
  · simp only [List.getElem?_cons_succ, List.getElem?_cons_zero, Option.some.injEq] at ht
    subst ht
    simp only [ITask.refs, Arg.refs, List.mem_singleton] at hd
    subst hd
    decide
  · simp only [List.getElem?_cons_succ, List.getElem?_cons_zero, Option.some.injEq] at ht
    subst ht
    simp [ITask.refs, Arg.refs] at hd
  · simp at ht

theorem widen1_paramTyped : ParamTyped widen1 := by
  intro i task ht p hp
  have htasks : widen1.tasks_ =
      [.task1 CTy.int CTy.int simpleFunc (.value 5),
       .task2dep CTy.int CTy.int CTy.long widenFunc id (.value 1) ⟨0⟩] := rfl
  rw [htasks] at ht ⊢
  rcases i with _ | _ | i
  · simp only [List.getElem?_cons_zero, Option.some.injEq] at ht
    subst ht
    simp [ITask.expects, Arg.requests] at hp
  · simp only [List.getElem?_cons_succ, List.getElem?_cons_zero, Option.some.injEq] at ht
    subst ht
    simp only [ITask.expects, Arg.requests, List.mem_singleton] at hp
    subst hp
    simp [ITask.resultTy]
  · simp at ht

/-- C6, the code at the failing input. In `widen1` task 0 returns an `int` and task 1,
registered after it, has a callable that takes two `int` and returns `long`, with the
handle of task 0 as second argument: the one reference points to an earlier task whose
result has the second parameter type. Task 1 has no cached result, and `executeAll`
throws `bad_cast`, because `execute` asks for the result of task 0 as `long`; in the
state it leaves task 0 is cached, task 1 is not, and the callable of task 1 was never
called. -/
theorem C6_executeAll_second_parameter_type :
    Reachable widen1 ∧ ParamTyped widen1 ∧ widen1.tasks_.length = 2 ∧
    widen1.results_ ⟨0⟩ = none ∧ widen1.results_ ⟨1⟩ = none ∧
    ∀ fuel, ∃ s', executeAll (fuel + 5) widen1 = .throw .bad_cast s' ∧
      s'.results_ ⟨0⟩ = some (Any.of CTy.int (6 : Int)) ∧ s'.results_ ⟨1⟩ = none ∧
      s'.invoked = [⟨0⟩] := by
  have h5 : executeAll 5 widen1 = .throw .bad_cast ((executeAll 5 widen1).stateOr widen1) :=
    rfl
  exact ⟨widen1_reachable, widen1_paramTyped, rfl, rfl, rfl, fun fuel =>
    ⟨(executeAll 5 widen1).stateOr widen1, executeAll_from h5 (by simp) fuel, rfl, rfl, rfl⟩⟩

/-- C7, counterexample. Every reference of `futureLong` points to an earlier task; task
1 asks for the `int` result of task 0 as `long`. `executeAll` throws `bad_cast` at task 1
and leaves task 2 without a cached result; `getResult<int>` on the handles 0, 1 and 2,
one by one, caches the result 8 of task 2. -/
theorem C7_counterexample :
    Reachable futureLong ∧ Backward futureLong ∧ futureLong.tasks_.length = 3 ∧
    (∀ fuel, ∃ sAll, executeAll (fuel + 6) futureLong = .throw .bad_cast sAll ∧
      sAll.results_ ⟨2⟩ = none) ∧
    (∀ fuel, ∃ sEach,
      resolveEach (fuel + 5) [(CTy.int, ⟨0⟩), (CTy.int, ⟨1⟩), (CTy.int, ⟨2⟩)] futureLong =
        some sEach ∧
      sEach.results_ ⟨2⟩ = some (Any.of CTy.int (8 : Int))) := by
  have hA : executeAll 6 futureLong =
      .throw .bad_cast ((executeAll 6 futureLong).stateOr futureLong) := rfl
  have hE : resolveEach 5 [(CTy.int, ⟨0⟩), (CTy.int, ⟨1⟩), (CTy.int, ⟨2⟩)] futureLong =
      some ((resolveEach 5 [(CTy.int, ⟨0⟩), (CTy.int, ⟨1⟩), (CTy.int, ⟨2⟩)]
        futureLong).getD futureLong) := rfl
  exact ⟨futureLong_reachable, futureLong_backward, rfl,
    fun fuel => ⟨_, executeAll_from hA (by simp) fuel, rfl⟩,
    fun fuel => ⟨_, resolveEach_fuel (Nat.le_add_left 5 fuel) _ _ _ hE, rfl⟩⟩

/-- C7, witness: the scheduler of the test `GetResultForTaskWithMultipleDependencies`,
on which `executeAll` returns: `getResult<int>` on the last handle before and after the
run of `executeAll`, and the four handles resolved one by one in another order. Then
`futureLong`, on which `executeAll` throws: the three handles resolved one by one. -/
theorem C7_witness :
    (∃ fuel, (getResult fuel CTy.int ⟨3⟩ demo4).Done ∧ (getResult fuel CTy.int ⟨3⟩ demo5).Done ∧
      (getResult fuel CTy.int ⟨3⟩ demo4).value? = (getResult fuel CTy.int ⟨3⟩ demo5).value?) ∧
    (∃ fuel sEach,
      resolveEach fuel [(CTy.int, ⟨3⟩), (CTy.int, ⟨1⟩), (CTy.int, ⟨0⟩), (CTy.int, ⟨2⟩)] demo4 =
        some sEach ∧
      (∀ id a, demo5.results_ id = some a → sEach.results_ id = some a) ∧
      (executeAll 20 demo4 = .ok () demo5 → sEach.results_ = demo5.results_)) ∧
    executeAll 20 demo4 = .ok () demo5 ∧
    (∃ fuel sEach,
      resolveEach fuel [(CTy.int, ⟨2⟩), (CTy.int, ⟨1⟩), (CTy.int, ⟨0⟩)] futureLong =
        some sEach ∧
      (∀ id a, ((executeAll 6 futureLong).stateOr futureLong).results_ id = some a →
        sEach.results_ id = some a) ∧
      (executeAll 6 futureLong = .ok () ((executeAll 6 futureLong).stateOr futureLong) →
        sEach.results_ = ((executeAll 6 futureLong).stateOr futureLong).results_)) :=
  ⟨(C7_order_independence demo4_reachable demo4_wellTyped.backward).2.1 20 demo5 rfl
     CTy.int ⟨3⟩,
   (C7_order_independence demo4_reachable demo4_wellTyped.backward).2.2 20 demo5 rfl
     [(CTy.int, ⟨3⟩), (CTy.int, ⟨1⟩), (CTy.int, ⟨0⟩), (CTy.int, ⟨2⟩)]
     (fun i hi => by
       have h4 : i < 4 := hi
       interval_cases i <;> exact ⟨CTy.int, by simp⟩),
   rfl,
   (C7_order_independence futureLong_reachable futureLong_backward).2.2 6
     ((executeAll 6 futureLong).stateOr futureLong) rfl
     [(CTy.int, ⟨2⟩), (CTy.int, ⟨1⟩), (CTy.int, ⟨0⟩)]
     (fun i hi => by
       have h3 : i < 3 := hi
       interval_cases i <;> exact ⟨CTy.int, by simp⟩)⟩

end ResolutionEvaluations

end TaskScheduler
